import Mathlib

/-!
# mp_malloc: a shallow embedding of `src/alloc.c`

The allocator keeps its block headers inline in the heap it manages, so the
embedding models the heap as a byte-addressed memory and every header field as
a little-endian read or write of that memory.  Addresses are natural numbers.
They are not reduced modulo `2^64`: every address the allocator computes from a
break the OS really returned lies far below `2^64`.  Header fields are reduced
to their C width on every store.

Layout of `metadata_t` (LP64, little-endian, `sizeof(metadata_t) = 32`):

| field       | type          | offset | bytes |
|-------------|---------------|--------|-------|
| `size`      | `uint32_t`    | 0      | 4     |
| `capacity`  | `uint32_t`    | 4      | 4     |
| `used`      | `uint8_t`     | 8      | 1     |
| `next`      | `uint32_t`    | 12     | 4     |
| `prev`      | `uint32_t`    | 16     | 4     |
| `next_free` | `metadata_t*` | 24     | 8     |

Loops that follow `next_free` links are given a fuel argument; a result of
`none` means the fuel ran out (the C loop had not finished).
-/

namespace MpMalloc

/-! ## Byte memory -/

/-- Byte-addressed memory.  A cell is read modulo 256. -/
abbrev Mem := Nat → Nat

/-- Store one byte. -/
def wr8 (m : Mem) (a v : Nat) : Mem := fun x => if x = a then v % 256 else m x

/-- Little-endian load of `n` bytes starting at `a`. -/
def rdN (m : Mem) : Nat → Nat → Nat
  | _, 0 => 0
  | a, n + 1 => m a % 256 + 256 * rdN m (a + 1) n

/-- Little-endian store of the low `n` bytes of `v` starting at `a`. -/
def wrN (m : Mem) : Nat → Nat → Nat → Mem
  | _, _, 0 => m
  | a, v, n + 1 => wrN (wr8 m a v) (a + 1) (v / 256) n

/-- The constant `sizeof(metadata_t)`. -/
def HDR : Nat := 32

/-- Load `meta->size`. -/
def getSize (m : Mem) (p : Nat) : Nat := rdN m p 4
/-- Load `meta->capacity`. -/
def getCapacity (m : Mem) (p : Nat) : Nat := rdN m (p + 4) 4
/-- Load `meta->used`. -/
def getUsed (m : Mem) (p : Nat) : Nat := rdN m (p + 8) 1
/-- Load `meta->next`. -/
def getNext (m : Mem) (p : Nat) : Nat := rdN m (p + 12) 4
/-- Load `meta->prev`. -/
def getPrev (m : Mem) (p : Nat) : Nat := rdN m (p + 16) 4
/-- Load `meta->next_free`. -/
def getNextFree (m : Mem) (p : Nat) : Nat := rdN m (p + 24) 8

/-- Store `meta->size = v`. -/
def setSize (m : Mem) (p v : Nat) : Mem := wrN m p v 4
/-- Store `meta->capacity = v`. -/
def setCapacity (m : Mem) (p v : Nat) : Mem := wrN m (p + 4) v 4
/-- Store `meta->used = v`. -/
def setUsed (m : Mem) (p v : Nat) : Mem := wrN m (p + 8) v 1
/-- Store `meta->next = v`. -/
def setNext (m : Mem) (p v : Nat) : Mem := wrN m (p + 12) v 4
/-- Store `meta->prev = v`. -/
def setPrev (m : Mem) (p v : Nat) : Mem := wrN m (p + 16) v 4
/-- Store `meta->next_free = v`. -/
def setNextFree (m : Mem) (p v : Nat) : Mem := wrN m (p + 24) v 8

/-- The library routine `memset(p, v, n)`. -/
def memset (m : Mem) (p v n : Nat) : Mem :=
  fun x => if p ≤ x ∧ x < p + n then v % 256 else m x

/-- The library routine `memcpy(dst, src, n)` on regions that do not overlap. -/
def memcpy (m : Mem) (dst src n : Nat) : Mem :=
  fun x => if dst ≤ x ∧ x < dst + n then m (src + (x - dst)) else m x

/-! ## Allocator state and the OS primitive -/

/-- The globals of `alloc.c` (`startOfHeap`, `head`, `tail`, `free_head`), the
memory they point into, and the state of the operating system's program break:
the current break, the highest break the OS will grant, and a log of the
increments `sbrk` was called with (most recent first). -/
structure State where
  mem : Mem
  brk : Nat
  limit : Nat
  sbrkLog : List Nat
  startOfHeap : Nat
  head : Nat
  tail : Nat
  free_head : Nat

/-- The failure sentinel `(void *)-1` of `sbrk`. -/
def SBRK_FAILED : Nat := 18446744073709551615

/-- Modelled from the spec: the operating system primitive `sbrk`, which is not
part of the repository.  "Extend heap by N bytes, return previous break or
failure sentinel": the call succeeds exactly when the new break does not exceed
the limit the OS grants. -/
def sbrk (s : State) (inc : Nat) : Nat × State :=
  if s.brk + inc ≤ s.limit then
    (s.brk, { s with brk := s.brk + inc, sbrkLog := inc :: s.sbrkLog })
  else
    (SBRK_FAILED, { s with sbrkLog := inc :: s.sbrkLog })

/-- The allocator before its first call: all globals `NULL`, memory zero-filled,
the break at `brk0`. -/
def emptyState (brk0 limit : Nat) : State :=
  { mem := fun _ => 0, brk := brk0, limit := limit, sbrkLog := [],
    startOfHeap := 0, head := 0, tail := 0, free_head := 0 }

/-! ## The functions of `alloc.c` -/

/-- Conversion of a 64-bit unsigned value to `int` (two's complement, low 32 bits). -/
def toInt32 (x : Nat) : Int :=
  if x % 4294967296 < 2147483648 then ((x % 4294967296 : Nat) : Int)
  else ((x % 4294967296 : Nat) : Int) - 4294967296

/-- The function `addrDist`: the absolute distance of two addresses, returned as
`uint32_t`. -/
def addrDist (meta1 meta2 : Nat) : Nat :=
  (if meta2 > meta1 then meta2 - meta1 else meta1 - meta2) % 4294967296

/-- The function `add_to_free_list`: push `meta` on the free list. -/
def add_to_free_list (s : State) (meta : Nat) : State :=
  if meta = 0 then s
  else { s with mem := setNextFree s.mem meta s.free_head, free_head := meta }

/-- The function `splitFreeBlock(meta, size1, size2)` (lines 128-153). -/
def splitFreeBlock (s : State) (meta size1 size2 : Nat) : State :=
  let meta2 := meta + HDR + size1
  -- creates new node
  let m := setSize s.mem meta2 size2
  let m := setCapacity m meta2 size2
  let m := setUsed m meta2 0
  -- first half of block
  let m := setCapacity m meta size1
  let m := setSize m meta (getCapacity m meta)
  let s1 : State :=
    if getNext m meta ≠ 0 then { s with mem := setNextFree m meta2 (getNextFree m meta) }
    else { s with mem := m, tail := meta2 }
  -- meta->next = meta2->prev = addrDist(meta, meta2)
  let m := setPrev s1.mem meta2 (addrDist meta meta2)
  let m := setNext m meta (getPrev m meta2)
  let s2 : State := { s1 with mem := m }
  let s3 : State := if s2.tail = meta then { s2 with tail := meta2 } else s2
  add_to_free_list s3 meta2

/-- The search loop of `remove_from_free_list`:
`while (curr->next_free != meta) curr = curr->next_free;`.  Returns the final
`curr`. -/
def removeLoop (m : Mem) (meta : Nat) : Nat → Nat → Option Nat
  | 0, _ => none
  | fuel + 1, curr =>
    if getNextFree m curr ≠ meta then removeLoop m meta fuel (getNextFree m curr)
    else some curr

/-- The function `remove_from_free_list` (lines 155-169). -/
def remove_from_free_list (fuel : Nat) (s : State) (meta : Nat) : Option State :=
  if meta = 0 then some s
  else if s.free_head = meta then
    some { s with free_head := getNextFree s.mem meta, mem := setNextFree s.mem meta 0 }
  else
    match removeLoop s.mem meta fuel s.free_head with
    | none => none
    | some curr =>
      let m := setNextFree s.mem curr (getNextFree s.mem meta)
      some { s with mem := setNextFree m meta 0 }

/-- The function `coalesce(meta1, meta2)` (lines 171-190). -/
def coalesce (fuel : Nat) (s : State) (meta1 meta2 : Nat) : Option State :=
  match remove_from_free_list fuel s meta1 with
  | none => none
  | some s1 =>
    match remove_from_free_list fuel s1 meta2 with
    | none => none
    | some s2 =>
      -- the two `uint32_t` are added in 32 bits, `sizeof` in 64, the cast cuts to 32
      let v := ((getCapacity s2.mem meta1 + getCapacity s2.mem meta2) % 4294967296 + HDR)
                 % 4294967296
      let m := setCapacity s2.mem meta1 v
      let m := setSize m meta1 (getCapacity m meta1)
      let m := setNext m meta1 0
      let s3 : State :=
        if getNext m meta2 ≠ 0 then
          let newNext := meta2 + getNext m meta2
          let m := setPrev m newNext (addrDist meta1 newNext)
          let m := setNext m meta1 (getPrev m newNext)
          { s2 with mem := m }
        else { s2 with mem := m, tail := meta1 }
      some (add_to_free_list s3 meta1)

/-- The first-fit loop of `malloc` (lines 205-214).  Returns the final `meta`
(`0` is `NULL`: no block fits). -/
def findFit (m : Mem) (size_ : Nat) : Nat → Nat → Option Nat
  | 0, _ => none
  | fuel + 1, curr =>
    if curr = 0 then some 0
    else if getSize m curr ≥ size_ ∧ getUsed m curr = 0 then some curr
    else findFit m size_ fuel (getNextFree m curr)

/-- Lines 198-203 of `malloc`: the lazy query of the initial break.  The flag is
`true` when the function takes the early `return NULL`. -/
def startHeap (s : State) : State × Bool :=
  if s.startOfHeap = 0 then
    let r := sbrk s 0
    ({ r.2 with startOfHeap := r.1 }, decide (r.1 = SBRK_FAILED))
  else (s, false)

/-- Lines 219-238 of `malloc`: no free block fits, the heap is extended.  Returns
`ptr` and the new state.  The result of `sbrk` is used unchecked, as in the
source. -/
def extendHeap (s : State) (size_ : Nat) : Nat × State :=
  let r := sbrk s ((size_ + HDR) % 18446744073709551616)
  let ptr := r.1
  let m := setSize r.2.mem ptr size_
  let m := setCapacity m ptr size_
  let m := setUsed m ptr 1
  let s1 : State := { r.2 with mem := m }
  if s1.head = 0 then (ptr, { s1 with head := ptr, tail := ptr })
  else
    let m := setPrev s1.mem ptr (addrDist s1.tail ptr)
    let m := setNext m s1.tail (getPrev m ptr)
    (ptr, { s1 with mem := m, tail := ptr })

/-- Lines 243-256 of `malloc`: a larger free block is reused, split when the
`int` leftover exceeds `sizeof(metadata_t) + 16`. -/
def reuseBlock (fuel : Nat) (s : State) (meta size_ : Nat) : Option State :=
  let extraBytes : Int := toInt32 ((getSize s.mem meta + 18446744073709551616 - size_)
                                     % 18446744073709551616)
  let min_needed : Int := toInt32 (HDR + 16)
  let s1 : State :=
    if extraBytes > min_needed then
      let secondBlock := ((extraBytes - (HDR : Int)) % 18446744073709551616).toNat
      splitFreeBlock s meta (size_ % 4294967296) (secondBlock % 4294967296)
    else s
  let m := setSize s1.mem meta size_
  let m := setUsed m meta 1
  remove_from_free_list fuel { s1 with mem := m } meta

/-- The function `malloc` (lines 192-263).  Returns the pointer (`0` is `NULL`)
and the new state. -/
def malloc (fuel : Nat) (s : State) (size_ : Nat) : Option (Nat × State) :=
  if size_ = 0 then some (0, s)
  else
    let r := startHeap s
    if r.2 then some (0, r.1)
    else
      let s := r.1
      match findFit s.mem size_ fuel s.free_head with
      | none => none
      | some meta =>
        let res : Option (Nat × State) :=
          if meta = 0 then some (extendHeap s size_)
          else if size_ = getSize s.mem meta then some (meta, s)
          else (reuseBlock fuel s meta size_).map (fun s1 => (meta, s1))
        res.map (fun q => if q.1 ≠ 0 then (q.1 + HDR, q.2) else (0, q.2))

/-- The function `free` (lines 281-302). -/
def free (fuel : Nat) (s : State) (ptr : Nat) : Option State :=
  if ptr = 0 then some s
  else
    let meta := ptr - HDR
    let m := setUsed s.mem meta 0
    let m := setSize m meta (getCapacity m meta)
    let s1 : State :=
      if meta ≠ 0 then { s with mem := setNextFree m meta s.free_head, free_head := meta }
      else { s with mem := m }
    -- if the next block is free, merge
    let metaNext := meta + getNext s1.mem meta
    let r : Option State :=
      if getNext s1.mem meta ≠ 0 ∧ getUsed s1.mem metaNext = 0 then coalesce fuel s1 meta metaNext
      else some s1
    match r with
    | none => none
    | some s2 =>
      -- if the previous block is free, merge
      let metaPrev := meta - getPrev s2.mem meta
      if getPrev s2.mem meta ≠ 0 ∧ getUsed s2.mem metaPrev = 0 then coalesce fuel s2 metaPrev meta
      else some s2

/-- The function `realloc` (lines 349-370). -/
def realloc (fuel : Nat) (s : State) (ptr size_ : Nat) : Option (Nat × State) :=
  if ptr = 0 then malloc fuel s size_
  else if size_ = 0 then (free fuel s ptr).map (fun s1 => (0, s1))
  else
    let meta := ptr - HDR
    if size_ ≤ getCapacity s.mem meta then some (ptr, { s with mem := setSize s.mem meta size_ })
    else
      match malloc fuel s size_ with
      | none => none
      | some (newMem, s1) =>
        if newMem = 0 then some (0, s1)
        else
          let s2 : State := { s1 with mem := memcpy s1.mem newMem ptr (getSize s1.mem meta) }
          (free fuel s2 ptr).map (fun s3 => (newMem, s3))

/-- The function `calloc` (lines 33-41). -/
def calloc (fuel : Nat) (s : State) (num size : Nat) : Option (Nat × State) :=
  match malloc fuel s ((num * size) % 18446744073709551616) with
  | none => none
  | some (mem, s1) =>
    if mem ≠ 0 then
      some (mem, { s1 with mem := memset s1.mem mem 0 ((num * size) % 18446744073709551616) })
    else some (0, s1)

/-! ## Callers: sequences of public calls -/

/-- One step of a caller: a public call, or a store of one byte into the
payload of an allocation the caller holds.  Pointers are named by their position
in the list of pointers returned so far. -/
inductive Call where
  | allocate (size : Nat)
  | allocateZeroed (count elementSize : Nat)
  | release (k : Nat)
  | resize (k newSize : Nat)
  | store (k off byte : Nat)

/-- A caller's view: the allocator state, the pointers returned so far (oldest
first; a call that returned `NULL` records `0`), and the live allocations
(pointer and requested size), most recent first. -/
structure Client where
  st : State
  ptrs : List Nat
  live : List (Nat × Nat)

/-- Size recorded for a live pointer, if it is live. -/
def liveSize (live : List (Nat × Nat)) (p : Nat) : Option Nat :=
  (live.find? (fun e => e.1 = p)).map (fun e => e.2)

/-- Drop one live entry for `p`. -/
def dropLive : List (Nat × Nat) → Nat → List (Nat × Nat)
  | [], _ => []
  | e :: t, p => if e.1 = p then t else e :: dropLive t p

/-- Perform one call.  `none` when the call is not valid for this caller (the
pointer is not live, or a store lies outside the requested size) or when the fuel
does not suffice. -/
def step (fuel : Nat) (c : Client) : Call → Option Client
  | .allocate n =>
    (malloc fuel c.st n).map fun r =>
      { st := r.2, ptrs := c.ptrs ++ [r.1],
        live := if r.1 ≠ 0 then (r.1, n) :: c.live else c.live }
  | .allocateZeroed k n =>
    (calloc fuel c.st k n).map fun r =>
      { st := r.2, ptrs := c.ptrs ++ [r.1],
        live := if r.1 ≠ 0 then (r.1, (k * n) % 18446744073709551616) :: c.live else c.live }
  | .release k =>
    let p := c.ptrs.getD k 0
    match liveSize c.live p with
    | none => none
    | some _ =>
      (free fuel c.st p).map fun s => { st := s, ptrs := c.ptrs, live := dropLive c.live p }
  | .resize k n =>
    let p := c.ptrs.getD k 0
    match liveSize c.live p with
    | none => none
    | some _ =>
      (realloc fuel c.st p n).map fun r =>
        { st := r.2, ptrs := c.ptrs ++ [r.1],
          live := if n = 0 then dropLive c.live p
                  else if r.1 = 0 then c.live
                  else (r.1, n) :: dropLive c.live p }
  | .store k off byte =>
    let p := c.ptrs.getD k 0
    match liveSize c.live p with
    | none => none
    | some n =>
      if off < n then
        some { c with st := { c.st with mem := wr8 c.st.mem (p + off) byte } }
      else none

/-- Perform a sequence of calls. -/
def run (fuel : Nat) : Client → List Call → Option Client
  | c, [] => some c
  | c, call :: rest =>
    match step fuel c call with
    | none => none
    | some c1 => run fuel c1 rest

/-- A caller of the empty allocator. -/
def newClient (brk0 limit : Nat) : Client :=
  { st := emptyState brk0 limit, ptrs := [], live := [] }

/-- The blocks of the free list, following `next_free` from `p` (at most `fuel`
of them). -/
def freeWalk (m : Mem) : Nat → Nat → List Nat
  | 0, _ => []
  | fuel + 1, p => if p = 0 then [] else p :: freeWalk m fuel (getNextFree m p)

/-- The blocks of the heap list, following `next` from `p` (at most `fuel` of
them). -/
def heapWalk (m : Mem) : Nat → Nat → List Nat
  | 0, _ => []
  | fuel + 1, p =>
    if p = 0 then [] else if getNext m p = 0 then [p] else p :: heapWalk m fuel (p + getNext m p)

/-! ## Vocabulary of the claims -/

/-- The free list is the `NULL`-terminated chain `L`: `p` is the first block
of `L`, every block's `next_free` is the next block of `L`, and the last block's
`next_free` is `NULL`. -/
def FreeChain (m : Mem) : Nat → List Nat → Prop
  | p, [] => p = 0
  | p, a :: t => p = a ∧ a ≠ 0 ∧ FreeChain m (getNextFree m a) t

/-- Deciding `FreeChain` on a concrete memory. -/
def FreeChain.dec (m : Mem) : (p : Nat) → (L : List Nat) → Decidable (FreeChain m p L)
  | p, [] => inferInstanceAs (Decidable (p = 0))
  | p, a :: t =>
    have := FreeChain.dec m (getNextFree m a) t
    inferInstanceAs (Decidable (p = a ∧ a ≠ 0 ∧ FreeChain m (getNextFree m a) t))

instance (m : Mem) (p : Nat) (L : List Nat) : Decidable (FreeChain m p L) :=
  FreeChain.dec m p L

/-- Two headers do not overlap. -/
def HeadersApart (x y : Nat) : Prop := x + HDR ≤ y ∨ y + HDR ≤ x

instance (x y : Nat) : Decidable (HeadersApart x y) :=
  inferInstanceAs (Decidable (x + HDR ≤ y ∨ y + HDR ≤ x))

/-- Two blocks (header and the `capacity` payload bytes they own) do not
overlap. -/
def BlocksApart (m : Mem) (x y : Nat) : Prop :=
  x + HDR + getCapacity m x ≤ y ∨ y + HDR + getCapacity m y ≤ x

instance (m : Mem) (x y : Nat) : Decidable (BlocksApart m x y) :=
  inferInstanceAs (Decidable (x + HDR + getCapacity m x ≤ y ∨ y + HDR + getCapacity m y ≤ x))

/-- The test of the first-fit loop (line 208): `curr->size >= size_ && !curr->used`. -/
def fits (m : Mem) (size_ : Nat) (x : Nat) : Bool :=
  decide (getSize m x ≥ size_ ∧ getUsed m x = 0)

/-- The fields `size`, `capacity`, `used`, `next` and `prev` of the header at `h`
read the same in both memories. -/
def SameHeader (m1 m2 : Mem) (h : Nat) : Prop :=
  getSize m1 h = getSize m2 h ∧ getCapacity m1 h = getCapacity m2 h ∧
  getUsed m1 h = getUsed m2 h ∧ getNext m1 h = getNext m2 h ∧ getPrev m1 h = getPrev m2 h

/-- The allocator state a caller of the empty allocator reaches by a sequence of
calls (the empty allocator itself if the sequence is not valid). -/
def stateAfter (fuel brk0 limit : Nat) (calls : List Call) : State :=
  match run fuel (newClient brk0 limit) calls with
  | some c => c.st
  | none => emptyState brk0 limit

/-- The call returned pointer `p` and left a state that satisfies `P`. -/
def Returns (o : Option (Nat × State)) (p : Nat) (P : State → Prop) : Prop :=
  ∃ s', o = some (p, s') ∧ P s'

instance (o : Option (Nat × State)) (p : Nat) (P : State → Prop) [DecidablePred P] :
    Decidable (Returns o p P) :=
  match o with
  | none => isFalse (fun h => by obtain ⟨_, h1, _⟩ := h; cases h1)
  | some (q, s) =>
    if h : q = p ∧ P s then isTrue ⟨s, by rw [h.1], h.2⟩
    else isFalse (fun h2 => by
      obtain ⟨s', h3, h4⟩ := h2
      cases h3
      exact h ⟨rfl, h4⟩)

/-- The sequence of calls was valid, every call returned, and the caller ends in
a situation that satisfies `P`. -/
def Reaches (o : Option Client) (P : Client → Prop) : Prop :=
  ∃ c, o = some c ∧ P c

instance (o : Option Client) (P : Client → Prop) [DecidablePred P] : Decidable (Reaches o P) :=
  match o with
  | none => isFalse (fun h => by obtain ⟨_, h1, _⟩ := h; cases h1)
  | some c =>
    if h : P c then isTrue ⟨c, rfl, h⟩
    else isFalse (fun h2 => by
      obtain ⟨c1, h3, h4⟩ := h2
      cases h3
      exact h h4)

/-- The partition invariant of the heap list, checked along the walk from
`head`: a block with a successor ends where the successor starts, which is
`next` bytes on, and the successor's `prev` is that distance; the block without
a successor is the recorded tail and ends at the break. -/
def Tiles (fuel : Nat) (s : State) : Prop :=
  ∀ b ∈ heapWalk s.mem fuel s.head,
    if getNext s.mem b ≠ 0 then
      b + HDR + getCapacity s.mem b = b + getNext s.mem b ∧
      getPrev s.mem (b + getNext s.mem b) = getNext s.mem b
    else b = s.tail ∧ b + HDR + getCapacity s.mem b = s.brk

instance (fuel : Nat) (s : State) : Decidable (Tiles fuel s) :=
  inferInstanceAs (Decidable (∀ b ∈ heapWalk s.mem fuel s.head,
    if getNext s.mem b ≠ 0 then
      b + HDR + getCapacity s.mem b = b + getNext s.mem b ∧
      getPrev s.mem (b + getNext s.mem b) = getNext s.mem b
    else b = s.tail ∧ b + HDR + getCapacity s.mem b = s.brk))

/-- The free-list consistency invariant on the blocks of the heap list: a block
is a member of the free list exactly when its `used` flag is clear. -/
def FreeListConsistent (fuel : Nat) (s : State) : Prop :=
  ∀ b ∈ heapWalk s.mem fuel s.head,
    (b ∈ freeWalk s.mem fuel s.free_head ↔ getUsed s.mem b = 0)

instance (fuel : Nat) (s : State) : Decidable (FreeListConsistent fuel s) :=
  inferInstanceAs (Decidable (∀ b ∈ heapWalk s.mem fuel s.head,
    (b ∈ freeWalk s.mem fuel s.free_head ↔ getUsed s.mem b = 0)))

/-- Two free blocks that are adjacent in the heap: both `used` flags are clear
and `y` starts where the header and capacity of `x` end. -/
def AdjacentFree (m : Mem) (x y : Nat) : Prop :=
  getUsed m x = 0 ∧ getUsed m y = 0 ∧ x + HDR + getCapacity m x = y

instance (m : Mem) (x y : Nat) : Decidable (AdjacentFree m x y) :=
  inferInstanceAs (Decidable (getUsed m x = 0 ∧ getUsed m y = 0 ∧ x + HDR + getCapacity m x = y))

/-- The allocator after a first `Allocate(20)` on the empty allocator with the
break at 4096: one used block whose header is at 4096. -/
def oneBlockState : State :=
  { mem := setUsed (setCapacity (setSize (fun _ => 0) 4096 20) 4096 20) 4096 1,
    brk := 4148, limit := 1000000, sbrkLog := [52, 0],
    startOfHeap := 4096, head := 4096, tail := 4096, free_head := 0 }

/-- The memory after the first statements of `free` on the header `b` (lines
285-289): `used` cleared, `size` reset to `capacity`, `next_free` set to the old
head of the free list. -/
def releasedMem (s : State) (b : Nat) : Mem :=
  setNextFree (setSize (setUsed s.mem b 0) b (getCapacity (setUsed s.mem b 0) b)) b s.free_head

/-- The allocator after `Allocate(20)`, `Allocate(30)`, `Allocate(8)`,
`Allocate(8)` and `Release` of the first and the third block: headers at 4096
(free), 4148 (used), 4210 (free) and 4250 (used). -/
def mergeState : State :=
  stateAfter 8 4096 1000000
    [.allocate 20, .allocate 30, .allocate 8, .allocate 8, .release 0, .release 2]


/-- The header at `h` holds the given `size`, `capacity`, `used`, `next` and
`prev`. -/
def HeaderIs (m : Mem) (h sz cap used next prev : Nat) : Prop :=
  getSize m h = sz ∧ getCapacity m h = cap ∧ getUsed m h = used ∧
  getNext m h = next ∧ getPrev m h = prev

/-! ## Memory lemmas -/

/-- A byte store leaves every other cell alone. -/
theorem wr8_ne (m : Mem) (a v x : Nat) (h : x ≠ a) : wr8 m a v x = m x := by
  simp [wr8, h]

/-- A byte store puts the low byte of the value into the cell. -/
theorem wr8_eq (m : Mem) (a v : Nat) : wr8 m a v a = v % 256 := by
  simp [wr8]

/-- A store leaves every cell outside the stored range alone. -/
theorem wrN_outside (n : Nat) : ∀ (m : Mem) (a v x : Nat), x < a ∨ a + n ≤ x →
    wrN m a v n x = m x := by
  induction n with
  | zero => intro m a v x _; rfl
  | succ n ih =>
    intro m a v x h
    show wrN (wr8 m a v) (a + 1) (v / 256) n x = m x
    rw [ih (wr8 m a v) (a + 1) (v / 256) x (by omega)]
    exact wr8_ne m a v x (by omega)

/-- A load depends only on the cells of the loaded range. -/
theorem rdN_congr (m1 m2 : Mem) (n : Nat) : ∀ a : Nat,
    (∀ x, a ≤ x → x < a + n → m1 x = m2 x) → rdN m1 a n = rdN m2 a n := by
  induction n with
  | zero => intro a _; rfl
  | succ n ih =>
    intro a h
    show m1 a % 256 + 256 * rdN m1 (a + 1) n = m2 a % 256 + 256 * rdN m2 (a + 1) n
    rw [h a (Nat.le_refl a) (by omega), ih (a + 1) (fun x h1 h2 => h x (by omega) (by omega))]

/-- A load from a range a store did not touch. -/
theorem rdN_wrN_disj (m : Mem) (a v n b k : Nat) (h : b + k ≤ a ∨ a + n ≤ b) :
    rdN (wrN m a v n) b k = rdN m b k :=
  rdN_congr _ _ k b (fun x h1 h2 => wrN_outside n m a v x (by omega))

/-- A load of `n` bytes is below `256 ^ n`. -/
theorem rdN_lt (m : Mem) (n : Nat) : ∀ a : Nat, rdN m a n < 256 ^ n := by
  induction n with
  | zero => intro a; simp [rdN]
  | succ n ih =>
    intro a
    have h1 := ih (a + 1)
    have h2 : m a % 256 < 256 := Nat.mod_lt _ (by decide)
    show m a % 256 + 256 * rdN m (a + 1) n < 256 ^ (n + 1)
    rw [Nat.pow_succ]
    omega

/-- A load of what was just stored gives the value cut to the stored width. -/
theorem rdN_wrN_same (n : Nat) : ∀ (m : Mem) (a v : Nat),
    rdN (wrN m a v n) a n = v % 256 ^ n := by
  induction n with
  | zero => intro m a v; simp [rdN, Nat.mod_one]
  | succ n ih =>
    intro m a v
    show wrN (wr8 m a v) (a + 1) (v / 256) n a % 256
        + 256 * rdN (wrN (wr8 m a v) (a + 1) (v / 256) n) (a + 1) n = v % 256 ^ (n + 1)
    rw [ih, wrN_outside n _ _ _ a (by omega), wr8_eq, Nat.mod_mod, Nat.pow_succ,
      Nat.mul_comm (256 ^ n) 256, Nat.mod_mul]

/-! ## The free list as a chain -/

/-- A chain depends only on the `next_free` fields of its blocks. -/
theorem FreeChain_congr (m1 m2 : Mem) : ∀ (L : List Nat) (p : Nat),
    (∀ y ∈ L, getNextFree m2 y = getNextFree m1 y) → FreeChain m1 p L → FreeChain m2 p L := by
  intro L
  induction L with
  | nil => intro p _ h; exact h
  | cons a t ih =>
    intro p hy h
    obtain ⟨h1, h2, h3⟩ := h
    refine ⟨h1, h2, ?_⟩
    rw [hy a (List.mem_cons_self a t)]
    exact ih _ (fun y hyt => hy y (List.mem_cons_of_mem a hyt)) h3

/-- No block of a chain is `NULL`. -/
theorem FreeChain_ne_zero (m : Mem) : ∀ (L : List Nat) (p : Nat),
    FreeChain m p L → ∀ y ∈ L, y ≠ 0 := by
  intro L
  induction L with
  | nil => intro p _ y hy; cases hy
  | cons a t ih =>
    intro p h y hy
    obtain ⟨_, h2, h3⟩ := h
    rcases List.mem_cons.mp hy with rfl | hyt
    · exact h2
    · exact ih _ h3 y hyt

/-- The field `next_free` holds a 64-bit value. -/
theorem getNextFree_lt (m : Mem) (p : Nat) : getNextFree m p < 18446744073709551616 := by
  have := rdN_lt m 8 (p + 24)
  simpa [getNextFree] using this

/-- The field `size` holds a 32-bit value. -/
theorem getSize_lt (m : Mem) (p : Nat) : getSize m p < 4294967296 := by
  have := rdN_lt m 4 p
  simpa [getSize] using this

/-- The field `capacity` holds a 32-bit value. -/
theorem getCapacity_lt (m : Mem) (p : Nat) : getCapacity m p < 4294967296 := by
  have := rdN_lt m 4 (p + 4)
  simpa [getCapacity] using this

/-- The link of a block apart from the two blocks whose links were stored. -/
theorem getNextFree_set2_apart (m : Mem) (c b v w y : Nat)
    (hc : HeadersApart y c) (hb : HeadersApart y b) :
    getNextFree (setNextFree (setNextFree m c v) b w) y = getNextFree m y := by
  unfold HeadersApart HDR at hc hb
  unfold getNextFree setNextFree
  rw [rdN_wrN_disj _ _ _ _ _ _ (by omega), rdN_wrN_disj _ _ _ _ _ _ (by omega)]

/-- The first-fit loop on a chain finds the first block that passes its test. -/
theorem findFit_chain (m : Mem) (size_ : Nat) : ∀ (L : List Nat) (p fuel : Nat),
    FreeChain m p L → L.length < fuel →
    findFit m size_ fuel p = some ((L.find? (fits m size_)).getD 0) := by
  intro L
  induction L with
  | nil =>
    intro p fuel h hf
    obtain ⟨f, rfl⟩ : ∃ f, fuel = f + 1 := ⟨fuel - 1, by simp at hf; omega⟩
    have hp : p = 0 := h
    simp [findFit, hp]
  | cons a t ih =>
    intro p fuel h hf
    obtain ⟨f, rfl⟩ : ∃ f, fuel = f + 1 := ⟨fuel - 1, by simp at hf; omega⟩
    obtain ⟨h1, h2, h3⟩ := h
    subst h1
    by_cases hfit : getSize m p ≥ size_ ∧ getUsed m p = 0
    · simp [findFit, h2, hfit, fits, List.find?]
    · have hfit2 : fits m size_ p = false := by simp [fits, hfit]
      have hlen : t.length < f := by simp at hf; omega
      simp only [findFit, h2, hfit, if_false, List.find?, hfit2]
      exact ih _ f h3 hlen

/-- The search loop of `remove_from_free_list` on a chain that holds `b` after
its first block: it ends at the predecessor of `b`, and the two stores that
follow it unlink `b`. -/
theorem removeLoop_chain (m : Mem) (b : Nat) : ∀ (t : List Nat) (a fuel : Nat),
    a ≠ 0 → FreeChain m (getNextFree m a) t → b ∈ t →
    (a :: t).Pairwise HeadersApart → t.length ≤ fuel →
    ∃ c, removeLoop m b fuel a = some c ∧ c ∈ a :: t ∧
      FreeChain (setNextFree (setNextFree m c (getNextFree m b)) b 0) a (a :: t.erase b) := by
  intro t
  induction t with
  | nil => intro a fuel _ _ hb; cases hb
  | cons x t ih =>
    intro a fuel ha hch hb hsep hf
    obtain ⟨f, rfl⟩ : ∃ f, fuel = f + 1 := ⟨fuel - 1, by simp at hf; omega⟩
    obtain ⟨h1, h2, h3⟩ := hch
    rw [List.pairwise_cons] at hsep
    obtain ⟨hsa, hst⟩ := hsep
    have hst2 := hst
    rw [List.pairwise_cons] at hst2
    obtain ⟨hsx, hstt⟩ := hst2
    by_cases hxb : x = b
    · subst hxb
      refine ⟨a, ?_, List.mem_cons_self a _, ?_⟩
      · simp [removeLoop, h1]
      · rw [List.erase_cons_head]
        refine ⟨rfl, ha, ?_⟩
        have hab : HeadersApart a x := hsa x (List.mem_cons_self x t)
        have e1 : getNextFree (setNextFree (setNextFree m a (getNextFree m x)) x 0) a
            = getNextFree m x := by
          unfold HeadersApart HDR at hab
          have hlt := getNextFree_lt m x
          unfold getNextFree at hlt
          unfold getNextFree setNextFree
          rw [rdN_wrN_disj _ _ _ _ _ _ (by omega), rdN_wrN_same]
          exact Nat.mod_eq_of_lt (by simpa using hlt)
        rw [e1]
        refine FreeChain_congr m _ t _ (fun y hy => ?_) h3
        refine getNextFree_set2_apart m a x _ _ y ?_ ?_
        · have := hsa y (List.mem_cons_of_mem x hy)
          unfold HeadersApart at this ⊢; omega
        · have := hsx y hy
          unfold HeadersApart at this ⊢; omega
    · have hbt : b ∈ t := by
        rcases List.mem_cons.mp hb with h | h
        · exact absurd h.symm hxb
        · exact h
      have hlen : t.length ≤ f := by simp at hf; omega
      obtain ⟨c, hc1, hc2, hc3⟩ := ih x f h2 h3 hbt hst hlen
      refine ⟨c, ?_, List.mem_cons_of_mem a hc2, ?_⟩
      · have hne : getNextFree m a ≠ b := by rw [h1]; exact hxb
        simp only [removeLoop, hne, ne_eq, not_false_eq_true, if_true]
        rw [h1]; exact hc1
      · have hne : ¬ (x == b) = true := by simpa using hxb
        rw [List.erase_cons_tail hne]
        refine ⟨rfl, ha, ?_⟩
        have e1 : getNextFree (setNextFree (setNextFree m c (getNextFree m b)) b 0) a
            = getNextFree m a :=
          getNextFree_set2_apart m c b _ _ a (hsa c hc2) (hsa b hb)
        rw [e1, h1]
        exact hc3

/-- A store into `next_free` touches only the last eight bytes of the header. -/
theorem setNextFree_outside (m : Mem) (p v x : Nat) (h : x < p + 24 ∨ p + 32 ≤ x) :
    setNextFree m p v x = m x :=
  wrN_outside 8 m (p + 24) v x (by omega)

/-- On a chain of headers that do not overlap, `remove_from_free_list` returns,
unlinks the first occurrence of the block, and stores only into `next_free`
fields of blocks of the chain. -/
theorem remove_from_free_list_chain (fuel : Nat) (s : State) (L : List Nat) (b : Nat)
    (hch : FreeChain s.mem s.free_head L) (hsep : L.Pairwise HeadersApart)
    (hb : b ∈ L) (hf : L.length ≤ fuel) :
    ∃ m' fh, remove_from_free_list fuel s b = some { s with mem := m', free_head := fh } ∧
      FreeChain m' fh (L.erase b) ∧
      (∀ x, (∀ y ∈ L, x < y + 24 ∨ y + 32 ≤ x) → m' x = s.mem x) := by
  have hb0 : b ≠ 0 := FreeChain_ne_zero s.mem L _ hch b hb
  cases L with
  | nil => cases hb
  | cons a t =>
    obtain ⟨h1, h2, h3⟩ := hch
    have hsep2 := hsep
    rw [List.pairwise_cons] at hsep2
    obtain ⟨hsa, hst⟩ := hsep2
    by_cases hab : a = b
    · subst hab
      refine ⟨setNextFree s.mem a 0, getNextFree s.mem a, ?_, ?_, ?_⟩
      · simp [remove_from_free_list, hb0, h1]
      · rw [List.erase_cons_head]
        refine FreeChain_congr s.mem _ t _ (fun y hy => ?_) h3
        have := hsa y hy
        unfold HeadersApart HDR at this
        unfold getNextFree setNextFree
        exact rdN_wrN_disj _ _ _ _ _ _ (by omega)
      · intro x hx
        exact setNextFree_outside _ _ _ _ (hx a (List.mem_cons_self a t))
    · have hbt : b ∈ t := by
        rcases List.mem_cons.mp hb with h | h
        · exact absurd h.symm hab
        · exact h
      have hlen : t.length ≤ fuel := by simp at hf; omega
      obtain ⟨c, hc1, hc2, hc3⟩ := removeLoop_chain s.mem b t a fuel h2 h3 hbt hsep hlen
      refine ⟨setNextFree (setNextFree s.mem c (getNextFree s.mem b)) b 0, a, ?_, ?_, ?_⟩
      · have hne : ¬ s.free_head = b := by rw [h1]; exact hab
        simp only [remove_from_free_list, hb0, hne, if_false]
        rw [h1, hc1]
      · have hne : ¬ (a == b) = true := by simpa using hab
        rw [List.erase_cons_tail hne]
        exact hc3
      · intro x hx
        rw [setNextFree_outside _ _ _ _ (hx b hb), setNextFree_outside _ _ _ _ (hx c hc2)]

/-- Being apart is symmetric. -/
theorem HeadersApart_symm : Symmetric HeadersApart := by
  intro x y h
  unfold HeadersApart at h ⊢
  omega

/-- Values below `2^31` convert to `int` unchanged. -/
theorem toInt32_small (x : Nat) (h : x < 2147483648) : toInt32 x = (x : Int) := by
  unfold toInt32
  have h1 : x % 4294967296 = x := Nat.mod_eq_of_lt (by omega)
  rw [h1]
  simp [h]

/-- The reuse path of `malloc` without a split (the `int` leftover is at most
`sizeof(metadata_t) + 16`, which includes every leftover of `2^31` or more): the
block found by the first-fit loop is returned whole; only its `size` and `used`
fields and `next_free` fields of free-list blocks are stored into. -/
theorem malloc_reuse_whole (fuel : Nat) (s : State) (req : Nat) (L : List Nat) (b : Nat)
    (hinit : s.startOfHeap ≠ 0)
    (hch : FreeChain s.mem s.free_head L) (hsep : L.Pairwise HeadersApart)
    (hf : L.length < fuel)
    (hfit : L.find? (fits s.mem req) = some b)
    (hlo : req < getSize s.mem b)
    (hhi : getSize s.mem b ≤ req + 48 ∨ 2147483648 ≤ getSize s.mem b - req) (hreq : 0 < req) :
    ∃ m' fh, malloc fuel s req = some (b + HDR, { s with mem := m', free_head := fh }) ∧
      FreeChain m' fh (L.erase b) ∧
      getSize m' b = req ∧ getUsed m' b = 1 ∧
      (∀ x, ¬ (b ≤ x ∧ x < b + 4) → x ≠ b + 8 →
        (∀ y ∈ L, x < y + 24 ∨ y + 32 ≤ x) → m' x = s.mem x) := by
  have hbL : b ∈ L := List.mem_of_find?_eq_some hfit
  have hb0 : b ≠ 0 := FreeChain_ne_zero s.mem L _ hch b hbL
  have hsh : startHeap s = (s, false) := by simp [startHeap, hinit]
  have hff : findFit s.mem req fuel s.free_head = some b := by
    rw [findFit_chain _ _ L _ _ hch hf, hfit]; rfl
  have hapart : ∀ y ∈ L, y = b ∨ HeadersApart y b := by
    intro y hy
    by_cases h : y = b
    · exact Or.inl h
    · exact Or.inr (hsep.forall HeadersApart_symm hy hbL h)
  have hc32 := getSize_lt s.mem b
  have hmin : toInt32 (HDR + 16) = 48 := by
    rw [toInt32_small _ (by unfold HDR; omega)]; rfl
  -- the leftover as the `int` the source computes does not exceed the threshold
  have hnosplit : ¬ (toInt32 ((getSize s.mem b + 18446744073709551616 - req)
      % 18446744073709551616) > 48) := by
    have e : (getSize s.mem b + 18446744073709551616 - req) % 18446744073709551616
        = getSize s.mem b - req := by omega
    rw [e]
    rcases hhi with h | h
    · rw [toInt32_small _ (by omega)]; omega
    · unfold toInt32
      have e2 : (getSize s.mem b - req) % 4294967296 = getSize s.mem b - req :=
        Nat.mod_eq_of_lt (by omega)
      rw [e2]
      have e3 : ¬ (getSize s.mem b - req < 2147483648) := by omega
      simp only [e3, if_false]
      omega
  -- the chain survives the two stores into the header of `b`
  have hch2 : FreeChain (setUsed (setSize s.mem b req) b 1) s.free_head L := by
    refine FreeChain_congr s.mem _ L _ (fun y hy => ?_) hch
    unfold getNextFree setUsed setSize
    rcases hapart y hy with h | h
    · subst h
      rw [rdN_wrN_disj _ _ _ _ _ _ (by omega), rdN_wrN_disj _ _ _ _ _ _ (by omega)]
    · unfold HeadersApart HDR at h
      rw [rdN_wrN_disj _ _ _ _ _ _ (by omega), rdN_wrN_disj _ _ _ _ _ _ (by omega)]
  obtain ⟨m', fh, hrem, hch3, hframe⟩ :=
    remove_from_free_list_chain fuel
      { s with mem := setUsed (setSize s.mem b req) b 1 } L b hch2 hsep hbL (by omega)
  have hin : ∀ x, b ≤ x → x < b + 24 → ∀ y ∈ L, x < y + 24 ∨ y + 32 ≤ x := by
    intro x h1 h2 y hy
    rcases hapart y hy with h | h
    · subst h; omega
    · unfold HeadersApart HDR at h; omega
  refine ⟨m', fh, ?_, hch3, ?_, ?_, ?_⟩
  · have hne : ¬ req = getSize s.mem b := by omega
    have hreq0 : ¬ req = 0 := by omega
    unfold malloc
    simp only [hreq0, hsh, hff, hb0, hne, if_false, Bool.false_eq_true, reuseBlock,
      hmin, hnosplit]
    rw [hrem]
    simp [hb0]
  · have e1 : getSize m' b = getSize (setUsed (setSize s.mem b req) b 1) b :=
      rdN_congr _ _ 4 b (fun x h1 h2 => hframe x (hin x h1 (by omega)))
    rw [e1]
    unfold getSize setUsed setSize
    rw [rdN_wrN_disj _ _ _ _ _ _ (by omega), rdN_wrN_same]
    exact Nat.mod_eq_of_lt (by norm_num; omega)
  · have e1 : getUsed m' b = getUsed (setUsed (setSize s.mem b req) b 1) b :=
      rdN_congr _ _ 1 (b + 8) (fun x h1 h2 => hframe x (hin x (by omega) (by omega)))
    rw [e1]
    unfold getUsed setUsed
    rw [rdN_wrN_same]
    rfl
  · intro x hx1 hx2 hx3
    rw [hframe x hx3]
    show setUsed (setSize s.mem b req) b 1 x = s.mem x
    unfold setUsed setSize
    rw [wrN_outside _ _ _ _ _ (by omega), wrN_outside _ _ _ _ _ (by omega)]

/-- What `splitFreeBlock` does: it stores only into the first 16 bytes of the
header of `meta` and into the new header at `meta + sizeof(metadata_t) + size1`,
pushes the new header on the free list, and changes no global but `tail` and
`free_head`. -/
theorem splitFreeBlock_spec (s : State) (b size1 size2 : Nat) :
    ∃ m' tl, splitFreeBlock s b size1 size2
        = { s with mem := m', tail := tl, free_head := b + HDR + size1 } ∧
      (∀ x, (x < b ∨ b + 16 ≤ x) → (x < b + HDR + size1 ∨ b + HDR + size1 + 32 ≤ x) →
        m' x = s.mem x) ∧
      getNextFree m' (b + HDR + size1) = s.free_head % 18446744073709551616 ∧
      getSize m' (b + HDR + size1) = size2 % 4294967296 ∧
      getCapacity m' (b + HDR + size1) = size2 % 4294967296 ∧
      getUsed m' (b + HDR + size1) = 0 ∧
      getSize m' b = size1 % 4294967296 ∧
      getCapacity m' b = size1 % 4294967296 := by
  have h0 : b + HDR + size1 ≠ 0 := by unfold HDR; omega
  have e256_4 : 256 ^ 4 = 4294967296 := by norm_num
  have e256_8 : 256 ^ 8 = 18446744073709551616 := by norm_num
  unfold splitFreeBlock add_to_free_list
  simp only [h0, if_false]
  split <;> split <;>
  · refine ⟨_, _, rfl, ?_, ?_, ?_, ?_, ?_, ?_, ?_⟩
    · intro x hx1 hx2
      simp only [HDR] at hx2 ⊢
      simp (disch := omega) only [setSize, setCapacity, setUsed, setNext, setPrev, setNextFree,
        wrN_outside]
    all_goals
      simp only [HDR]
      simp (disch := omega) only [setSize, setCapacity, setUsed, setNext, setPrev, setNextFree,
        getSize, getCapacity, getUsed, getNext, getPrev, getNextFree,
        rdN_wrN_disj, rdN_wrN_same, e256_4, e256_8, Nat.mod_mod, Nat.zero_mod]

/-- Blocks that do not overlap have headers that do not overlap. -/
theorem BlocksApart_headers (m : Mem) (x y : Nat) (h : BlocksApart m x y) : HeadersApart x y := by
  unfold BlocksApart at h
  unfold HeadersApart
  omega

/-- The split path of `malloc` (leftover above the threshold and below `2^31`):
the block found by the first-fit loop is cut to the requested size and returned,
the remainder header is created right behind it and is the new head of the free
list. -/
theorem malloc_reuse_split (fuel : Nat) (s : State) (req : Nat) (L : List Nat) (b : Nat)
    (hinit : s.startOfHeap ≠ 0) (hptr : s.free_head < 18446744073709551616)
    (hch : FreeChain s.mem s.free_head L) (hsep : L.Pairwise (BlocksApart s.mem))
    (hcap : getSize s.mem b ≤ getCapacity s.mem b)
    (hf : L.length + 1 < fuel)
    (hfit : L.find? (fits s.mem req) = some b)
    (hlo : 48 < getSize s.mem b - req) (hhi : getSize s.mem b - req < 2147483648)
    (hreq : 0 < req) :
    ∃ m' tl, malloc fuel s req
        = some (b + HDR, { s with mem := m', tail := tl, free_head := b + HDR + req }) ∧
      FreeChain m' (b + HDR + req) ((b + HDR + req) :: L.erase b) ∧
      getSize m' b = req ∧ getCapacity m' b = req ∧ getUsed m' b = 1 ∧
      getSize m' (b + HDR + req) = getSize s.mem b - req - HDR ∧
      getCapacity m' (b + HDR + req) = getSize s.mem b - req - HDR ∧
      getUsed m' (b + HDR + req) = 0 ∧
      (∀ x, (x < b ∨ b + 16 ≤ x) → (x < b + HDR + req ∨ b + HDR + req + 32 ≤ x) →
        (∀ y ∈ L, x < y + 24 ∨ y + 32 ≤ x) → m' x = s.mem x) := by
  have hbL : b ∈ L := List.mem_of_find?_eq_some hfit
  have hb0 : b ≠ 0 := FreeChain_ne_zero s.mem L _ hch b hbL
  have hsh : startHeap s = (s, false) := by simp [startHeap, hinit]
  have hff : findFit s.mem req fuel s.free_head = some b := by
    rw [findFit_chain _ _ L _ _ hch (by omega), hfit]; rfl
  have hsepH : L.Pairwise HeadersApart := hsep.imp (fun {x y} h => BlocksApart_headers _ x y h)
  have hBA : Symmetric (BlocksApart s.mem) := by
    intro x y h; unfold BlocksApart at h ⊢; omega
  have hc32 := getSize_lt s.mem b
  have hmin : toInt32 (HDR + 16) = 48 := by
    rw [toInt32_small _ (by unfold HDR; omega)]; rfl
  have hextra : toInt32 ((getSize s.mem b + 18446744073709551616 - req) % 18446744073709551616)
      = ((getSize s.mem b - req : Nat) : Int) := by
    have e : (getSize s.mem b + 18446744073709551616 - req) % 18446744073709551616
        = getSize s.mem b - req := by omega
    rw [e]
    exact toInt32_small _ hhi
  have hsplit : ((getSize s.mem b - req : Nat) : Int) > 48 := by omega
  have hsecond : ((((getSize s.mem b - req : Nat) : Int) - ((HDR : Nat) : Int))
      % 18446744073709551616).toNat % 4294967296 = getSize s.mem b - req - HDR := by
    unfold HDR; omega
  have hreq32 : req % 4294967296 = req := Nat.mod_eq_of_lt (by omega)
  obtain ⟨m1, tl, hsp, hfr1, hnf1, hsz1, hcp1, hus1, hszb1, hcpb1⟩ :=
    splitFreeBlock_spec s b req (getSize s.mem b - req - HDR)
  have hsmall : (getSize s.mem b - req - HDR) % 4294967296 = getSize s.mem b - req - HDR :=
    Nat.mod_eq_of_lt (by omega)
  rw [hsmall] at hsz1 hcp1
  rw [hreq32] at hszb1 hcpb1
  rw [Nat.mod_eq_of_lt hptr] at hnf1
  -- where the blocks of the chain lie with respect to `b` and the remainder
  have hposL : ∀ y ∈ L, y = b ∨ y + 32 ≤ b ∨ b + HDR + req + 32 ≤ y := by
    intro y hy
    by_cases h : y = b
    · exact Or.inl h
    · have := hsep.forall hBA hy hbL h
      unfold BlocksApart at this
      unfold HDR at this ⊢
      omega
  let m2 : Mem := setUsed (setSize m1 b req) b 1
  have hm2nf : ∀ y, y = b ∨ y + 32 ≤ b ∨ b + 9 ≤ y + 24 →
      getNextFree m2 y = getNextFree m1 y := by
    intro y hy
    show getNextFree (setUsed (setSize m1 b req) b 1) y = getNextFree m1 y
    unfold getNextFree setUsed setSize
    rw [rdN_wrN_disj _ _ _ _ _ _ (by omega), rdN_wrN_disj _ _ _ _ _ _ (by omega)]
  have hch2 : FreeChain m2 (b + HDR + req) ((b + HDR + req) :: L) := by
    refine ⟨rfl, by unfold HDR; omega, ?_⟩
    rw [hm2nf _ (by unfold HDR; omega), hnf1]
    refine FreeChain_congr s.mem _ L _ (fun y hy => ?_) hch
    have hy2 := hposL y hy
    rw [hm2nf y (by unfold HDR at hy2; omega)]
    unfold getNextFree
    refine rdN_congr _ _ 8 (y + 24) (fun x h1 h2 => hfr1 x ?_ ?_)
    · unfold HDR at hy2; omega
    · unfold HDR at hy2 ⊢; omega
  have hsep2 : ((b + HDR + req) :: L).Pairwise HeadersApart := by
    rw [List.pairwise_cons]
    refine ⟨fun y hy => ?_, hsepH⟩
    have hy2 := hposL y hy
    unfold HeadersApart
    unfold HDR at hy2 ⊢
    omega
  obtain ⟨m', fh, hrem, hch3, hframe⟩ :=
    remove_from_free_list_chain fuel
      { s with mem := m2, tail := tl, free_head := b + HDR + req }
      ((b + HDR + req) :: L) b hch2 hsep2 (List.mem_cons_of_mem _ hbL)
      (by simp only [List.length_cons]; omega)
  have hrb : ¬ ((b + HDR + req == b) = true) := by
    simp only [beq_iff_eq]; unfold HDR; omega
  rw [List.erase_cons_tail hrb] at hch3
  have hfh : fh = b + HDR + req := hch3.1
  subst hfh
  -- bytes below the `next_free` field of `b` or of the remainder are not touched by the removal
  have hin : ∀ x, (b ≤ x ∧ x < b + 24) ∨ (b + HDR + req ≤ x ∧ x < b + HDR + req + 24) →
      m' x = m2 x := by
    intro x hx
    refine hframe x (fun y hy => ?_)
    rcases List.mem_cons.mp hy with h | h
    · subst h; unfold HDR at hx ⊢; omega
    · have := hposL y h
      unfold HDR at this hx; omega
  refine ⟨m', tl, ?_, hch3, ?_, ?_, ?_, ?_, ?_, ?_, ?_⟩
  · have hne : ¬ req = getSize s.mem b := by omega
    have hreq0 : ¬ req = 0 := by omega
    unfold malloc
    simp only [hreq0, hsh, hff, hb0, hne, if_false, Bool.false_eq_true, reuseBlock, hextra,
      hmin, hsplit, if_true, hsecond, hreq32, hsp]
    rw [hrem]
    simp [hb0]
  · rw [show getSize m' b = getSize m2 b from
      rdN_congr _ _ 4 b (fun x h1 h2 => hin x (Or.inl (by omega)))]
    show getSize (setUsed (setSize m1 b req) b 1) b = req
    unfold getSize setUsed setSize
    rw [rdN_wrN_disj _ _ _ _ _ _ (by omega), rdN_wrN_same]
    exact Nat.mod_eq_of_lt (by norm_num; omega)
  · rw [show getCapacity m' b = getCapacity m2 b from
      rdN_congr _ _ 4 (b + 4) (fun x h1 h2 => hin x (Or.inl (by omega)))]
    rw [← hcpb1]
    show getCapacity (setUsed (setSize m1 b req) b 1) b = getCapacity m1 b
    unfold getCapacity setUsed setSize
    rw [rdN_wrN_disj _ _ _ _ _ _ (by omega), rdN_wrN_disj _ _ _ _ _ _ (by omega)]
  · rw [show getUsed m' b = getUsed m2 b from
      rdN_congr _ _ 1 (b + 8) (fun x h1 h2 => hin x (Or.inl (by omega)))]
    show getUsed (setUsed (setSize m1 b req) b 1) b = 1
    unfold getUsed setUsed
    rw [rdN_wrN_same]
    rfl
  · rw [show getSize m' (b + HDR + req) = getSize m2 (b + HDR + req) from
      rdN_congr _ _ 4 _ (fun x h1 h2 => hin x (Or.inr (by omega)))]
    rw [← hsz1]
    show getSize (setUsed (setSize m1 b req) b 1) _ = getSize m1 _
    unfold getSize setUsed setSize HDR
    rw [rdN_wrN_disj _ _ _ _ _ _ (by omega), rdN_wrN_disj _ _ _ _ _ _ (by omega)]
  · rw [show getCapacity m' (b + HDR + req) = getCapacity m2 (b + HDR + req) from
      rdN_congr _ _ 4 _ (fun x h1 h2 => hin x (Or.inr (by omega)))]
    rw [← hcp1]
    show getCapacity (setUsed (setSize m1 b req) b 1) _ = getCapacity m1 _
    unfold getCapacity setUsed setSize HDR
    rw [rdN_wrN_disj _ _ _ _ _ _ (by omega), rdN_wrN_disj _ _ _ _ _ _ (by omega)]
  · rw [show getUsed m' (b + HDR + req) = getUsed m2 (b + HDR + req) from
      rdN_congr _ _ 1 _ (fun x h1 h2 => hin x (Or.inr (by omega)))]
    rw [← hus1]
    show getUsed (setUsed (setSize m1 b req) b 1) _ = getUsed m1 _
    unfold getUsed setUsed setSize HDR
    rw [rdN_wrN_disj _ _ _ _ _ _ (by omega), rdN_wrN_disj _ _ _ _ _ _ (by omega)]
  · intro x hx1 hx2 hx3
    have e1 : m' x = m2 x := by
      refine hframe x (fun y hy => ?_)
      rcases List.mem_cons.mp hy with h | h
      · subst h; unfold HDR at hx2 ⊢; omega
      · exact hx3 y h
    rw [e1, ← hfr1 x hx1 hx2]
    show setUsed (setSize m1 b req) b 1 x = m1 x
    unfold setUsed setSize
    rw [wrN_outside _ _ _ _ _ (by omega), wrN_outside _ _ _ _ _ (by omega)]

/-- The exact-match path of `malloc` (line 241): the block found by the first-fit
loop is returned and nothing at all is stored; the state is left as it was. -/
theorem malloc_exact_match (fuel : Nat) (s : State) (req : Nat) (L : List Nat) (b : Nat)
    (hinit : s.startOfHeap ≠ 0)
    (hch : FreeChain s.mem s.free_head L) (hf : L.length < fuel)
    (hfit : L.find? (fits s.mem req) = some b)
    (heq : getSize s.mem b = req) (hreq : 0 < req) :
    malloc fuel s req = some (b + HDR, s) := by
  have hbL : b ∈ L := List.mem_of_find?_eq_some hfit
  have hb0 : b ≠ 0 := FreeChain_ne_zero s.mem L _ hch b hbL
  have hsh : startHeap s = (s, false) := by simp [startHeap, hinit]
  have hff : findFit s.mem req fuel s.free_head = some b := by
    rw [findFit_chain _ _ L _ _ hch hf, hfit]; rfl
  have hreq0 : ¬ req = 0 := by omega
  unfold malloc
  simp [hreq0, hsh, hff, hb0, heq]

/-- The no-match path of `malloc`: the heap-extension primitive is called with
`size_ + sizeof(metadata_t)` and the header is built at the address it returned. -/
theorem malloc_no_fit (fuel : Nat) (s : State) (req : Nat) (L : List Nat)
    (hinit : s.startOfHeap ≠ 0)
    (hch : FreeChain s.mem s.free_head L) (hf : L.length < fuel)
    (hfit : L.find? (fits s.mem req) = none) (hreq : 0 < req) :
    ∃ s', malloc fuel s req
        = some (if (sbrk s ((req + HDR) % 18446744073709551616)).1 ≠ 0
                then (sbrk s ((req + HDR) % 18446744073709551616)).1 + HDR else 0, s') ∧
      s'.sbrkLog = (req + HDR) % 18446744073709551616 :: s.sbrkLog ∧
      s'.brk = (sbrk s ((req + HDR) % 18446744073709551616)).2.brk := by
  have hsh : startHeap s = (s, false) := by simp [startHeap, hinit]
  have hff : findFit s.mem req fuel s.free_head = some 0 := by
    rw [findFit_chain _ _ L _ _ hch hf, hfit]; rfl
  have hreq0 : ¬ req = 0 := by omega
  have hlog : (sbrk s ((req + HDR) % 18446744073709551616)).2.sbrkLog
      = (req + HDR) % 18446744073709551616 :: s.sbrkLog := by
    unfold sbrk; split <;> rfl
  unfold malloc
  simp only [hreq0, hsh, hff, if_false, if_true, Bool.false_eq_true, Option.map_some']
  unfold extendHeap
  by_cases hh : s.head = 0
  · have hh2 : (sbrk s ((req + HDR) % 18446744073709551616)).2.head = 0 := by
      unfold sbrk; split <;> exact hh
    simp only [hh2, if_true]
    by_cases hp : (sbrk s ((req + HDR) % 18446744073709551616)).1 = 0
    · simp only [hp, ne_eq, not_true_eq_false, if_false]
      exact ⟨_, rfl, hlog, rfl⟩
    · simp only [hp, ne_eq, not_false_eq_true, if_true]
      exact ⟨_, rfl, hlog, rfl⟩
  · have hh2 : ¬ (sbrk s ((req + HDR) % 18446744073709551616)).2.head = 0 := by
      unfold sbrk; split <;> exact hh
    simp only [hh2, if_false]
    by_cases hp : (sbrk s ((req + HDR) % 18446744073709551616)).1 = 0
    · simp only [hp, ne_eq, not_true_eq_false, if_false]
      exact ⟨_, rfl, hlog, rfl⟩
    · simp only [hp, ne_eq, not_false_eq_true, if_true]
      exact ⟨_, rfl, hlog, rfl⟩


/-- A header whose first 24 bytes were not stored into keeps its five fields. -/
theorem SameHeader_of_frame (m1 m2 : Mem) (h : Nat)
    (hframe : ∀ x, h ≤ x → x < h + 20 → m1 x = m2 x) : SameHeader m1 m2 h := by
  unfold SameHeader getSize getCapacity getUsed getNext getPrev
  refine ⟨?_, ?_, ?_, ?_, ?_⟩ <;>
    exact rdN_congr _ _ _ _ (fun x h1 h2 => hframe x (by omega) (by omega))

/-- Two tests that agree on the list find the same element. -/
theorem find?_congr_mem (p q : Nat → Bool) : ∀ L : List Nat,
    (∀ y ∈ L, p y = q y) → L.find? p = L.find? q := by
  intro L
  induction L with
  | nil => intro _; rfl
  | cons a t ih =>
    intro h
    simp only [List.find?, h a (List.mem_cons_self a t),
      ih (fun y hy => h y (List.mem_cons_of_mem a hy))]

/-! ## The claims -/

/-- C1. Exact match does not take the block: after `Allocate(20)` and `Release`,
the free list is the single block at 4096 with `size = capacity = 20`;
`Allocate(20)` returns its payload, and afterwards the `used` flag of the block
is still clear and the block is still the head of the free list. -/
theorem exact_match_block_stays_free :
    FreeChain (stateAfter 8 4096 1000000 [.allocate 20, .release 0]).mem
      (stateAfter 8 4096 1000000 [.allocate 20, .release 0]).free_head [4096] ∧
    getCapacity (stateAfter 8 4096 1000000 [.allocate 20, .release 0]).mem 4096 = 20 ∧
    [4096].find? (fits (stateAfter 8 4096 1000000 [.allocate 20, .release 0]).mem 20)
      = some 4096 ∧
    Returns (malloc 8 (stateAfter 8 4096 1000000 [.allocate 20, .release 0]) 20) (4096 + HDR)
      (fun s' => getUsed s'.mem 4096 = 0 ∧ FreeChain s'.mem s'.free_head [4096]) := by
  decide!

/-- C2. Two live allocations at one address: in `p = Allocate(20); Release(p);
q = Allocate(20); r = Allocate(20)` the three calls return the same pointer, and
`q` is live when `r` is returned. -/
theorem live_pointer_returned_again :
    Reaches (run 8 (newClient 4096 1000000)
        [.allocate 20, .release 0, .allocate 20, .allocate 20])
      (fun c => c.ptrs = [4128, 4128, 4128] ∧ c.live = [(4128, 20), (4128, 20)]) := by
  decide!

/-- C3. A used block in the free list: after `p = Allocate(20); Release(p);
q = Allocate(20); Release(q); Allocate(10)` the block at 4096 is marked used and
is still the one member of the free list. -/
theorem used_block_in_free_list :
    Reaches (run 8 (newClient 4096 1000000)
        [.allocate 20, .release 0, .allocate 20, .release 1, .allocate 10])
      (fun c => c.live = [(4128, 10)] ∧ c.st.head = 4096 ∧ getUsed c.st.mem 4096 = 1 ∧
        FreeChain c.st.mem c.st.free_head [4096] ∧ ¬ FreeListConsistent 8 c.st) := by
  decide!

/-- C4. The heap list stops tiling the heap after a split: after `Allocate(100)`,
`Allocate(20)`, `Release` of the first and `Allocate(10)`, the walk from `head`
is the block at 4096 and the remainder at 4138, whose `next` is 0 although it
ends at 4228, not at the break 4280, and it is not the recorded tail 4228; the
`prev` of the block at 4228 is still 132. -/
theorem split_breaks_tiling :
    Reaches (run 8 (newClient 4096 1000000)
        [.allocate 100, .allocate 20, .release 0, .allocate 10])
      (fun c => heapWalk c.st.mem 8 c.st.head = [4096, 4138] ∧
        getNext c.st.mem 4138 = 0 ∧ 4138 + HDR + getCapacity c.st.mem 4138 = 4228 ∧
        c.st.tail = 4228 ∧ c.st.brk = 4280 ∧ getPrev c.st.mem 4228 = 132 ∧
        ¬ Tiles 8 c.st) := by
  decide!

/-- C5. Two adjacent free blocks: after `Allocate(100)`, `Allocate(20)`,
`Release` of the first, `Allocate(10)` and `Release` of the second, the free
list is the block at 4228 followed by the remainder at 4138, both are free, and
the block at 4228 starts where the remainder ends. -/
theorem adjacent_free_blocks_after_split :
    Reaches (run 8 (newClient 4096 1000000)
        [.allocate 100, .allocate 20, .release 0, .allocate 10, .release 1])
      (fun c => FreeChain c.st.mem c.st.free_head [4228, 4138] ∧
        AdjacentFree c.st.mem 4138 4228) := by
  decide!

/-- C6. A failed heap extension is not detected: on the empty allocator with
the break at its limit the initial query succeeds and the extension by
`16 + sizeof(metadata_t)` returns the sentinel; `Allocate(16)` then returns a
pointer that is not `NULL` and records the sentinel as head and tail of the heap
list. -/
theorem failed_extension_not_detected :
    (sbrk (emptyState 4096 4096) 0).1 = 4096 ∧
    (sbrk (startHeap (emptyState 4096 4096)).1 (16 + HDR)).1 = SBRK_FAILED ∧
    (emptyState 4096 4096).head = 0 ∧ (emptyState 4096 4096).tail = 0 ∧
    Returns (malloc 8 (emptyState 4096 4096) 16) (SBRK_FAILED + HDR)
      (fun s' => s'.head = SBRK_FAILED ∧ s'.tail = SBRK_FAILED) := by
  decide!

/-- C7, as stated, fails: after `p = Allocate(100); Release(p); q = Allocate(100);
Resize(q, 10)` the free list is the finite chain of the single block at 4096,
whose capacity 100 is at least 50, yet `Allocate(50)` calls the heap-extension
primitive and returns the payload of a new block at 4228. -/
theorem first_fit_ignores_capacity :
    FreeChain
      (stateAfter 8 4096 1000000 [.allocate 100, .release 0, .allocate 100, .resize 1 10]).mem
      (stateAfter 8 4096 1000000
        [.allocate 100, .release 0, .allocate 100, .resize 1 10]).free_head [4096] ∧
    getCapacity
      (stateAfter 8 4096 1000000 [.allocate 100, .release 0, .allocate 100, .resize 1 10]).mem
      4096 ≥ 50 ∧
    Returns
      (malloc 8
        (stateAfter 8 4096 1000000 [.allocate 100, .release 0, .allocate 100, .resize 1 10]) 50)
      (4228 + HDR)
      (fun s' => s'.sbrkLog = [50 + HDR, 100 + HDR, 0] ∧ s'.brk = 4228 + HDR + 50) := by
  decide!

/-- C7 (amended). First-fit selection by `size` and `used`: in a state whose
free list is a finite chain of blocks that do not overlap and whose `size` does
not exceed their `capacity`, if some block of the free list has
`size ≥ requestedSize` and `used` clear, `malloc` returns the payload pointer of
the first such block in free-list order and does not call the heap-extension
primitive; if no block of the free list has, `malloc` calls the primitive with
`requestedSize + sizeof(metadata_t)` and returns the payload at the address it
gave. -/
theorem malloc_first_fit (fuel : Nat) (s : State) (requestedSize : Nat) (L : List Nat)
    (hreq : 0 < requestedSize)
    (hinit : s.startOfHeap ≠ 0) (hptr : s.free_head < 18446744073709551616)
    (hchain : FreeChain s.mem s.free_head L)
    (hapart : L.Pairwise (BlocksApart s.mem))
    (hcap : ∀ y ∈ L, getSize s.mem y ≤ getCapacity s.mem y)
    (hfuel : L.length + 1 < fuel) :
    (∀ b, L.find? (fits s.mem requestedSize) = some b →
      ∃ s', malloc fuel s requestedSize = some (b + HDR, s') ∧
        s'.sbrkLog = s.sbrkLog ∧ s'.brk = s.brk) ∧
    (L.find? (fits s.mem requestedSize) = none →
      ∃ s', malloc fuel s requestedSize
          = some (if (sbrk s ((requestedSize + HDR) % 18446744073709551616)).1 ≠ 0
                  then (sbrk s ((requestedSize + HDR) % 18446744073709551616)).1 + HDR
                  else 0, s') ∧
        s'.sbrkLog = (requestedSize + HDR) % 18446744073709551616 :: s.sbrkLog ∧
        s'.brk = (sbrk s ((requestedSize + HDR) % 18446744073709551616)).2.brk) := by
  refine ⟨fun b hfit => ?_, fun hnone => ?_⟩
  · have hbL : b ∈ L := List.mem_of_find?_eq_some hfit
    have hfits : fits s.mem requestedSize b = true := List.find?_some hfit
    have hge : getSize s.mem b ≥ requestedSize := by
      unfold fits at hfits
      exact (of_decide_eq_true hfits).1
    have hsepH : L.Pairwise HeadersApart :=
      hapart.imp (fun {x y} h => BlocksApart_headers _ x y h)
    by_cases hex : getSize s.mem b = requestedSize
    · exact ⟨s, malloc_exact_match fuel s requestedSize L b hinit hchain (by omega) hfit hex hreq,
        rfl, rfl⟩
    · by_cases hsplit : 48 < getSize s.mem b - requestedSize
          ∧ getSize s.mem b - requestedSize < 2147483648
      · obtain ⟨m', tl, hm, _⟩ :=
          malloc_reuse_split fuel s requestedSize L b hinit hptr hchain hapart (hcap b hbL)
            hfuel hfit hsplit.1 hsplit.2 hreq
        exact ⟨_, hm, rfl, rfl⟩
      · obtain ⟨m', fh, hm, _⟩ :=
          malloc_reuse_whole fuel s requestedSize L b hinit hchain hsepH (by omega) hfit
            (by omega) (by omega) hreq
        exact ⟨_, hm, rfl, rfl⟩
  · exact malloc_no_fit fuel s requestedSize L hinit hchain (by omega) hnone hreq

/-- C7 (amended) at a concrete state: the free list is the 100-byte block at
4198 followed by the 30-byte block at 4096; 25 bytes are requested and the
block at 4198 is the first that fits. -/
theorem malloc_first_fit_witness :
    ∃ s', malloc 8 (stateAfter 8 4096 1000000
        [.allocate 30, .allocate 8, .allocate 100, .allocate 8, .release 0, .release 2]) 25
        = some (4198 + HDR, s') ∧
      s'.sbrkLog = (stateAfter 8 4096 1000000
        [.allocate 30, .allocate 8, .allocate 100, .allocate 8, .release 0, .release 2]).sbrkLog ∧
      s'.brk = (stateAfter 8 4096 1000000
        [.allocate 30, .allocate 8, .allocate 100, .allocate 8, .release 0, .release 2]).brk :=
  (malloc_first_fit 8
    (stateAfter 8 4096 1000000
      [.allocate 30, .allocate 8, .allocate 100, .allocate 8, .release 0, .release 2])
    25 [4198, 4096]
    (by decide) (by decide!) (by decide!) (by decide!) (by decide!) (by decide!) (by decide)).1
    4198 (by decide!)

/-- C8. A leftover of `2^31` bytes or more is not split: after
`Allocate(2147483748)` and `Release`, the free list is the single block at 4096
of capacity 2147483748; `Allocate(10)` returns its payload with `size = 10`, but
the capacity is still 2147483748, no remainder block is on the free list (it is
empty) and the tail is still the block itself. -/
theorem large_leftover_not_split :
    FreeChain (stateAfter 8 4096 1099511627776 [.allocate 2147483748, .release 0]).mem
      (stateAfter 8 4096 1099511627776 [.allocate 2147483748, .release 0]).free_head [4096] ∧
    getCapacity (stateAfter 8 4096 1099511627776 [.allocate 2147483748, .release 0]).mem 4096
      = 2147483748 ∧
    2147483748 - 10 > HDR + 16 ∧
    Returns (malloc 8 (stateAfter 8 4096 1099511627776 [.allocate 2147483748, .release 0]) 10)
      (4096 + HDR)
      (fun s' => getSize s'.mem 4096 = 10 ∧ getCapacity s'.mem 4096 = 2147483748 ∧
        getUsed s'.mem 4096 = 1 ∧ s'.free_head = 0 ∧ s'.tail = 4096) := by
  decide!

/-- C9. The remainder of a split is not linked to the successor.  After
`Allocate(100)`, `Allocate(20)`, `Release` of the first and `Allocate(10)`, the
block at 4096 was split with remainder at 4138 and successor at 4228, 90 bytes
behind the remainder: `next` of the remainder is 0 and `prev` of the successor
is still 132.  When the split block is the last one and the caller had stored
the byte 255 at offset 22 of its payload, `next` of the remainder is 255. -/
theorem split_remainder_not_linked :
    Reaches (run 8 (newClient 4096 1000000)
        [.allocate 100, .allocate 20, .release 0, .allocate 10])
      (fun c => getNext c.st.mem 4096 = 10 + HDR ∧ getPrev c.st.mem 4138 = 10 + HDR ∧
        getNext c.st.mem 4138 = 0 ∧ getPrev c.st.mem 4228 = 132 ∧ 4228 - 4138 = 90) ∧
    Reaches (run 8 (newClient 4096 1000000)
        [.allocate 100, .store 0 22 255, .release 0, .allocate 10])
      (fun c => getNext c.st.mem 4096 = 10 + HDR ∧ c.st.tail = 4138 ∧
        getNext c.st.mem 4138 = 255) := by
  decide!
/-- C10. No split below the threshold: in a state whose free list is a chain of
free blocks (`used` clear, `size = capacity`) with headers that do not overlap,
when the first block with `capacity ≥ requestedSize` has capacity `c` and
`0 < c - requestedSize ≤ sizeof(metadata_t) + 16`, `malloc` returns that block's
payload; afterwards its `size` is `requestedSize`, its `capacity` is still `c`,
it is marked used and unlinked from the free list, its `next` and `prev` are
unchanged, every other header reads as before, and the globals other than
`free_head` (heap list head and tail, heap bounds, the break) are unchanged. -/
theorem malloc_no_split_below_threshold (fuel : Nat) (s : State) (requestedSize : Nat)
    (L : List Nat) (b c : Nat)
    (hreq : 0 < requestedSize)
    (hinit : s.startOfHeap ≠ 0)
    (hchain : FreeChain s.mem s.free_head L)
    (hapart : L.Pairwise HeadersApart)
    (hfree : ∀ y ∈ L, getUsed s.mem y = 0 ∧ getSize s.mem y = getCapacity s.mem y)
    (hfuel : L.length < fuel)
    (hfirst : L.find? (fun y => decide (getCapacity s.mem y ≥ requestedSize)) = some b)
    (hc : getCapacity s.mem b = c)
    (hlo : 0 < c - requestedSize) (hhi : c - requestedSize ≤ HDR + 16) :
    ∃ m' fh,
      malloc fuel s requestedSize = some (b + HDR, { s with mem := m', free_head := fh }) ∧
      getSize m' b = requestedSize ∧ getCapacity m' b = c ∧ getUsed m' b = 1 ∧
      FreeChain m' fh (L.erase b) ∧ b ∉ L.erase b ∧
      getNext m' b = getNext s.mem b ∧ getPrev m' b = getPrev s.mem b ∧
      (∀ y ∈ L, y ≠ b → SameHeader m' s.mem y) ∧
      (∀ h, (∀ y ∈ L, HeadersApart h y) →
        SameHeader m' s.mem h ∧ getNextFree m' h = getNextFree s.mem h) ∧
      (∀ x, ¬ (b ≤ x ∧ x < b + 4) → x ≠ b + 8 →
        (∀ y ∈ L, x < y + 24 ∨ y + 32 ≤ x) → m' x = s.mem x) := by
  have hfit : L.find? (fits s.mem requestedSize) = some b := by
    rw [← hfirst]
    refine find?_congr_mem _ _ L (fun y hy => ?_)
    obtain ⟨h1, h2⟩ := hfree y hy
    simp [fits, h1, h2]
  have hbL : b ∈ L := List.mem_of_find?_eq_some hfit
  have hsz : getSize s.mem b = c := by rw [(hfree b hbL).2, hc]
  have hHDR : HDR = 32 := rfl
  obtain ⟨m', fh, hm, hch, hs, hu, hframe⟩ :=
    malloc_reuse_whole fuel s requestedSize L b hinit hchain hapart hfuel hfit
      (by omega) (Or.inl (by omega)) hreq
  have hnodup : L.Nodup := by
    refine hapart.imp (fun {x y} h => ?_)
    unfold HeadersApart at h
    omega
  have hap : ∀ y ∈ L, y = b ∨ HeadersApart y b := by
    intro y hy
    by_cases h : y = b
    · exact Or.inl h
    · exact Or.inr (hapart.forall HeadersApart_symm hy hbL h)
  have hin : ∀ x, b ≤ x → x < b + 24 → ∀ y ∈ L, x < y + 24 ∨ y + 32 ≤ x := by
    intro x h1 h2 y hy
    rcases hap y hy with h | h
    · subst h; omega
    · unfold HeadersApart HDR at h; omega
  refine ⟨m', fh, hm, hs, ?_, hu, hch, ?_, ?_, ?_, ?_, ?_, hframe⟩
  · rw [← hc]
    exact rdN_congr _ _ 4 (b + 4)
      (fun x h1 h2 => hframe x (by omega) (by omega) (hin x (by omega) (by omega)))
  · exact fun h => ((hnodup.mem_erase_iff).mp h).1 rfl
  · exact rdN_congr _ _ 4 (b + 12)
      (fun x h1 h2 => hframe x (by omega) (by omega) (hin x (by omega) (by omega)))
  · exact rdN_congr _ _ 4 (b + 16)
      (fun x h1 h2 => hframe x (by omega) (by omega) (hin x (by omega) (by omega)))
  · intro y hy hyb
    have hyb2 : HeadersApart y b := hapart.forall HeadersApart_symm hy hbL hyb
    refine SameHeader_of_frame _ _ y (fun x h1 h2 => ?_)
    unfold HeadersApart at hyb2
    refine hframe x (by omega) (by omega) (fun z hz => ?_)
    by_cases hzy : z = y
    · subst hzy; omega
    · have := hapart.forall HeadersApart_symm hz hy hzy
      unfold HeadersApart at this
      omega
  · intro h hh
    have hb2 := hh b hbL
    unfold HeadersApart at hb2
    have hfr : ∀ x, h ≤ x → x < h + 32 → m' x = s.mem x := by
      intro x h1 h2
      refine hframe x (by omega) (by omega) (fun z hz => ?_)
      have := hh z hz
      unfold HeadersApart at this
      omega
    refine ⟨SameHeader_of_frame _ _ h (fun x h1 h2 => hfr x h1 (by omega)), ?_⟩
    exact rdN_congr _ _ 8 (h + 24) (fun x h1 h2 => hfr x (by omega) (by omega))

/-- C10 at a concrete state: after `Allocate(30)`, `Allocate(8)`, `Allocate(100)`,
`Allocate(8)`, `Release` of the first and of the third, the free list is the
100-byte block followed by the 30-byte block; `Allocate(90)` takes the 100-byte
block whole. -/
theorem malloc_no_split_below_threshold_witness :
    ∃ m' fh,
      malloc 8 (stateAfter 8 4096 1000000
          [.allocate 30, .allocate 8, .allocate 100, .allocate 8, .release 0, .release 2]) 90
        = some (4198 + HDR,
            { stateAfter 8 4096 1000000
                [.allocate 30, .allocate 8, .allocate 100, .allocate 8, .release 0, .release 2]
              with mem := m', free_head := fh }) ∧
      getSize m' 4198 = 90 ∧ getCapacity m' 4198 = 100 ∧ getUsed m' 4198 = 1 ∧
      FreeChain m' fh ([4198, 4096].erase 4198) :=
  have h := malloc_no_split_below_threshold 8
    (stateAfter 8 4096 1000000
      [.allocate 30, .allocate 8, .allocate 100, .allocate 8, .release 0, .release 2])
    90 [4198, 4096] 4198 100
    (by decide) (by decide!) (by decide!) (by decide!) (by decide!) (by decide) (by decide!)
    (by decide!) (by decide) (by decide)
  match h with
  | ⟨m', fh, h1, h2, h3, h4, h5, _⟩ => ⟨m', fh, h1, h2, h3, h4, h5⟩

/-! ## Lemmas for the extension and release paths -/

/-- A load from cells that all hold zero is zero. -/
theorem rdN_zero (m : Mem) (n : Nat) : ∀ a : Nat,
    (∀ x, a ≤ x → x < a + n → m x = 0) → rdN m a n = 0 := by
  induction n with
  | zero => intro a _; rfl
  | succ n ih =>
    intro a h
    show m a % 256 + 256 * rdN m (a + 1) n = 0
    rw [h a (Nat.le_refl a) (by omega), ih (a + 1) (fun x h1 h2 => h x (by omega) (by omega))]

/-- The lazy query of the break does not take the early return when the heap is
already started or the OS answers with an address. -/
theorem startHeap_ok (s : State) (hos : s.brk < s.limit)
    (hlimit : s.limit < 18446744073709551616) :
    startHeap s = (if s.startOfHeap = 0 then
        { s with startOfHeap := s.brk, sbrkLog := 0 :: s.sbrkLog } else s, false) := by
  unfold startHeap sbrk
  by_cases h : s.startOfHeap = 0
  · have h2 : s.brk ≠ SBRK_FAILED := by unfold SBRK_FAILED; omega
    have h3 : s.brk ≤ s.limit := by omega
    simp [h, h3, h2]
  · simp [h]

/-- The extension path of `malloc` when the OS grants the extension: the header
is built at the old break, appended to the heap list, and nothing else is
stored into. -/
theorem malloc_extend_spec (fuel : Nat) (s : State) (req : Nat) (L : List Nat)
    (hreq : 0 < req) (hbound : req + HDR < 4294967296)
    (hbrk : s.brk ≠ 0) (hlimit : s.limit < 18446744073709551616)
    (hchain : FreeChain s.mem s.free_head L) (hfuel : L.length < fuel)
    (hnofit : L.find? (fits s.mem req) = none)
    (hos : s.brk + (req + HDR) ≤ s.limit)
    (hzero : ∀ x, s.brk ≤ x → s.mem x = 0)
    (hbelow : ∀ y ∈ L, y + HDR ≤ s.brk)
    (htail : s.head ≠ 0 → s.tail + HDR ≤ s.brk ∧ s.brk - s.tail < 4294967296 ∧
      ∀ y ∈ L, y = s.tail ∨ HeadersApart y s.tail) :
    ∃ m', malloc fuel s req = some (s.brk + HDR,
        { (startHeap s).1 with
          mem := m', brk := s.brk + (req + HDR),
          sbrkLog := (req + HDR) :: (startHeap s).1.sbrkLog,
          head := if s.head = 0 then s.brk else s.head, tail := s.brk }) ∧
      getSize m' s.brk = req ∧ getCapacity m' s.brk = req ∧ getUsed m' s.brk = 1 ∧
      getNext m' s.brk = 0 ∧ getNextFree m' s.brk = 0 ∧
      (s.head = 0 → getPrev m' s.brk = 0) ∧
      (s.head ≠ 0 → getPrev m' s.brk = s.brk - s.tail ∧ getNext m' s.tail = s.brk - s.tail) ∧
      (∀ x, x < s.brk → (s.head = 0 ∨ x < s.tail + 12 ∨ s.tail + 16 ≤ x) → m' x = s.mem x) ∧
      (∀ x, s.brk + HDR ≤ x → m' x = 0) ∧
      FreeChain m' s.free_head L := by
  have hHDR : HDR = 32 := rfl
  have e4 : 256 ^ 4 = 4294967296 := by norm_num
  have hsh := startHeap_ok s (by omega) hlimit
  have hreq0 : ¬ req = 0 := by omega
  have hmod : (req + HDR) % 18446744073709551616 = req + HDR := Nat.mod_eq_of_lt (by omega)
  have hreq32 : req % 4294967296 = req := Nat.mod_eq_of_lt (by omega)
  by_cases hinit : s.startOfHeap = 0
  all_goals
    simp only [hinit, if_true, if_false] at hsh
    have hff : findFit s.mem req fuel s.free_head = some 0 := by
      rw [findFit_chain _ _ L _ _ hchain hfuel, hnofit]; rfl
    unfold malloc
    simp only [hreq0, hsh, hff, if_false, if_true, Bool.false_eq_true, Option.map_some',
      extendHeap, sbrk, hmod, hos, hbrk, ne_eq, not_false_eq_true]
    by_cases hh : s.head = 0
    · simp only [hh, if_true, hbrk, ne_eq, not_false_eq_true]
      refine ⟨_, rfl, ?_, ?_, ?_, ?_, ?_, ?_, ?_, ?_, ?_, ?_⟩
      · simp only [getSize, setSize, setCapacity, setUsed]
        simp (disch := omega) only [rdN_wrN_disj, rdN_wrN_same, e4, hreq32]
      · simp only [getCapacity, setSize, setCapacity, setUsed]
        simp (disch := omega) only [rdN_wrN_disj, rdN_wrN_same, e4, hreq32]
      · simp only [getUsed, setSize, setCapacity, setUsed]
        simp (disch := omega) only [rdN_wrN_disj, rdN_wrN_same]
        rfl
      · simp only [getNext, setSize, setCapacity, setUsed]
        simp (disch := omega) only [rdN_wrN_disj]
        exact rdN_zero _ _ _ (fun x h1 _ => hzero x (by omega))
      · simp only [getNextFree, setSize, setCapacity, setUsed]
        simp (disch := omega) only [rdN_wrN_disj]
        exact rdN_zero _ _ _ (fun x h1 _ => hzero x (by omega))
      · intro _
        simp only [getPrev, setSize, setCapacity, setUsed]
        simp (disch := omega) only [rdN_wrN_disj]
        exact rdN_zero _ _ _ (fun x h1 _ => hzero x (by omega))
      · intro h; exact absurd trivial h
      · intro x hx _
        simp only [setSize, setCapacity, setUsed]
        simp (disch := omega) only [wrN_outside]
      · intro x hx
        simp only [hHDR] at hx
        simp only [setSize, setCapacity, setUsed]
        simp (disch := omega) only [wrN_outside]
        exact hzero x (by omega)
      · refine FreeChain_congr s.mem _ L _ (fun y hy => ?_) hchain
        have := hbelow y hy
        simp only [hHDR] at this
        simp only [getNextFree, setSize, setCapacity, setUsed]
        simp (disch := omega) only [rdN_wrN_disj]
    · obtain ⟨ht1, ht2, ht3⟩ := htail hh
      simp only [hHDR] at ht1
      have hd : addrDist s.tail s.brk = s.brk - s.tail := by
        unfold addrDist
        have : s.brk > s.tail := by omega
        simp only [this, if_true]
        exact Nat.mod_eq_of_lt ht2
      have hd32 : (s.brk - s.tail) % 4294967296 = s.brk - s.tail := Nat.mod_eq_of_lt ht2
      simp only [hh, if_false, hd, hbrk, ne_eq, not_false_eq_true, if_true]
      refine ⟨_, rfl, ?_, ?_, ?_, ?_, ?_, ?_, ?_, ?_, ?_, ?_⟩
      · simp only [getSize, getPrev, setSize, setCapacity, setUsed, setPrev, setNext]
        simp (disch := omega) only [rdN_wrN_disj, rdN_wrN_same, e4, hreq32]
      · simp only [getCapacity, getPrev, setSize, setCapacity, setUsed, setPrev, setNext]
        simp (disch := omega) only [rdN_wrN_disj, rdN_wrN_same, e4, hreq32]
      · simp only [getUsed, getPrev, setSize, setCapacity, setUsed, setPrev, setNext]
        simp (disch := omega) only [rdN_wrN_disj, rdN_wrN_same]
        rfl
      · simp only [getNext, getPrev, setSize, setCapacity, setUsed, setPrev, setNext]
        simp (disch := omega) only [rdN_wrN_disj]
        exact rdN_zero _ _ _ (fun x h1 _ => hzero x (by omega))
      · simp only [getNextFree, getPrev, setSize, setCapacity, setUsed, setPrev, setNext]
        simp (disch := omega) only [rdN_wrN_disj]
        exact rdN_zero _ _ _ (fun x h1 _ => hzero x (by omega))
      · intro h; exact h.elim
      · intro _
        refine ⟨?_, ?_⟩
        · simp only [getPrev, setSize, setCapacity, setUsed, setPrev, setNext]
          simp (disch := omega) only [rdN_wrN_disj, rdN_wrN_same, e4, hd32]
        · simp only [getNext, getPrev, setSize, setCapacity, setUsed, setPrev, setNext]
          simp (disch := omega) only [rdN_wrN_disj, rdN_wrN_same, e4, hd32, Nat.mod_mod]
      · intro x hx hx2
        have hx3 : x < s.tail + 12 ∨ s.tail + 16 ≤ x := by
          rcases hx2 with h | h
          · exact h.elim
          · exact h
        simp only [setSize, setCapacity, setUsed, setPrev, setNext]
        simp (disch := omega) only [wrN_outside]
      · intro x hx
        simp only [hHDR] at hx
        simp only [setSize, setCapacity, setUsed, setPrev, setNext]
        simp (disch := omega) only [wrN_outside]
        exact hzero x (by omega)
      · refine FreeChain_congr s.mem _ L _ (fun y hy => ?_) hchain
        have h1 := hbelow y hy
        have h2 := ht3 y hy
        simp only [hHDR, HeadersApart] at h1 h2
        simp only [getNextFree, getPrev, setSize, setCapacity, setUsed, setPrev, setNext]
        simp (disch := omega) only [rdN_wrN_disj]

/-- The release path without a merge: when the next and the previous block are
each absent or used, `free` clears `used`, resets `size` to `capacity`, pushes
the block on the free list and stores nowhere else. -/
theorem free_no_merge_spec (fuel : Nat) (s : State) (b : Nat) (L : List Nat)
    (hb : b ≠ 0) (hptr : s.free_head < 18446744073709551616)
    (hchain : FreeChain s.mem s.free_head L)
    (hapart : ∀ y ∈ L, HeadersApart y b)
    (hnext : getNext s.mem b = 0 ∨
      (HDR ≤ getNext s.mem b ∧ getUsed s.mem (b + getNext s.mem b) ≠ 0))
    (hprev : getPrev s.mem b = 0 ∨
      (HDR ≤ getPrev s.mem b ∧ getPrev s.mem b ≤ b ∧
        getUsed s.mem (b - getPrev s.mem b) ≠ 0)) :
    ∃ m', free fuel s (b + HDR) = some { s with mem := m', free_head := b } ∧
      getUsed m' b = 0 ∧ getSize m' b = getCapacity s.mem b ∧
      getCapacity m' b = getCapacity s.mem b ∧ getNextFree m' b = s.free_head ∧
      getNext m' b = getNext s.mem b ∧ getPrev m' b = getPrev s.mem b ∧
      (∀ x, (x < b ∨ b + 4 ≤ x) → x ≠ b + 8 → (x < b + 24 ∨ b + 32 ≤ x) → m' x = s.mem x) ∧
      FreeChain m' b (b :: L) := by
  have hHDR : HDR = 32 := rfl
  have e4 : 256 ^ 4 = 4294967296 := by norm_num
  have e8 : 256 ^ 8 = 18446744073709551616 := by norm_num
  have hp0 : ¬ b + HDR = 0 := by omega
  have hsub : b + HDR - HDR = b := by omega
  have hcap := getCapacity_lt s.mem b
  -- the memory after the three stores into the header of `b`
  let m1 : Mem := setNextFree (setSize (setUsed s.mem b 0) b (getCapacity (setUsed s.mem b 0) b))
    b s.free_head
  have hframe : ∀ x, (x < b ∨ b + 4 ≤ x) → x ≠ b + 8 → (x < b + 24 ∨ b + 32 ≤ x) →
      m1 x = s.mem x := by
    intro x h1 h2 h3
    show setNextFree (setSize (setUsed s.mem b 0) b _) b s.free_head x = s.mem x
    simp only [setSize, setUsed, setNextFree]
    simp (disch := omega) only [wrN_outside]
  have hnx : getNext m1 b = getNext s.mem b :=
    rdN_congr _ _ 4 (b + 12) (fun x h1 h2 => hframe x (by omega) (by omega) (by omega))
  have hpv : getPrev m1 b = getPrev s.mem b :=
    rdN_congr _ _ 4 (b + 16) (fun x h1 h2 => hframe x (by omega) (by omega) (by omega))
  have hc1 : ¬ (getNext m1 b ≠ 0 ∧ getUsed m1 (b + getNext m1 b) = 0) := by
    rw [hnx]
    rcases hnext with h | ⟨h1, h2⟩
    · simp [h]
    · intro hc
      apply h2
      rw [← hc.2]
      simp only [hHDR] at h1
      exact (rdN_congr _ _ 1 _ (fun x h3 h4 => hframe x (by omega) (by omega) (by omega))).symm
  have hc2 : ¬ (getPrev m1 b ≠ 0 ∧ getUsed m1 (b - getPrev m1 b) = 0) := by
    rw [hpv]
    rcases hprev with h | ⟨h1, h2, h3⟩
    · simp [h]
    · intro hc
      apply h3
      rw [← hc.2]
      simp only [hHDR] at h1
      exact (rdN_congr _ _ 1 _ (fun x h3 h4 => hframe x (by omega) (by omega) (by omega))).symm
  refine ⟨m1, ?_, ?_, ?_, ?_, ?_, hnx, hpv, hframe, ?_⟩
  · unfold free
    simp only [hp0, hsub, if_false, hb, ne_eq, not_false_eq_true, if_true]
    simp only [show setNextFree (setSize (setUsed s.mem b 0) b (getCapacity (setUsed s.mem b 0) b))
      b s.free_head = m1 from rfl]
    have hc1' : ¬ (¬ getNext m1 b = 0 ∧ getUsed m1 (b + getNext m1 b) = 0) := hc1
    have hc2' : ¬ (¬ getPrev m1 b = 0 ∧ getUsed m1 (b - getPrev m1 b) = 0) := hc2
    simp only [hc1', if_false, hc2']
  · show getUsed (setNextFree (setSize (setUsed s.mem b 0) b _) b s.free_head) b = 0
    simp only [getUsed, setSize, setUsed, setNextFree]
    simp (disch := omega) only [rdN_wrN_disj, rdN_wrN_same, Nat.zero_mod]
  · show getSize (setNextFree (setSize (setUsed s.mem b 0) b _) b s.free_head) b = _
    simp only [getSize, getCapacity, setSize, setUsed, setNextFree] at hcap ⊢
    simp (disch := omega) only [rdN_wrN_disj, rdN_wrN_same, e4]
    exact Nat.mod_eq_of_lt hcap
  · exact rdN_congr _ _ 4 (b + 4) (fun x h1 h2 => hframe x (by omega) (by omega) (by omega))
  · show getNextFree (setNextFree (setSize (setUsed s.mem b 0) b _) b s.free_head) b = _
    simp only [getNextFree, setNextFree]
    simp (disch := omega) only [rdN_wrN_same, e8]
    exact Nat.mod_eq_of_lt hptr
  · have hnf : getNextFree m1 b = s.free_head := by
      show getNextFree (setNextFree (setSize (setUsed s.mem b 0) b _) b s.free_head) b = _
      simp only [getNextFree, setNextFree]
      simp (disch := omega) only [rdN_wrN_same, e8]
      exact Nat.mod_eq_of_lt hptr
    refine ⟨rfl, hb, ?_⟩
    rw [hnf]
    refine FreeChain_congr s.mem _ L _ (fun y hy => ?_) hchain
    have := hapart y hy
    simp only [HeadersApart, hHDR] at this
    exact rdN_congr _ _ 8 (y + 24) (fun x h1 h2 => hframe x (by omega) (by omega) (by omega))

/-- Every block of a chain that starts at a 64-bit address is a 64-bit address. -/
theorem FreeChain_lt (m : Mem) : ∀ (L : List Nat) (p : Nat),
    FreeChain m p L → p < 18446744073709551616 → ∀ z ∈ L, z < 18446744073709551616 := by
  intro L
  induction L with
  | nil => intro p _ _ z hz; cases hz
  | cons a t ih =>
    intro p h hp z hz
    obtain ⟨h1, _, h3⟩ := h
    rcases List.mem_cons.mp hz with rfl | hzt
    · rw [← h1]; exact hp
    · exact ih _ h3 (getNextFree_lt m a) z hzt

/-- The start of a chain of 64-bit addresses is a 64-bit address. -/
theorem FreeChain_head_lt (m : Mem) (L : List Nat) (p : Nat) (h : FreeChain m p L)
    (hL : ∀ z ∈ L, z < 18446744073709551616) : p < 18446744073709551616 := by
  cases L with
  | nil =>
    have : p = 0 := h
    omega
  | cons a t =>
    obtain ⟨h1, _, _⟩ := h
    rw [h1]
    exact hL a (List.mem_cons_self a t)

/-- The first 24 bytes of a header that is a block of the list, or apart from
all of them, lie outside every `next_free` field of the list. -/
theorem low24_outside (L : List Nat) (h : Nat)
    (hh : ∀ z ∈ L, z = h ∨ HeadersApart z h) :
    ∀ a, h ≤ a → a < h + 24 → ∀ z ∈ L, a < z + 24 ∨ z + 32 ≤ a := by
  intro a h1 h2 z hz
  rcases hh z hz with e | e
  · subst e; omega
  · unfold HeadersApart HDR at e; omega

/-- In a list of headers that are pairwise apart, a header of the list is equal
to or apart from every header of the list. -/
theorem mem_eq_or_apart (L : List Nat) (hsep : L.Pairwise HeadersApart) (h : Nat)
    (hh : h ∈ L) : ∀ z ∈ L, z = h ∨ HeadersApart z h := by
  intro z hz
  by_cases e : z = h
  · exact Or.inl e
  · exact Or.inr (hsep.forall HeadersApart_symm hz hh e)

/-- The result of `addrDist` is a 32-bit value. -/
theorem addrDist_mod (a b : Nat) : addrDist a b % 4294967296 = addrDist a b := by
  unfold addrDist
  exact Nat.mod_mod _ _

/-- What `coalesce(x, y)` does on a free list that is a chain holding both
blocks: both are unlinked, `x` takes the capacity of both plus a header
(cut to 32 bits), `x` is linked to the successor of `y` (or becomes the tail),
and `x` is pushed on the free list. -/
theorem coalesce_spec (fuel : Nat) (s : State) (x y : Nat) (L : List Nat)
    (hptr : s.free_head < 18446744073709551616)
    (hchain : FreeChain s.mem s.free_head L) (hsep : L.Pairwise HeadersApart)
    (hx : x ∈ L) (hy : y ∈ L) (hxy : x ≠ y) (hfuel : L.length ≤ fuel)
    (hsucc : getNext s.mem y ≠ 0 →
      HeadersApart x (y + getNext s.mem y) ∧
      ∀ z ∈ L, z = y + getNext s.mem y ∨ HeadersApart z (y + getNext s.mem y)) :
    ∃ m', coalesce fuel s x y = some { s with
          mem := m', free_head := x,
          tail := if getNext s.mem y = 0 then x else s.tail } ∧
      FreeChain m' x (x :: (L.erase x).erase y) ∧
      getCapacity m' x = (getCapacity s.mem x + getCapacity s.mem y + HDR) % 4294967296 ∧
      getSize m' x = (getCapacity s.mem x + getCapacity s.mem y + HDR) % 4294967296 ∧
      getUsed m' x = getUsed s.mem x ∧ getPrev m' x = getPrev s.mem x ∧
      (getNext s.mem y = 0 → getNext m' x = 0) ∧
      (getNext s.mem y ≠ 0 →
        getNext m' x = addrDist x (y + getNext s.mem y) ∧
        getPrev m' (y + getNext s.mem y) = addrDist x (y + getNext s.mem y)) ∧
      (∀ a, (a < x ∨ x + 8 ≤ a) → (a < x + 12 ∨ x + 16 ≤ a) →
        (getNext s.mem y = 0 ∨ a < y + getNext s.mem y + 16 ∨ y + getNext s.mem y + 20 ≤ a) →
        (∀ z ∈ L, a < z + 24 ∨ z + 32 ≤ a) → m' a = s.mem a) := by
  have hHDR : HDR = 32 := rfl
  have e4 : 256 ^ 4 = 4294967296 := by norm_num
  have e8 : 256 ^ 8 = 18446744073709551616 := by norm_num
  have hx0 : x ≠ 0 := FreeChain_ne_zero s.mem L _ hchain x hx
  have hLlt := FreeChain_lt s.mem L _ hchain hptr
  -- the two removals
  obtain ⟨m1, fh1, hrem1, hch1, hfr1⟩ :=
    remove_from_free_list_chain fuel s L x hchain hsep hx hfuel
  have hy1 : y ∈ L.erase x := (List.mem_erase_of_ne (Ne.symm hxy)).mpr hy
  have hsub1 : (L.erase x).Sublist L := List.erase_sublist x L
  have hsep1 : (L.erase x).Pairwise HeadersApart := hsep.sublist hsub1
  obtain ⟨m2, fh2, hrem2, hch2, hfr2⟩ :=
    remove_from_free_list_chain fuel { s with mem := m1, free_head := fh1 } (L.erase x) y
      hch1 hsep1 hy1 (Nat.le_trans hsub1.length_le hfuel)
  have hsub2 : ((L.erase x).erase y).Sublist L := (List.erase_sublist y _).trans hsub1
  have hfh2 : fh2 < 18446744073709551616 :=
    FreeChain_head_lt m2 _ fh2 hch2 (fun z hz => hLlt z (hsub2.subset hz))
  have hfr : ∀ a, (∀ z ∈ L, a < z + 24 ∨ z + 32 ≤ a) → m2 a = s.mem a := by
    intro a ha
    rw [hfr2 a (fun z hz => ha z (hsub1.subset hz))]
    exact hfr1 a ha
  have hxL := mem_eq_or_apart L hsep x hx
  have hyL := mem_eq_or_apart L hsep y hy
  have hxy2 : HeadersApart x y := hsep.forall HeadersApart_symm hx hy hxy
  simp only [HeadersApart, hHDR] at hxy2
  have hlowx := low24_outside L x hxL
  have hlowy := low24_outside L y hyL
  have hcx : getCapacity m2 x = getCapacity s.mem x :=
    rdN_congr _ _ 4 (x + 4) (fun a h1 h2 => hfr a (hlowx a (by omega) (by omega)))
  have hcy : getCapacity m2 y = getCapacity s.mem y :=
    rdN_congr _ _ 4 (y + 4) (fun a h1 h2 => hfr a (hlowy a (by omega) (by omega)))
  have hny : getNext m2 y = getNext s.mem y :=
    rdN_congr _ _ 4 (y + 12) (fun a h1 h2 => hfr a (hlowy a (by omega) (by omega)))
  have hux : getUsed m2 x = getUsed s.mem x :=
    rdN_congr _ _ 1 (x + 8) (fun a h1 h2 => hfr a (hlowx a (by omega) (by omega)))
  have hpx : getPrev m2 x = getPrev s.mem x :=
    rdN_congr _ _ 4 (x + 16) (fun a h1 h2 => hfr a (hlowx a (by omega) (by omega)))
  have hv : ((getCapacity s.mem x + getCapacity s.mem y) % 4294967296 + HDR) % 4294967296
      = (getCapacity s.mem x + getCapacity s.mem y + HDR) % 4294967296 := by
    simp only [hHDR]; omega
  -- the chain without the two blocks survives stores into `x` and into `prev` of a header
  have hxnot : x ∉ (L.erase x).erase y := by
    intro h
    have h1 : x ∈ L.erase x := (List.erase_sublist y _).subset h
    have hnd : L.Nodup := hsep.imp (fun {a b} h => by unfold HeadersApart HDR at h; omega)
    exact ((hnd.mem_erase_iff).mp h1).1 rfl
  have hchainF : ∀ mF : Mem, getNextFree mF x = fh2 →
      (∀ z ∈ (L.erase x).erase y, getNextFree mF z = getNextFree m2 z) →
      FreeChain mF x (x :: (L.erase x).erase y) := by
    intro mF h1 h2
    refine ⟨rfl, hx0, ?_⟩
    rw [h1]
    exact FreeChain_congr m2 mF _ _ h2 hch2
  have hzx : ∀ z ∈ (L.erase x).erase y, z + 32 ≤ x ∨ x + 32 ≤ z := by
    intro z hz
    have hzL : z ∈ L := hsub2.subset hz
    have hne : z ≠ x := fun e => hxnot (e ▸ hz)
    have := hsep.forall HeadersApart_symm hzL hx hne
    unfold HeadersApart HDR at this
    omega
  unfold coalesce
  rw [hrem1]
  simp only []
  rw [hrem2]
  simp only [add_to_free_list, hx0, if_false, hcx, hcy, hv]
  by_cases hn : getNext s.mem y = 0
  · -- `y` was the last block
    have hn5 : getNext (setNext (setSize (setCapacity m2 x
          ((getCapacity s.mem x + getCapacity s.mem y + HDR) % 4294967296)) x
          (getCapacity (setCapacity m2 x
            ((getCapacity s.mem x + getCapacity s.mem y + HDR) % 4294967296)) x)) x 0) y = 0 := by
      rw [← hn, ← hny]
      simp only [getNext, getCapacity, setNext, setSize, setCapacity]
      simp (disch := omega) only [rdN_wrN_disj]
    simp only [hn5, ne_eq, not_true_eq_false, if_false, hn, if_true]
    refine ⟨_, rfl, ?_, ?_, ?_, ?_, ?_, ?_, ?_, ?_⟩
    · refine hchainF _ ?_ (fun z hz => ?_)
      · simp only [getNextFree, setNextFree]
        simp (disch := omega) only [rdN_wrN_same, e8]
        exact Nat.mod_eq_of_lt hfh2
      · have := hzx z hz
        simp only [getNextFree, getCapacity, setNextFree, setNext, setSize, setCapacity]
        simp (disch := omega) only [rdN_wrN_disj]
    · simp only [getCapacity, setNextFree, setNext, setSize, setCapacity]
      simp (disch := omega) only [rdN_wrN_disj, rdN_wrN_same, e4, Nat.mod_mod]
    · simp only [getSize, getCapacity, setNextFree, setNext, setSize, setCapacity]
      simp (disch := omega) only [rdN_wrN_disj, rdN_wrN_same, e4, Nat.mod_mod]
    · rw [← hux]
      simp only [getUsed, getCapacity, setNextFree, setNext, setSize, setCapacity]
      simp (disch := omega) only [rdN_wrN_disj]
    · rw [← hpx]
      simp only [getPrev, getCapacity, setNextFree, setNext, setSize, setCapacity]
      simp (disch := omega) only [rdN_wrN_disj]
    · intro _
      simp only [getNext, getCapacity, setNextFree, setNext, setSize, setCapacity]
      simp (disch := omega) only [rdN_wrN_disj, rdN_wrN_same, Nat.zero_mod]
    · intro h; exact h.elim
    · intro a h1 h2 _ h4
      rw [← hfr a h4]
      have := h4 x hx
      simp only [getCapacity, setNextFree, setNext, setSize, setCapacity]
      simp (disch := omega) only [wrN_outside]
  · -- `y` has a successor
    obtain ⟨hs1, hs2⟩ := hsucc hn
    simp only [HeadersApart, hHDR] at hs1
    have hn5 : getNext (setNext (setSize (setCapacity m2 x
          ((getCapacity s.mem x + getCapacity s.mem y + HDR) % 4294967296)) x
          (getCapacity (setCapacity m2 x
            ((getCapacity s.mem x + getCapacity s.mem y + HDR) % 4294967296)) x)) x 0) y
        = getNext s.mem y := by
      rw [← hny]
      simp only [getNext, getCapacity, setNext, setSize, setCapacity]
      simp (disch := omega) only [rdN_wrN_disj]
    simp only [hn5, hn, ne_eq, not_false_eq_true, if_true, if_false]
    generalize getNext s.mem y = nx at hs1 hs2 ⊢
    have hd : addrDist x (y + nx) % 4294967296 = addrDist x (y + nx) := addrDist_mod _ _
    refine ⟨_, rfl, ?_, ?_, ?_, ?_, ?_, ?_, ?_, ?_⟩
    · refine hchainF _ ?_ (fun z hz => ?_)
      · simp only [getNextFree, setNextFree]
        simp (disch := omega) only [rdN_wrN_same, e8]
        exact Nat.mod_eq_of_lt hfh2
      · have h1 := hzx z hz
        have h2 := hs2 z (hsub2.subset hz)
        simp only [HeadersApart, hHDR] at h2
        simp only [getNextFree, getCapacity, getPrev, setNextFree, setNext, setSize,
          setCapacity, setPrev]
        simp (disch := omega) only [rdN_wrN_disj]
    · simp only [getCapacity, getPrev, setNextFree, setNext, setSize, setCapacity, setPrev]
      simp (disch := omega) only [rdN_wrN_disj, rdN_wrN_same, e4, Nat.mod_mod]
    · simp only [getSize, getCapacity, getPrev, setNextFree, setNext, setSize, setCapacity,
        setPrev]
      simp (disch := omega) only [rdN_wrN_disj, rdN_wrN_same, e4, Nat.mod_mod]
    · rw [← hux]
      simp only [getUsed, getCapacity, getPrev, setNextFree, setNext, setSize, setCapacity,
        setPrev]
      simp (disch := omega) only [rdN_wrN_disj]
    · rw [← hpx]
      simp only [getPrev, getCapacity, setNextFree, setNext, setSize, setCapacity, setPrev]
      simp (disch := omega) only [rdN_wrN_disj]
    · intro h; exact h.elim
    · intro _
      refine ⟨?_, ?_⟩
      · simp only [getNext, getCapacity, getPrev, setNextFree, setNext, setSize, setCapacity,
          setPrev]
        simp (disch := omega) only [rdN_wrN_disj, rdN_wrN_same, e4, Nat.mod_mod, hd]
      · simp only [getNext, getCapacity, getPrev, setNextFree, setNext, setSize, setCapacity,
          setPrev]
        simp (disch := omega) only [rdN_wrN_disj, rdN_wrN_same, e4, Nat.mod_mod, hd]
    · intro a h1 h2 h3 h4
      rw [← hfr a h4]
      have h5 := h4 x hx
      have h6 : a < y + nx + 16 ∨ y + nx + 20 ≤ a := by
        rcases h3 with h | h
        · exact h.elim
        · exact h
      simp only [getCapacity, getPrev, setNextFree, setNext, setSize, setCapacity, setPrev]
      simp (disch := omega) only [wrN_outside]

/-- The function `free` on the payload of a header `b`, in terms of the memory
after its first statements and of the two conditional merges. -/
theorem free_unfold (fuel : Nat) (s : State) (b : Nat) (hb : b ≠ 0) :
    free fuel s (b + HDR) =
      match (if getNext (releasedMem s b) b ≠ 0 ∧
                getUsed (releasedMem s b) (b + getNext (releasedMem s b) b) = 0
             then coalesce fuel { s with mem := releasedMem s b, free_head := b } b
                    (b + getNext (releasedMem s b) b)
             else some { s with mem := releasedMem s b, free_head := b }) with
      | none => none
      | some s2 =>
        if getPrev s2.mem b ≠ 0 ∧ getUsed s2.mem (b - getPrev s2.mem b) = 0
        then coalesce fuel s2 (b - getPrev s2.mem b) b
        else some s2 := by
  have hp0 : ¬ b + HDR = 0 := by unfold HDR; omega
  have hsub : b + HDR - HDR = b := by omega
  unfold free
  simp only [hp0, hsub, if_false, hb, ne_eq, not_false_eq_true, if_true]
  rfl

/-- The first statements of `free`: what the memory holds afterwards. -/
theorem releasedMem_spec (s : State) (b : Nat) (L : List Nat)
    (hb : b ≠ 0) (hptr : s.free_head < 18446744073709551616)
    (hchain : FreeChain s.mem s.free_head L)
    (hapart : ∀ y ∈ L, HeadersApart y b) :
    getUsed (releasedMem s b) b = 0 ∧
    getSize (releasedMem s b) b = getCapacity s.mem b ∧
    getCapacity (releasedMem s b) b = getCapacity s.mem b ∧
    getNextFree (releasedMem s b) b = s.free_head ∧
    getNext (releasedMem s b) b = getNext s.mem b ∧
    getPrev (releasedMem s b) b = getPrev s.mem b ∧
    (∀ x, (x < b ∨ b + 4 ≤ x) → x ≠ b + 8 → (x < b + 24 ∨ b + 32 ≤ x) →
      releasedMem s b x = s.mem x) ∧
    FreeChain (releasedMem s b) b (b :: L) := by
  have hHDR : HDR = 32 := rfl
  have e4 : 256 ^ 4 = 4294967296 := by norm_num
  have e8 : 256 ^ 8 = 18446744073709551616 := by norm_num
  have hcap := getCapacity_lt s.mem b
  have hframe : ∀ x, (x < b ∨ b + 4 ≤ x) → x ≠ b + 8 → (x < b + 24 ∨ b + 32 ≤ x) →
      releasedMem s b x = s.mem x := by
    intro x h1 h2 h3
    simp only [releasedMem, setSize, setUsed, setNextFree]
    simp (disch := omega) only [wrN_outside]
  have hnf : getNextFree (releasedMem s b) b = s.free_head := by
    simp only [releasedMem, getNextFree, setNextFree]
    simp (disch := omega) only [rdN_wrN_same, e8]
    exact Nat.mod_eq_of_lt hptr
  refine ⟨?_, ?_, ?_, hnf, ?_, ?_, hframe, ?_⟩
  · simp only [releasedMem, getUsed, setSize, setUsed, setNextFree]
    simp (disch := omega) only [rdN_wrN_disj, rdN_wrN_same, Nat.zero_mod]
  · simp only [releasedMem, getSize, getCapacity, setSize, setUsed, setNextFree] at hcap ⊢
    simp (disch := omega) only [rdN_wrN_disj, rdN_wrN_same, e4]
    exact Nat.mod_eq_of_lt hcap
  · exact rdN_congr _ _ 4 (b + 4) (fun x h1 h2 => hframe x (by omega) (by omega) (by omega))
  · exact rdN_congr _ _ 4 (b + 12) (fun x h1 h2 => hframe x (by omega) (by omega) (by omega))
  · exact rdN_congr _ _ 4 (b + 16) (fun x h1 h2 => hframe x (by omega) (by omega) (by omega))
  · refine ⟨rfl, hb, ?_⟩
    rw [hnf]
    refine FreeChain_congr s.mem _ L _ (fun y hy => ?_) hchain
    have := hapart y hy
    simp only [HeadersApart, hHDR] at this
    exact rdN_congr _ _ 8 (y + 24) (fun x h1 h2 => hframe x (by omega) (by omega) (by omega))

/-- The header fields of a header apart from `b` are not touched by the first
statements of `free` on `b`. -/
theorem releasedMem_apart (s : State) (b h : Nat) (hh : HeadersApart h b) :
    SameHeader (releasedMem s b) s.mem h ∧
    getNextFree (releasedMem s b) h = getNextFree s.mem h := by
  have hHDR : HDR = 32 := rfl
  simp only [HeadersApart, hHDR] at hh
  have hframe : ∀ x, h ≤ x → x < h + 32 → releasedMem s b x = s.mem x := by
    intro x h1 h2
    simp only [releasedMem, setSize, setUsed, setNextFree]
    simp (disch := omega) only [wrN_outside]
  exact ⟨SameHeader_of_frame _ _ h (fun x h1 h2 => hframe x h1 (by omega)),
    rdN_congr _ _ 8 (h + 24) (fun x h1 h2 => hframe x (by omega) (by omega))⟩

/-- The release path with a forward merge only: the next block `n` is free and
on the free list, the previous block is absent or used. -/
theorem free_merge_next_spec (fuel : Nat) (s : State) (b n : Nat) (L : List Nat)
    (hb : b ≠ 0) (hb64 : b < 18446744073709551616)
    (hptr : s.free_head < 18446744073709551616)
    (hchain : FreeChain s.mem s.free_head L) (hsep : L.Pairwise HeadersApart)
    (hapart : ∀ z ∈ L, HeadersApart z b) (hfuel : L.length + 1 ≤ fuel)
    (hn0 : getNext s.mem b ≠ 0) (hn : b + getNext s.mem b = n) (hnL : n ∈ L)
    (hnu : getUsed s.mem n = 0)
    (hsucc : getNext s.mem n ≠ 0 →
      HeadersApart b (n + getNext s.mem n) ∧
      ∀ z ∈ L, z = n + getNext s.mem n ∨ HeadersApart z (n + getNext s.mem n))
    (hprev : getPrev s.mem b = 0 ∨
      (HDR ≤ getPrev s.mem b ∧ getPrev s.mem b ≤ b ∧
        getUsed s.mem (b - getPrev s.mem b) ≠ 0 ∧
        (∀ z ∈ L, HeadersApart z (b - getPrev s.mem b)) ∧
        (getNext s.mem n ≠ 0 → HeadersApart (b - getPrev s.mem b) (n + getNext s.mem n)))) :
    ∃ m', free fuel s (b + HDR) = some { s with
          mem := m', free_head := b,
          tail := if getNext s.mem n = 0 then b else s.tail } ∧
      FreeChain m' b (b :: L.erase n) ∧
      getCapacity m' b = (getCapacity s.mem b + getCapacity s.mem n + HDR) % 4294967296 ∧
      getSize m' b = (getCapacity s.mem b + getCapacity s.mem n + HDR) % 4294967296 ∧
      getUsed m' b = 0 ∧ getPrev m' b = getPrev s.mem b ∧
      (getNext s.mem n = 0 → getNext m' b = 0) ∧
      (getNext s.mem n ≠ 0 →
        getNext m' b = addrDist b (n + getNext s.mem n) ∧
        getPrev m' (n + getNext s.mem n) = addrDist b (n + getNext s.mem n)) ∧
      (∀ a, (a < b ∨ b + 32 ≤ a) →
        (getNext s.mem n = 0 ∨ a < n + getNext s.mem n + 16 ∨ n + getNext s.mem n + 20 ≤ a) →
        (∀ z ∈ L, a < z + 24 ∨ z + 32 ≤ a) → m' a = s.mem a) := by
  have hHDR : HDR = 32 := rfl
  obtain ⟨hu, hsz, hcp, hnf, hnx, hpv, hfr, hch1⟩ := releasedMem_spec s b L hb hptr hchain hapart
  have hnb : HeadersApart n b := hapart n hnL
  obtain ⟨hRn, _⟩ := releasedMem_apart s b n hnb
  obtain ⟨_, hRn_cap, hRn_used, hRn_next, _⟩ := hRn
  have hbn : b ≠ n := by
    intro e; simp only [HeadersApart, hHDR] at hnb; omega
  have hsep1 : (b :: L).Pairwise HeadersApart := by
    rw [List.pairwise_cons]
    exact ⟨fun z hz => HeadersApart_symm (hapart z hz), hsep⟩
  -- the forward merge
  obtain ⟨m2, hco, hch2, hc2, hs2, hu2, hp2, hnz2, hnn2, hfr2⟩ :=
    coalesce_spec fuel { s with mem := releasedMem s b, free_head := b } b n (b :: L)
      hb64 hch1 hsep1 (List.mem_cons_self b L) (List.mem_cons_of_mem b hnL) hbn
      (by simp only [List.length_cons]; omega)
      (by
        intro h
        have h' : getNext s.mem n ≠ 0 := by rw [← hRn_next]; exact h
        obtain ⟨h1, h2⟩ := hsucc h'
        have e : getNext (releasedMem s b) n = getNext s.mem n := hRn_next
        simp only [e]
        refine ⟨h1, fun z hz => ?_⟩
        rcases List.mem_cons.mp hz with rfl | hzL
        · exact Or.inr h1
        · exact h2 z hzL)
  simp only [hRn_next, hRn_cap, hcp, hu, hpv] at hco hc2 hs2 hu2 hp2 hnz2 hnn2 hfr2
  rw [List.erase_cons_head] at hch2
  have hcond1 : getNext (releasedMem s b) b ≠ 0 ∧
      getUsed (releasedMem s b) (b + getNext (releasedMem s b) b) = 0 := by
    rw [hnx, hn, hRn_used]
    exact ⟨hn0, hnu⟩
  have hcond2 : ¬ (getPrev m2 b ≠ 0 ∧ getUsed m2 (b - getPrev m2 b) = 0) := by
    rw [hp2]
    rcases hprev with h | ⟨h1, h2, h3, h4, h5⟩
    · simp [h]
    · intro hc
      apply h3
      rw [← hc.2]
      simp only [hHDR] at h1
      have e1 : getUsed m2 (b - getPrev s.mem b) = getUsed (releasedMem s b) (b - getPrev s.mem b) := by
        refine rdN_congr _ _ 1 _ (fun a h6 h7 => hfr2 a (by omega) (by omega) ?_ ?_)
        · by_cases hz : getNext s.mem n = 0
          · exact Or.inl hz
          · have := h5 hz
            simp only [HeadersApart, hHDR] at this
            right; omega
        · intro z hz
          rcases List.mem_cons.mp hz with rfl | hzL
          · omega
          · have := h4 z hzL
            simp only [HeadersApart, hHDR] at this
            omega
      have e2 : getUsed (releasedMem s b) (b - getPrev s.mem b) = getUsed s.mem (b - getPrev s.mem b) :=
        rdN_congr _ _ 1 _ (fun a h6 h7 => hfr a (by omega) (by omega) (by omega))
      rw [e1, e2]
  refine ⟨m2, ?_, hch2, hc2, hs2, hu2, hp2, hnz2, hnn2, ?_⟩
  · rw [free_unfold fuel s b hb, if_pos hcond1, hnx, hn, hco]
    simp only []
    rw [if_neg hcond2]
  · intro a h1 h2 h3
    rw [hfr2 a (by omega) (by omega) h2 (fun z hz => by
      rcases List.mem_cons.mp hz with rfl | hzL
      · omega
      · exact h3 z hzL)]
    exact hfr a (by omega) (by omega) (by omega)

/-- The release path with a backward merge only: the previous block `p` is free
and on the free list, the next block is absent or used. -/
theorem free_merge_prev_spec (fuel : Nat) (s : State) (b p : Nat) (L : List Nat)
    (hb : b ≠ 0) (hb64 : b < 18446744073709551616)
    (hptr : s.free_head < 18446744073709551616)
    (hchain : FreeChain s.mem s.free_head L) (hsep : L.Pairwise HeadersApart)
    (hapart : ∀ z ∈ L, HeadersApart z b) (hfuel : L.length + 1 ≤ fuel)
    (hp0 : getPrev s.mem b ≠ 0) (hp : b - getPrev s.mem b = p) (hpL : p ∈ L)
    (hpu : getUsed s.mem p = 0)
    (hnext : getNext s.mem b = 0 ∨
      (HDR ≤ getNext s.mem b ∧ getUsed s.mem (b + getNext s.mem b) ≠ 0 ∧
        HeadersApart p (b + getNext s.mem b) ∧
        ∀ z ∈ L, z = b + getNext s.mem b ∨ HeadersApart z (b + getNext s.mem b))) :
    ∃ m', free fuel s (b + HDR) = some { s with
          mem := m', free_head := p,
          tail := if getNext s.mem b = 0 then p else s.tail } ∧
      FreeChain m' p (p :: L.erase p) ∧
      getCapacity m' p = (getCapacity s.mem p + getCapacity s.mem b + HDR) % 4294967296 ∧
      getSize m' p = (getCapacity s.mem p + getCapacity s.mem b + HDR) % 4294967296 ∧
      getUsed m' p = 0 ∧ getPrev m' p = getPrev s.mem p ∧
      (getNext s.mem b = 0 → getNext m' p = 0) ∧
      (getNext s.mem b ≠ 0 →
        getNext m' p = addrDist p (b + getNext s.mem b) ∧
        getPrev m' (b + getNext s.mem b) = addrDist p (b + getNext s.mem b)) ∧
      (∀ a, (a < b ∨ b + 32 ≤ a) → (a < p ∨ p + 8 ≤ a) → (a < p + 12 ∨ p + 16 ≤ a) →
        (getNext s.mem b = 0 ∨ a < b + getNext s.mem b + 16 ∨ b + getNext s.mem b + 20 ≤ a) →
        (∀ z ∈ L, a < z + 24 ∨ z + 32 ≤ a) → m' a = s.mem a) := by
  have hHDR : HDR = 32 := rfl
  obtain ⟨hu, hsz, hcp, hnf, hnx, hpv, hfr, hch1⟩ := releasedMem_spec s b L hb hptr hchain hapart
  have hpb : HeadersApart p b := hapart p hpL
  obtain ⟨hRp, _⟩ := releasedMem_apart s b p hpb
  obtain ⟨_, hRp_cap, hRp_used, _, hRp_prev⟩ := hRp
  have hpb2 : p ≠ b := by
    intro e; simp only [HeadersApart, hHDR] at hpb; omega
  have hsep1 : (b :: L).Pairwise HeadersApart := by
    rw [List.pairwise_cons]
    exact ⟨fun z hz => HeadersApart_symm (hapart z hz), hsep⟩
  have hcond1 : ¬ (getNext (releasedMem s b) b ≠ 0 ∧
      getUsed (releasedMem s b) (b + getNext (releasedMem s b) b) = 0) := by
    rw [hnx]
    rcases hnext with h | ⟨h1, h2, _, _⟩
    · simp [h]
    · intro hc
      apply h2
      rw [← hc.2]
      simp only [hHDR] at h1
      exact (rdN_congr _ _ 1 _ (fun a h6 h7 => hfr a (by omega) (by omega) (by omega))).symm
  have hcond2 : getPrev (releasedMem s b) b ≠ 0 ∧
      getUsed (releasedMem s b) (b - getPrev (releasedMem s b) b) = 0 := by
    rw [hpv, hp, hRp_used]
    exact ⟨hp0, hpu⟩
  -- the backward merge
  obtain ⟨m2, hco, hch2, hc2, hs2, hu2, hp2, hnz2, hnn2, hfr2⟩ :=
    coalesce_spec fuel { s with mem := releasedMem s b, free_head := b } p b (b :: L)
      hb64 hch1 hsep1 (List.mem_cons_of_mem b hpL) (List.mem_cons_self b L) hpb2
      (by simp only [List.length_cons]; omega)
      (by
        intro h
        have e : getNext (releasedMem s b) b = getNext s.mem b := hnx
        simp only [e] at h ⊢
        rcases hnext with h0 | ⟨h1, _, h3, h4⟩
        · exact absurd h0 h
        · refine ⟨h3, fun z hz => ?_⟩
          rcases List.mem_cons.mp hz with rfl | hzL
          · right
            simp only [HeadersApart, hHDR] at h1 ⊢
            omega
          · exact h4 z hzL)
  simp only [hnx, hRp_cap, hcp, hRp_used, hRp_prev, hpu] at hco hc2 hs2 hu2 hp2 hnz2 hnn2 hfr2
  have hne : ¬ (b == p) = true := by
    simp only [beq_iff_eq]; exact fun e => hpb2 e.symm
  rw [List.erase_cons_tail hne, List.erase_cons_head] at hch2
  refine ⟨m2, ?_, hch2, hc2, hs2, hu2, hp2, hnz2, hnn2, ?_⟩
  · rw [free_unfold fuel s b hb, if_neg hcond1]
    simp only []
    rw [if_pos hcond2, hpv, hp, hco]
  · intro a h1 h2 h3 h4 h5
    rw [hfr2 a h2 h3 h4 (fun z hz => by
      rcases List.mem_cons.mp hz with rfl | hzL
      · omega
      · exact h5 z hzL)]
    exact hfr a (by omega) (by omega) (by omega)

/-- Adding a header and a capacity modulo `2^32` twice is adding both once. -/
theorem capacity_sum_mod (a b c : Nat) :
    (a + (b + c + HDR) % 4294967296 + HDR) % 4294967296
      = (a + b + c + 2 * HDR) % 4294967296 := by
  unfold HDR; omega

/-- The release path with both merges: the next block `n` and the previous
block `p` are free and on the free list.  The capacities are summed modulo
`2^32`, as the 32-bit fields hold them. -/
theorem free_merge_both_spec (fuel : Nat) (s : State) (b n p : Nat) (L : List Nat)
    (hb : b ≠ 0) (hb64 : b < 18446744073709551616)
    (hptr : s.free_head < 18446744073709551616)
    (hchain : FreeChain s.mem s.free_head L) (hsep : L.Pairwise HeadersApart)
    (hapart : ∀ z ∈ L, HeadersApart z b) (hfuel : L.length + 1 ≤ fuel)
    (hn0 : getNext s.mem b ≠ 0) (hn : b + getNext s.mem b = n) (hnL : n ∈ L)
    (hnu : getUsed s.mem n = 0)
    (hp0 : getPrev s.mem b ≠ 0) (hp : b - getPrev s.mem b = p) (hpL : p ∈ L)
    (hpu : getUsed s.mem p = 0) (hpb : p ≤ b)
    (hsucc : getNext s.mem n ≠ 0 →
      getNext s.mem b + getNext s.mem n < 4294967296 ∧
      HeadersApart b (n + getNext s.mem n) ∧
      ∀ z ∈ L, z = n + getNext s.mem n ∨ HeadersApart z (n + getNext s.mem n)) :
    ∃ m', free fuel s (b + HDR) = some { s with
          mem := m', free_head := p,
          tail := if getNext s.mem n = 0 then p else s.tail } ∧
      FreeChain m' p (p :: (L.erase n).erase p) ∧
      getCapacity m' p = (getCapacity s.mem p + getCapacity s.mem b + getCapacity s.mem n
        + 2 * HDR) % 4294967296 ∧
      getSize m' p = (getCapacity s.mem p + getCapacity s.mem b + getCapacity s.mem n
        + 2 * HDR) % 4294967296 ∧
      getUsed m' p = 0 ∧ getPrev m' p = getPrev s.mem p ∧
      (getNext s.mem n = 0 → getNext m' p = 0) ∧
      (getNext s.mem n ≠ 0 →
        getNext m' p = addrDist p (n + getNext s.mem n) ∧
        getPrev m' (n + getNext s.mem n) = addrDist p (n + getNext s.mem n)) ∧
      (∀ a, (a < b ∨ b + 32 ≤ a) → (a < p ∨ p + 8 ≤ a) → (a < p + 12 ∨ p + 16 ≤ a) →
        (getNext s.mem n = 0 ∨ a < n + getNext s.mem n + 16 ∨ n + getNext s.mem n + 20 ≤ a) →
        (∀ z ∈ L, a < z + 24 ∨ z + 32 ≤ a) → m' a = s.mem a) := by
  have hHDR : HDR = 32 := rfl
  obtain ⟨hu, hsz, hcp, hnf, hnx, hpv, hfr, hch1⟩ := releasedMem_spec s b L hb hptr hchain hapart
  have hnb : HeadersApart n b := hapart n hnL
  have hpb1 : HeadersApart p b := hapart p hpL
  have hnb' : b + 32 ≤ n := by
    have := hnb
    simp only [HeadersApart, hHDR] at this
    omega
  have hpb' : p + 32 ≤ b := by
    have := hpb1
    simp only [HeadersApart, hHDR] at this
    omega
  obtain ⟨hRn, _⟩ := releasedMem_apart s b n hnb
  obtain ⟨_, hRn_cap, hRn_used, hRn_next, _⟩ := hRn
  have hbn : b ≠ n := by intro e; omega
  have hpb2 : p ≠ b := by intro e; omega
  have hpn : p ≠ n := by intro e; omega
  have hsep1 : (b :: L).Pairwise HeadersApart := by
    rw [List.pairwise_cons]
    exact ⟨fun z hz => HeadersApart_symm (hapart z hz), hsep⟩
  -- the forward merge
  obtain ⟨m2, hco, hch2, hc2, hs2, hu2, hp2, hnz2, hnn2, hfr2⟩ :=
    coalesce_spec fuel { s with mem := releasedMem s b, free_head := b } b n (b :: L)
      hb64 hch1 hsep1 (List.mem_cons_self b L) (List.mem_cons_of_mem b hnL) hbn
      (by simp only [List.length_cons]; omega)
      (by
        intro h
        have e : getNext (releasedMem s b) n = getNext s.mem n := hRn_next
        simp only [e] at h ⊢
        obtain ⟨_, h1, h2⟩ := hsucc h
        refine ⟨h1, fun z hz => ?_⟩
        rcases List.mem_cons.mp hz with rfl | hzL
        · exact Or.inr h1
        · exact h2 z hzL)
  simp only [hRn_next, hRn_cap, hcp, hu, hpv] at hco hc2 hs2 hu2 hp2 hnz2 hnn2 hfr2
  rw [List.erase_cons_head] at hch2
  have hcond1 : getNext (releasedMem s b) b ≠ 0 ∧
      getUsed (releasedMem s b) (b + getNext (releasedMem s b) b) = 0 := by
    rw [hnx, hn, hRn_used]
    exact ⟨hn0, hnu⟩
  -- the header of `p` after the forward merge
  have hpfr : ∀ a, p ≤ a → a < p + 24 → m2 a = s.mem a := by
    intro a h1 h2
    rw [hfr2 a (by omega) (by omega) ?_ ?_]
    · exact hfr a (by omega) (by omega) (by omega)
    · by_cases hz : getNext s.mem n = 0
      · exact Or.inl hz
      · right; omega
    · intro z hz
      rcases List.mem_cons.mp hz with rfl | hzL
      · omega
      · exact low24_outside L p (mem_eq_or_apart L hsep p hpL) a h1 h2 z hzL
  have hp_cap : getCapacity m2 p = getCapacity s.mem p :=
    rdN_congr _ _ 4 (p + 4) (fun a h1 h2 => hpfr a (by omega) (by omega))
  have hp_used : getUsed m2 p = 0 := by
    rw [← hpu]
    exact rdN_congr _ _ 1 (p + 8) (fun a h1 h2 => hpfr a (by omega) (by omega))
  have hp_prev : getPrev m2 p = getPrev s.mem p :=
    rdN_congr _ _ 4 (p + 16) (fun a h1 h2 => hpfr a (by omega) (by omega))
  have hcond2 : getPrev m2 b ≠ 0 ∧ getUsed m2 (b - getPrev m2 b) = 0 := by
    rw [hp2, hp]
    exact ⟨hp0, hp_used⟩
  -- `next` of `b` after the forward merge
  have hnb2 : getNext m2 b = if getNext s.mem n = 0 then 0 else n + getNext s.mem n - b := by
    by_cases hz : getNext s.mem n = 0
    · simp only [hz, if_true]; exact hnz2 hz
    · simp only [hz, if_false]
      rw [(hnn2 hz).1]
      obtain ⟨h1, _, _⟩ := hsucc hz
      unfold addrDist
      have : n + getNext s.mem n > b := by omega
      simp only [this, if_true]
      exact Nat.mod_eq_of_lt (by omega)
  have hsub : (L.erase n).Sublist L := List.erase_sublist n L
  have hsep2 : (b :: L.erase n).Pairwise HeadersApart := by
    rw [List.pairwise_cons]
    exact ⟨fun z hz => HeadersApart_symm (hapart z (hsub.subset hz)), hsep.sublist hsub⟩
  have hpL2 : p ∈ L.erase n := (List.mem_erase_of_ne hpn).mpr hpL
  -- the backward merge
  obtain ⟨s2, hs2def⟩ : ∃ s2 : State, s2 = { s with
      mem := m2, free_head := b, tail := if getNext s.mem n = 0 then b else s.tail } := ⟨_, rfl⟩
  have hs2m : s2.mem = m2 := by rw [hs2def]
  have hs2f : s2.free_head = b := by rw [hs2def]
  rw [← hs2def] at hco
  obtain ⟨m3, hco3, hch3, hc3, hs3, hu3, hp3, hnz3, hnn3, hfr3⟩ :=
    coalesce_spec fuel s2 p b (b :: L.erase n)
      (by rw [hs2f]; exact hb64) (by rw [hs2m, hs2f]; exact hch2) hsep2
      (List.mem_cons_of_mem b hpL2) (List.mem_cons_self b _) hpb2
      (by simp only [List.length_cons]; have := hsub.length_le; omega)
      (by
        rw [hs2m]
        intro h
        have h' : getNext m2 b ≠ 0 := h
        rw [hnb2] at h'
        by_cases hz : getNext s.mem n = 0
        · simp only [hz, if_true] at h'; exact absurd rfl h'
        · obtain ⟨h1, h2, h3⟩ := hsucc hz
          have e : b + getNext m2 b = n + getNext s.mem n := by
            rw [hnb2]; simp only [hz, if_false]; omega
          rw [e]
          refine ⟨?_, fun z hz2 => ?_⟩
          · simp only [HeadersApart, hHDR]; omega
          · rcases List.mem_cons.mp hz2 with rfl | hzL
            · exact Or.inr h2
            · exact h3 z (hsub.subset hzL))
  rw [hs2m] at hco3 hc3 hs3 hu3 hp3 hnz3 hnn3 hfr3
  simp only [hp_cap, hc2, hp_used, hp_prev] at hco3 hc3 hs3 hu3 hp3 hnz3 hnn3 hfr3
  have hne : ¬ (b == p) = true := by
    simp only [beq_iff_eq]; exact fun e => hpb2 e.symm
  rw [List.erase_cons_tail hne, List.erase_cons_head] at hch3
  have hcapsum : (getCapacity s.mem p
        + (getCapacity s.mem b + getCapacity s.mem n + HDR) % 4294967296 + HDR) % 4294967296
      = (getCapacity s.mem p + getCapacity s.mem b + getCapacity s.mem n + 2 * HDR)
        % 4294967296 := capacity_sum_mod _ _ _
  rw [hcapsum] at hc3 hs3
  have htail : (if getNext m2 b = 0 then p
      else if getNext s.mem n = 0 then b else s.tail)
      = if getNext s.mem n = 0 then p else s.tail := by
    rw [hnb2]
    by_cases hz : getNext s.mem n = 0
    · simp only [hz, if_true]
    · obtain ⟨h1, _, _⟩ := hsucc hz
      have : ¬ (n + getNext s.mem n - b = 0) := by omega
      simp only [hz, if_false, this]
  refine ⟨m3, ?_, hch3, hc3, hs3, hu3, hp3, ?_, ?_, ?_⟩
  · rw [free_unfold fuel s b hb, if_pos hcond1, hnx, hn, hco]
    simp only [hs2m]
    rw [if_pos hcond2, hp2, hp, hco3, hs2def]
    simp only [htail]
  · intro hz
    apply hnz3
    rw [hnb2]; simp only [hz, if_true]
  · intro hz
    obtain ⟨h1, _, _⟩ := hsucc hz
    have e : b + getNext m2 b = n + getNext s.mem n := by
      rw [hnb2]; simp only [hz, if_false]
      clear hnb2 htail hnz2 hnn2 hnz3 hnn3 hc2 hs2 hc3 hs3 hcapsum hfr hfr2 hfr3 hpfr
      omega
    have hz2 : getNext m2 b ≠ 0 := by
      rw [hnb2]; simp only [hz, if_false]
      clear hnb2 htail hnz2 hnn2 hnz3 hnn3 hc2 hs2 hc3 hs3 hcapsum hfr hfr2 hfr3 hpfr
      omega
    have := hnn3 hz2
    rw [e] at this
    exact this
  · intro a h1 h2 h3 h4 h5
    have hz2 : getNext m2 b = 0 ∨ a < b + getNext m2 b + 16 ∨ b + getNext m2 b + 20 ≤ a := by
      by_cases hz : getNext s.mem n = 0
      · left; rw [hnb2]; simp only [hz, if_true]
      · obtain ⟨h6, _, _⟩ := hsucc hz
        have e : b + getNext m2 b = n + getNext s.mem n := by
          rw [hnb2]; simp only [hz, if_false]
          clear hnb2 htail hnz2 hnn2 hnz3 hnn3 hc2 hs2 hc3 hs3 hcapsum hfr hfr2 hfr3 hpfr
          omega
        right
        rw [e]
        rcases h4 with h | h
        · exact absurd h hz
        · exact h
    have hb1 : a < b + 24 ∨ b + 32 ≤ a := by
      rcases h1 with h | h
      · left; clear hnb2 htail hnz2 hnn2 hnz3 hnn3 hc2 hs2 hc3 hs3 hcapsum hfr hfr2 hfr3 hpfr; omega
      · exact Or.inr h
    have hb2 : a < b ∨ b + 8 ≤ a := by
      rcases h1 with h | h
      · exact Or.inl h
      · right; clear hnb2 htail hnz2 hnn2 hnz3 hnn3 hc2 hs2 hc3 hs3 hcapsum hfr hfr2 hfr3 hpfr; omega
    have hb3 : a < b + 12 ∨ b + 16 ≤ a := by
      rcases h1 with h | h
      · left; clear hnb2 htail hnz2 hnn2 hnz3 hnn3 hc2 hs2 hc3 hs3 hcapsum hfr hfr2 hfr3 hpfr; omega
      · right; clear hnb2 htail hnz2 hnn2 hnz3 hnn3 hc2 hs2 hc3 hs3 hcapsum hfr hfr2 hfr3 hpfr; omega
    have hb4 : a < b ∨ b + 4 ≤ a := by
      rcases h1 with h | h
      · exact Or.inl h
      · right; clear hnb2 htail hnz2 hnn2 hnz3 hnn3 hc2 hs2 hc3 hs3 hcapsum hfr hfr2 hfr3 hpfr; omega
    have hb5 : a ≠ b + 8 := by
      rcases h1 with h | h
      · exact Nat.ne_of_lt (Nat.lt_of_lt_of_le h (Nat.le_add_right b 8))
      · clear hnb2 htail hnz2 hnn2 hnz3 hnn3 hc2 hs2 hc3 hs3 hcapsum hfr hfr2 hfr3 hpfr; omega
    rw [hfr3 a h2 h3 hz2 (fun z hz => by
      rcases List.mem_cons.mp hz with rfl | hzL
      · exact hb1
      · exact h5 z (hsub.subset hzL))]
    rw [hfr2 a hb2 hb3 h4 (fun z hz => by
      rcases List.mem_cons.mp hz with rfl | hzL
      · exact hb1
      · exact h5 z hzL)]
    exact hfr a hb4 hb5 hb1

/-- The first-fit loop never ends on a block that is its own `next_free` and
does not pass the test: no fuel suffices. -/
theorem findFit_self_loop (m : Mem) (size_ p : Nat) (hp : p ≠ 0)
    (hloop : getNextFree m p = p) (hno : ¬ (getSize m p ≥ size_ ∧ getUsed m p = 0)) :
    ∀ fuel, findFit m size_ fuel p = none := by
  intro fuel
  induction fuel with
  | zero => rfl
  | succ f ih =>
    simp only [findFit, hp, hno, if_false, hloop]
    exact ih


/-- When some block of the free list passes the first-fit test, `malloc` returns
the payload of the first such block and does not call the OS (the exact-match,
split and no-split paths together). -/
theorem malloc_fit_returns (fuel : Nat) (s : State) (req : Nat) (L : List Nat) (b : Nat)
    (hreq : 0 < req)
    (hinit : s.startOfHeap ≠ 0) (hptr : s.free_head < 18446744073709551616)
    (hchain : FreeChain s.mem s.free_head L)
    (hapart : L.Pairwise (BlocksApart s.mem))
    (hcap : ∀ y ∈ L, getSize s.mem y ≤ getCapacity s.mem y)
    (hfuel : L.length + 1 < fuel)
    (hfit : L.find? (fits s.mem req) = some b) :
    ∃ s', malloc fuel s req = some (b + HDR, s') ∧
      s'.sbrkLog = s.sbrkLog ∧ s'.brk = s.brk ∧ s'.startOfHeap = s.startOfHeap ∧
      s'.limit = s.limit := by
  have hbL : b ∈ L := List.mem_of_find?_eq_some hfit
  have hfits : fits s.mem req b = true := List.find?_some hfit
  have hge : getSize s.mem b ≥ req := by
    unfold fits at hfits
    exact (of_decide_eq_true hfits).1
  have hsepH : L.Pairwise HeadersApart :=
    hapart.imp (fun {x y} h => BlocksApart_headers _ x y h)
  by_cases hex : getSize s.mem b = req
  · exact ⟨s, malloc_exact_match fuel s req L b hinit hchain (by omega) hfit hex hreq,
      rfl, rfl, rfl, rfl⟩
  · by_cases hsplit : 48 < getSize s.mem b - req ∧ getSize s.mem b - req < 2147483648
    · obtain ⟨m', tl, hm, _⟩ :=
        malloc_reuse_split fuel s req L b hinit hptr hchain hapart (hcap b hbL)
          hfuel hfit hsplit.1 hsplit.2 hreq
      exact ⟨_, hm, rfl, rfl, rfl, rfl⟩
    · obtain ⟨m', fh, hm, _⟩ :=
        malloc_reuse_whole fuel s req L b hinit hchain hsepH (by omega) hfit
          (by omega) (by omega) hreq
      exact ⟨_, hm, rfl, rfl, rfl, rfl⟩

/-- The header fields read from a memory that agrees on the first 20 bytes of the
header. -/
theorem HeaderIs_of_frame (m1 m2 : Mem) (h sz cap used next prev : Nat)
    (hh : HeaderIs m2 h sz cap used next prev)
    (hframe : ∀ x, h ≤ x → x < h + 20 → m1 x = m2 x) :
    HeaderIs m1 h sz cap used next prev := by
  obtain ⟨e1, e2, e3, e4, e5⟩ := SameHeader_of_frame m1 m2 h hframe
  obtain ⟨h1, h2, h3, h4, h5⟩ := hh
  exact ⟨by rw [e1, h1], by rw [e2, h2], by rw [e3, h3], by rw [e4, h4], by rw [e5, h5]⟩


/-- The first `Allocate` on the empty allocator: one used block at the initial
break. -/
theorem first_alloc_spec (fuel brk0 limit a : Nat)
    (hfuel : 0 < fuel) (hbrk0 : brk0 ≠ 0) (hlimit : limit < 18446744073709551616)
    (hos : brk0 + (a + HDR) ≤ limit) (ha : 0 < a) (ha32 : a + HDR < 4294967296) :
    ∃ m1, malloc fuel (emptyState brk0 limit) a = some (brk0 + HDR,
        { mem := m1, brk := brk0 + (a + HDR), limit := limit, sbrkLog := [a + HDR, 0],
          startOfHeap := brk0, head := brk0, tail := brk0, free_head := 0 }) ∧
      HeaderIs m1 brk0 a a 1 0 0 ∧ getNextFree m1 brk0 = 0 ∧
      (∀ x, brk0 + HDR ≤ x → m1 x = 0) := by
  have hHDR : HDR = 32 := rfl
  obtain ⟨m1, h1, h2, h3, h4, h5, h6, h7, _, _, h10, _⟩ :=
    malloc_extend_spec fuel (emptyState brk0 limit) a [] ha ha32 hbrk0 hlimit rfl hfuel rfl hos
      (fun _ _ => rfl) (fun y hy => by cases hy) (fun h => absurd rfl h)
  have hsh := startHeap_ok (emptyState brk0 limit)
    (show brk0 < limit by simp only [hHDR] at hos; omega) hlimit
  refine ⟨m1, ?_, ⟨h2, h3, h4, h5, h7 rfl⟩, h6, h10⟩
  rw [h1, hsh]
  simp [emptyState]

/-- The second `Allocate` on the allocator with one used block: a second used
block is appended. -/
theorem second_alloc_spec (fuel brk0 limit a b : Nat) (m1 : Mem)
    (hfuel : 0 < fuel) (hbrk0 : brk0 ≠ 0) (hlimit : limit < 18446744073709551616)
    (hos : brk0 + (a + HDR) + (b + HDR) ≤ limit) (hb : 0 < b)
    (ha32 : a + HDR < 4294967296) (hb32 : b + HDR < 4294967296)
    (hh1 : HeaderIs m1 brk0 a a 1 0 0)
    (hz1 : ∀ x, brk0 + HDR ≤ x → m1 x = 0) :
    ∃ m2, malloc fuel
        { mem := m1, brk := brk0 + (a + HDR), limit := limit, sbrkLog := [a + HDR, 0],
          startOfHeap := brk0, head := brk0, tail := brk0, free_head := 0 } b
        = some (brk0 + (a + HDR) + HDR,
          { mem := m2, brk := brk0 + (a + HDR) + (b + HDR), limit := limit,
            sbrkLog := [b + HDR, a + HDR, 0],
            startOfHeap := brk0, head := brk0, tail := brk0 + (a + HDR), free_head := 0 }) ∧
      HeaderIs m2 brk0 a a 1 (a + HDR) 0 ∧
      HeaderIs m2 (brk0 + (a + HDR)) b b 1 0 (a + HDR) := by
  have hHDR : HDR = 32 := rfl
  simp only [hHDR] at hos ha32 hb32 hz1
  obtain ⟨m2, h1, h2, h3, h4, h5, _, _, h8, h9, _, _⟩ :=
    malloc_extend_spec fuel
      { mem := m1, brk := brk0 + (a + HDR), limit := limit, sbrkLog := [a + HDR, 0],
        startOfHeap := brk0, head := brk0, tail := brk0, free_head := 0 } b []
      hb (by simp only [hHDR]; omega) (by simp only [hHDR]; omega) hlimit rfl hfuel rfl
      (by simp only [hHDR]; omega)
      (fun x hx => hz1 x (by simp only [hHDR] at hx; omega))
      (fun y hy => by cases hy)
      (fun _ => ⟨by simp only [hHDR]; omega, by simp only [hHDR]; omega,
        fun y hy => by cases hy⟩)
  have hsh : startHeap
      { mem := m1, brk := brk0 + (a + HDR), limit := limit, sbrkLog := [a + HDR, 0],
        startOfHeap := brk0, head := brk0, tail := brk0, free_head := 0 }
      = ({ mem := m1, brk := brk0 + (a + HDR), limit := limit, sbrkLog := [a + HDR, 0],
           startOfHeap := brk0, head := brk0, tail := brk0, free_head := 0 }, false) := by
    simp [startHeap, hbrk0]
  obtain ⟨e1, e2⟩ := h8 hbrk0
  have hd : brk0 + (a + HDR) - brk0 = a + HDR := by omega
  simp only [hd] at e1 e2
  refine ⟨m2, ?_, ?_, ⟨h2, h3, h4, h5, e1⟩⟩
  · rw [h1, hsh]
    simp [hbrk0]
  · have hfr : ∀ x, brk0 ≤ x → x < brk0 + 20 → (x < brk0 + 12 ∨ brk0 + 16 ≤ x) → m2 x = m1 x := by
      intro x h1 h2 h3
      exact h9 x (by simp only [hHDR]; omega) (Or.inr h3)
    obtain ⟨g1, g2, g3, _, g5⟩ := hh1
    refine ⟨?_, ?_, ?_, e2, ?_⟩
    · rw [← g1]
      exact rdN_congr _ _ 4 brk0 (fun x h1 h2 => hfr x (by omega) (by omega) (by omega))
    · rw [← g2]
      exact rdN_congr _ _ 4 (brk0 + 4) (fun x h1 h2 => hfr x (by omega) (by omega) (by omega))
    · rw [← g3]
      exact rdN_congr _ _ 1 (brk0 + 8) (fun x h1 h2 => hfr x (by omega) (by omega) (by omega))
    · rw [← g5]
      exact rdN_congr _ _ 4 (brk0 + 16) (fun x h1 h2 => hfr x (by omega) (by omega) (by omega))


/-- Two used blocks `h1` and `h2`, the second right behind the first and last in
the heap, and an empty free list: releasing both, in either order, leaves one
free block at `h1` that owns both and is the whole free list. -/
theorem two_blocks_release_spec (fuel : Nat) (s : State) (h1 h2 a b : Nat)
    (hfuel : 2 ≤ fuel) (hh1 : h1 ≠ 0) (hh2 : h2 = h1 + (a + HDR))
    (h64 : h2 < 18446744073709551616) (hfh : s.free_head = 0)
    (hsum : a + b + HDR < 4294967296)
    (hd1 : HeaderIs s.mem h1 a a 1 (a + HDR) 0)
    (hd2 : HeaderIs s.mem h2 b b 1 0 (a + HDR)) :
    (∃ m3 m4, free fuel s (h1 + HDR) = some { s with mem := m3, free_head := h1 } ∧
      free fuel { s with mem := m3, free_head := h1 } (h2 + HDR)
        = some { s with mem := m4, free_head := h1, tail := h1 } ∧
      FreeChain m4 h1 [h1] ∧ HeaderIs m4 h1 (a + b + HDR) (a + b + HDR) 0 0 0) ∧
    (∃ m3 m4, free fuel s (h2 + HDR) = some { s with mem := m3, free_head := h2 } ∧
      free fuel { s with mem := m3, free_head := h2 } (h1 + HDR)
        = some { s with mem := m4, free_head := h1, tail := h1 } ∧
      FreeChain m4 h1 [h1] ∧ HeaderIs m4 h1 (a + b + HDR) (a + b + HDR) 0 0 0) := by
  have hHDR : HDR = 32 := rfl
  simp only [hHDR] at hh2 hsum hd1 hd2
  obtain ⟨a1, a2, a3, a4, a5⟩ := hd1
  obtain ⟨b1, b2, b3, b4, b5⟩ := hd2
  have hh20 : h2 ≠ 0 := by omega
  have hap12 : HeadersApart h1 h2 := by simp only [HeadersApart, hHDR]; omega
  have hap21 : HeadersApart h2 h1 := HeadersApart_symm hap12
  have hch0 : FreeChain s.mem s.free_head [] := hfh
  have hmod : (a + b + 32) % 4294967296 = a + b + 32 := Nat.mod_eq_of_lt hsum
  have hsub : h2 - (a + 32) = h1 := by omega
  refine ⟨?_, ?_⟩
  · -- the lower block first
    obtain ⟨m3, f1, u3, s3, c3, n3, x3, p3, fr3, ch3⟩ :=
      free_no_merge_spec fuel s h1 [] hh1 (by rw [hfh]; decide) hch0
        (fun y hy => by cases hy)
        (Or.inr ⟨by rw [a4, hHDR]; omega, by rw [a4, ← hh2, b3]; decide⟩)
        (Or.inl a5)
    have g2 : HeaderIs m3 h2 b b 1 0 (a + 32) :=
      HeaderIs_of_frame m3 s.mem h2 _ _ _ _ _ ⟨b1, b2, b3, b4, b5⟩
        (fun x e1 e2 => fr3 x (by omega) (by omega) (by omega))
    obtain ⟨g21, g22, g23, g24, g25⟩ := g2
    obtain ⟨m4, f2, ch4, c4, s4, u4, p4, nz4, _, _⟩ :=
      free_merge_prev_spec fuel { s with mem := m3, free_head := h1 } h2 h1 [h1]
        hh20 h64 (show h1 < 18446744073709551616 by omega) ch3
        (List.pairwise_singleton _ _)
        (fun z hz => by rw [List.mem_singleton.mp hz]; exact hap12)
        (by simp only [List.length_singleton]; omega)
        (show getPrev m3 h2 ≠ 0 by rw [g25]; omega)
        (show h2 - getPrev m3 h2 = h1 by rw [g25]; exact hsub)
        (List.mem_singleton.mpr rfl) u3 (Or.inl g24)
    have e1 : getCapacity m3 h1 = a := by rw [c3, a2]
    simp only [show getNext m3 h2 = 0 from g24, if_true, e1, g22, hHDR, hmod,
      show getPrev m3 h1 = 0 by rw [p3, a5]] at f2 c4 s4 p4 nz4
    rw [List.erase_cons_head] at ch4
    exact ⟨m3, m4, f1, f2, ch4, s4, c4, u4, nz4 trivial, p4⟩
  · -- the upper block first
    obtain ⟨m3, f1, u3, s3, c3, n3, x3, p3, fr3, ch3⟩ :=
      free_no_merge_spec fuel s h2 [] hh20 (by rw [hfh]; decide) hch0
        (fun y hy => by cases hy)
        (Or.inl b4)
        (Or.inr ⟨by rw [b5, hHDR]; omega, by rw [b5]; omega, by rw [b5, hsub, a3]; decide⟩)
    have g1 : HeaderIs m3 h1 a a 1 (a + 32) 0 :=
      HeaderIs_of_frame m3 s.mem h1 _ _ _ _ _ ⟨a1, a2, a3, a4, a5⟩
        (fun x e1 e2 => fr3 x (by omega) (by omega) (by omega))
    obtain ⟨g11, g12, g13, g14, g15⟩ := g1
    have e2 : getNext m3 h2 = 0 := by rw [x3, b4]
    obtain ⟨m4, f2, ch4, c4, s4, u4, p4, nz4, _, _⟩ :=
      free_merge_next_spec fuel { s with mem := m3, free_head := h2 } h1 h2 [h2]
        hh1 (show h1 < 18446744073709551616 by omega) h64 ch3
        (List.pairwise_singleton _ _)
        (fun z hz => by rw [List.mem_singleton.mp hz]; exact hap21)
        (by simp only [List.length_singleton]; omega)
        (show getNext m3 h1 ≠ 0 by rw [g14]; omega)
        (show h1 + getNext m3 h1 = h2 by rw [g14]; omega)
        (List.mem_singleton.mpr rfl) u3
        (fun h => absurd e2 h)
        (Or.inl g15)
    have e1 : getCapacity m3 h2 = b := by rw [c3, b2]
    simp only [e2, if_true, e1, g12, g15, hHDR, hmod] at f2 c4 s4 p4 nz4
    rw [List.erase_cons_head] at ch4
    exact ⟨m3, m4, f1, f2, ch4, s4, c4, u4, nz4 trivial, p4⟩

/-! ## Claims C11 to C20 -/

/-- C11, as stated, fails: after `Allocate(4294967280)` on the empty allocator the
heap is one used block at 4096 that ends at the break 4294971408 (the heap list
tiles the heap, the free list is empty); `Allocate(10)` satisfies
`10 + sizeof(metadata_t) < 2^32` and extends the heap, but `prev` of the new
block and `next` of the old tail are 16, while the distance from the old tail to
the new header is 4294967312. -/
theorem extension_offset_truncated :
    Tiles 8 (stateAfter 8 4096 100000000000 [.allocate 4294967280]) ∧
    FreeListConsistent 8 (stateAfter 8 4096 100000000000 [.allocate 4294967280]) ∧
    (stateAfter 8 4096 100000000000 [.allocate 4294967280]).free_head = 0 ∧
    (stateAfter 8 4096 100000000000 [.allocate 4294967280]).tail = 4096 ∧
    (stateAfter 8 4096 100000000000 [.allocate 4294967280]).brk = 4294971408 ∧
    Returns (malloc 8 (stateAfter 8 4096 100000000000 [.allocate 4294967280]) 10)
      (4294971408 + HDR)
      (fun s' => s'.tail = 4294971408 ∧ getPrev s'.mem 4294971408 = 16 ∧
        getNext s'.mem 4096 = 16 ∧ 4294971408 - 4096 = 4294967312) := by
  decide!

/-- C11 (amended). Heap extension on no match: in a state whose free list is a
chain of blocks inside the heap none of which passes the first-fit test, whose
tail block (if the heap is not empty) ends at the break and spans less than
`2^32` bytes (`sizeof(metadata_t) + capacity < 2^32`), with zero-filled memory
from the break on, for `0 < requestedSize` and
`requestedSize + sizeof(metadata_t) < 2^32`, when the OS grants the extension
`malloc` moves the break by `requestedSize + sizeof(metadata_t)`, builds at the
old break `b` a header with `size = capacity = requestedSize`, `used = 1`,
`next = 0`, makes it the tail with `prev(new) = next(old tail) = b - old tail`
(head and tail when the heap was empty), stores nowhere else, leaves the free
list as it was and returns `b + sizeof(metadata_t)`. -/
theorem malloc_extends_heap (fuel : Nat) (s : State) (requestedSize : Nat) (L : List Nat)
    (hreq : 0 < requestedSize) (hbound : requestedSize + HDR < 4294967296)
    (hbrk : s.brk ≠ 0) (hlimit : s.limit < 18446744073709551616)
    (hchain : FreeChain s.mem s.free_head L) (hfuel : L.length < fuel)
    (hnofit : L.find? (fits s.mem requestedSize) = none)
    (hos : s.brk + (requestedSize + HDR) ≤ s.limit)
    (hzero : ∀ x, s.brk ≤ x → s.mem x = 0)
    (hbelow : ∀ y ∈ L, y + HDR ≤ s.brk)
    (htail : s.head ≠ 0 → s.tail + HDR + getCapacity s.mem s.tail = s.brk ∧
      ∀ y ∈ L, y = s.tail ∨ HeadersApart y s.tail)
    (hspan : s.head ≠ 0 → HDR + getCapacity s.mem s.tail < 4294967296) :
    ∃ m', malloc fuel s requestedSize = some (s.brk + HDR,
        { (startHeap s).1 with
          mem := m', brk := s.brk + (requestedSize + HDR),
          sbrkLog := (requestedSize + HDR) :: (startHeap s).1.sbrkLog,
          head := if s.head = 0 then s.brk else s.head, tail := s.brk }) ∧
      getSize m' s.brk = requestedSize ∧ getCapacity m' s.brk = requestedSize ∧
      getUsed m' s.brk = 1 ∧ getNext m' s.brk = 0 ∧ getNextFree m' s.brk = 0 ∧
      (s.head = 0 → getPrev m' s.brk = 0) ∧
      (s.head ≠ 0 → getPrev m' s.brk = s.brk - s.tail ∧ getNext m' s.tail = s.brk - s.tail) ∧
      (∀ x, x < s.brk → (s.head = 0 ∨ x < s.tail + 12 ∨ s.tail + 16 ≤ x) → m' x = s.mem x) ∧
      (∀ x, s.brk + HDR ≤ x → m' x = 0) ∧
      FreeChain m' s.free_head L :=
  malloc_extend_spec fuel s requestedSize L hreq hbound hbrk hlimit hchain hfuel hnofit hos
    hzero hbelow
    (fun hh => ⟨by have := (htail hh).1; omega, by have := (htail hh).1; have := hspan hh; omega,
      (htail hh).2⟩)

/-- C11 (amended) at a concrete state: one used 20-byte block at 4096, break at
4148; `Allocate(30)` appends a block at 4148. -/
theorem malloc_extends_heap_witness :
    ∃ m', malloc 8 oneBlockState 30 = some (oneBlockState.brk + HDR,
        { (startHeap oneBlockState).1 with
          mem := m', brk := oneBlockState.brk + (30 + HDR),
          sbrkLog := (30 + HDR) :: (startHeap oneBlockState).1.sbrkLog,
          head := if oneBlockState.head = 0 then oneBlockState.brk else oneBlockState.head,
          tail := oneBlockState.brk }) ∧
      getSize m' oneBlockState.brk = 30 ∧ getCapacity m' oneBlockState.brk = 30 ∧
      getUsed m' oneBlockState.brk = 1 ∧ getNext m' oneBlockState.brk = 0 :=
  have h := malloc_extends_heap 8 oneBlockState 30 []
    (by decide) (by decide) (by decide) (by decide) (by decide) (by decide) (by decide)
    (by decide)
    (fun x hx => by
      have hx2 : 4148 ≤ x := hx
      show setUsed (setCapacity (setSize (fun _ => 0) 4096 20) 4096 20) 4096 1 x = 0
      simp only [setSize, setCapacity, setUsed]
      simp (disch := omega) only [wrN_outside])
    (by decide) (by decide) (by decide)
  match h with
  | ⟨m', h1, h2, h3, h4, h5, _⟩ => ⟨m', h1, h2, h3, h4, h5⟩

/-- C12. Release without free neighbours: in a state whose free list is a chain
of blocks apart from the block `b`, when the heap-list successor and predecessor
of `b` are each absent (offset 0) or used, `free` of the payload of `b` clears
`used`, resets `size` to `capacity`, makes `b` the head of the free list with
the previous head as its `next_free`, keeps `next` and `prev` of `b`, stores
into no other byte than the `size`, `used` and `next_free` fields of `b`, and
changes no global but `free_head`. -/
theorem free_without_free_neighbours (fuel : Nat) (s : State) (b : Nat) (L : List Nat)
    (hb : b ≠ 0) (hptr : s.free_head < 18446744073709551616)
    (hchain : FreeChain s.mem s.free_head L)
    (hapart : ∀ y ∈ L, HeadersApart y b)
    (hnext : getNext s.mem b = 0 ∨
      (HDR ≤ getNext s.mem b ∧ getUsed s.mem (b + getNext s.mem b) ≠ 0))
    (hprev : getPrev s.mem b = 0 ∨
      (HDR ≤ getPrev s.mem b ∧ getPrev s.mem b ≤ b ∧
        getUsed s.mem (b - getPrev s.mem b) ≠ 0)) :
    ∃ m', free fuel s (b + HDR) = some { s with mem := m', free_head := b } ∧
      getUsed m' b = 0 ∧ getSize m' b = getCapacity s.mem b ∧
      getCapacity m' b = getCapacity s.mem b ∧ getNextFree m' b = s.free_head ∧
      getNext m' b = getNext s.mem b ∧ getPrev m' b = getPrev s.mem b ∧
      (∀ x, (x < b ∨ b + 4 ≤ x) → x ≠ b + 8 → (x < b + 24 ∨ b + 32 ≤ x) → m' x = s.mem x) ∧
      FreeChain m' b (b :: L) :=
  free_no_merge_spec fuel s b L hb hptr hchain hapart hnext hprev

/-- C12 at a concrete state: five blocks at 4096, 4228, 4280, 4342 and 4382, the
fourth one free; the block at 4228, whose neighbours are both used, is
released. -/
theorem free_without_free_neighbours_witness :
    ∃ m', free 8 (stateAfter 8 4096 1000000
        [.allocate 100, .allocate 20, .allocate 30, .allocate 8, .allocate 8, .release 3])
        (4228 + HDR)
        = some { stateAfter 8 4096 1000000
            [.allocate 100, .allocate 20, .allocate 30, .allocate 8, .allocate 8, .release 3]
          with mem := m', free_head := 4228 } ∧
      getUsed m' 4228 = 0 ∧ getSize m' 4228 = 20 ∧ FreeChain m' 4228 [4228, 4342] :=
  have h := free_without_free_neighbours 8
    (stateAfter 8 4096 1000000
      [.allocate 100, .allocate 20, .allocate 30, .allocate 8, .allocate 8, .release 3])
    4228 [4342]
    (by decide) (by decide!) (by decide!) (by decide!) (by decide!) (by decide!)
  match h with
  | ⟨m', h1, h2, h3, _, _, _, _, _, h9⟩ => ⟨m', h1, h2, by rw [h3]; decide!, h9⟩

/-- C13, as stated, fails: after `Allocate(2147483648)` twice, `Allocate(8)` twice
and `Release` of the first and third block, the heap list tiles the heap and the
free list is the third block followed by the first; the second block (header
2147487776) is used and both its neighbours are free.  Releasing it leaves one
free block at 4096 whose capacity is 72, not
`2147483648 + 2147483648 + 8 + 2 * sizeof(metadata_t) = 4294967368`, and whose
`next` is 104, not the distance 4294967400 to the last block. -/
theorem coalesced_capacity_wraps :
    Tiles 8 (stateAfter 8 4096 100000000000
      [.allocate 2147483648, .allocate 2147483648, .allocate 8, .allocate 8,
       .release 0, .release 2]) ∧
    FreeChain (stateAfter 8 4096 100000000000
      [.allocate 2147483648, .allocate 2147483648, .allocate 8, .allocate 8,
       .release 0, .release 2]).mem
      (stateAfter 8 4096 100000000000
      [.allocate 2147483648, .allocate 2147483648, .allocate 8, .allocate 8,
       .release 0, .release 2]).free_head [4294971456, 4096] ∧
    Reaches (run 8 (newClient 4096 100000000000)
        [.allocate 2147483648, .allocate 2147483648, .allocate 8, .allocate 8,
         .release 0, .release 2, .release 1])
      (fun c => c.ptrs.getD 1 0 = 2147487776 + HDR ∧
        FreeChain c.st.mem c.st.free_head [4096] ∧
        getCapacity c.st.mem 4096 = 72 ∧ getSize c.st.mem 4096 = 72 ∧
        getNext c.st.mem 4096 = 104 ∧ 4294971496 - 4096 = 4294967400) := by
  decide!

/-- C13 (amended). Coalescing on Release, for merged blocks that span less than
`2^32` bytes.  The free list is a chain `L` of headers apart from each other and
from the released block `b`; the heap list around `b` is tiled (`next` and
`prev` of `b` are the sizes of `b` and of its predecessor).
Both neighbours free: `free` leaves one free block at `p` with
`size = capacity = capacity(p) + capacity(b) + capacity(n) + 2 * sizeof(metadata_t)`;
it is the head of the free list, which is `p` followed by the other blocks of
`L` without `n`; `next(p)` is the distance to the former successor of `n`, whose
`prev` is that distance, or `next(p) = 0` and `p` is the tail if `n` was last.
Only the next or only the previous neighbour free: the same with the absent one
dropped. -/
theorem free_coalesces_neighbours (fuel : Nat) (s : State) (b : Nat) (L : List Nat)
    (hb : b ≠ 0) (hb64 : b < 18446744073709551616)
    (hptr : s.free_head < 18446744073709551616)
    (hchain : FreeChain s.mem s.free_head L) (hsep : L.Pairwise HeadersApart)
    (hapart : ∀ z ∈ L, HeadersApart z b) (hfuel : L.length + 1 ≤ fuel) :
    -- both neighbours free
    (∀ n p : Nat,
      getNext s.mem b = HDR + getCapacity s.mem b → b + HDR + getCapacity s.mem b = n →
      getPrev s.mem b = HDR + getCapacity s.mem p → p + HDR + getCapacity s.mem p = b →
      n ∈ L → getUsed s.mem n = 0 → p ∈ L → getUsed s.mem p = 0 →
      (getNext s.mem n ≠ 0 → getNext s.mem n = HDR + getCapacity s.mem n ∧
        ∀ z ∈ L, z = n + getNext s.mem n ∨ HeadersApart z (n + getNext s.mem n)) →
      getCapacity s.mem p + getCapacity s.mem b + getCapacity s.mem n + 3 * HDR
        < 4294967296 →
      ∃ m', free fuel s (b + HDR) = some { s with
            mem := m', free_head := p,
            tail := if getNext s.mem n = 0 then p else s.tail } ∧
        FreeChain m' p (p :: (L.erase n).erase p) ∧
        b ∉ p :: (L.erase n).erase p ∧ n ∉ p :: (L.erase n).erase p ∧
        getCapacity m' p
          = getCapacity s.mem p + getCapacity s.mem b + getCapacity s.mem n + 2 * HDR ∧
        getSize m' p
          = getCapacity s.mem p + getCapacity s.mem b + getCapacity s.mem n + 2 * HDR ∧
        getUsed m' p = 0 ∧ getPrev m' p = getPrev s.mem p ∧
        (getNext s.mem n = 0 → getNext m' p = 0) ∧
        (getNext s.mem n ≠ 0 →
          getNext m' p = n + getNext s.mem n - p ∧
          getPrev m' (n + getNext s.mem n) = n + getNext s.mem n - p)) ∧
    -- only the next neighbour free
    (∀ n : Nat,
      getNext s.mem b = HDR + getCapacity s.mem b → b + HDR + getCapacity s.mem b = n →
      n ∈ L → getUsed s.mem n = 0 →
      (getPrev s.mem b = 0 ∨
        (HDR ≤ getPrev s.mem b ∧ getPrev s.mem b ≤ b ∧
          getUsed s.mem (b - getPrev s.mem b) ≠ 0 ∧
          ∀ z ∈ L, HeadersApart z (b - getPrev s.mem b))) →
      (getNext s.mem n ≠ 0 → getNext s.mem n = HDR + getCapacity s.mem n ∧
        ∀ z ∈ L, z = n + getNext s.mem n ∨ HeadersApart z (n + getNext s.mem n)) →
      getCapacity s.mem b + getCapacity s.mem n + 2 * HDR < 4294967296 →
      ∃ m', free fuel s (b + HDR) = some { s with
            mem := m', free_head := b,
            tail := if getNext s.mem n = 0 then b else s.tail } ∧
        FreeChain m' b (b :: L.erase n) ∧ n ∉ b :: L.erase n ∧
        getCapacity m' b = getCapacity s.mem b + getCapacity s.mem n + HDR ∧
        getSize m' b = getCapacity s.mem b + getCapacity s.mem n + HDR ∧
        getUsed m' b = 0 ∧ getPrev m' b = getPrev s.mem b ∧
        (getNext s.mem n = 0 → getNext m' b = 0) ∧
        (getNext s.mem n ≠ 0 →
          getNext m' b = n + getNext s.mem n - b ∧
          getPrev m' (n + getNext s.mem n) = n + getNext s.mem n - b)) ∧
    -- only the previous neighbour free
    (∀ p : Nat,
      getPrev s.mem b = HDR + getCapacity s.mem p → p + HDR + getCapacity s.mem p = b →
      p ∈ L → getUsed s.mem p = 0 →
      (getNext s.mem b = 0 ∨
        (getNext s.mem b = HDR + getCapacity s.mem b ∧
          getUsed s.mem (b + getNext s.mem b) ≠ 0 ∧
          ∀ z ∈ L, HeadersApart z (b + getNext s.mem b))) →
      getCapacity s.mem p + getCapacity s.mem b + 2 * HDR < 4294967296 →
      ∃ m', free fuel s (b + HDR) = some { s with
            mem := m', free_head := p,
            tail := if getNext s.mem b = 0 then p else s.tail } ∧
        FreeChain m' p (p :: L.erase p) ∧ b ∉ p :: L.erase p ∧
        getCapacity m' p = getCapacity s.mem p + getCapacity s.mem b + HDR ∧
        getSize m' p = getCapacity s.mem p + getCapacity s.mem b + HDR ∧
        getUsed m' p = 0 ∧ getPrev m' p = getPrev s.mem p ∧
        (getNext s.mem b = 0 → getNext m' p = 0) ∧
        (getNext s.mem b ≠ 0 →
          getNext m' p = b + getNext s.mem b - p ∧
          getPrev m' (b + getNext s.mem b) = b + getNext s.mem b - p)) := by
  have hHDR : HDR = 32 := rfl
  have hnd : L.Nodup := hsep.imp (fun {a b} h => by unfold HeadersApart HDR at h; omega)
  have hbL : b ∉ L := by
    intro h
    have := hapart b h
    simp only [HeadersApart, hHDR] at this
    omega
  refine ⟨?_, ?_, ?_⟩
  · intro n p hnx hn hpv hp hnL hnu hpL hpu hsucc hbound
    simp only [hHDR] at hnx hn hpv hp hbound
    obtain ⟨m', h1, h2, h3, h4, h5, h6, h7, h8, _⟩ :=
      free_merge_both_spec fuel s b n p L hb hb64 hptr hchain hsep hapart hfuel
        (by omega) (by omega) hnL hnu (by omega) (by omega) hpL hpu (by omega)
        (by
          intro hz
          obtain ⟨e1, e2⟩ := hsucc hz
          simp only [hHDR] at e1
          refine ⟨by omega, ?_, e2⟩
          simp only [HeadersApart, hHDR]; omega)
    have hmod : (getCapacity s.mem p + getCapacity s.mem b + getCapacity s.mem n + 2 * HDR)
        % 4294967296
        = getCapacity s.mem p + getCapacity s.mem b + getCapacity s.mem n + 2 * HDR :=
      Nat.mod_eq_of_lt (by simp only [hHDR]; omega)
    rw [hmod] at h3 h4
    have hpn : p ≠ n := by omega
    refine ⟨m', h1, h2, ?_, ?_, h3, h4, h5, h6, h7, ?_⟩
    · intro h
      rcases List.mem_cons.mp h with e | e
      · omega
      · exact hbL ((List.erase_sublist n L).subset ((List.erase_sublist p _).subset e))
    · intro h
      rcases List.mem_cons.mp h with e | e
      · exact hpn e.symm
      · exact ((hnd.mem_erase_iff).mp ((List.erase_sublist p _).subset e)).1 rfl
    · intro hz
      obtain ⟨e1, _⟩ := hsucc hz
      simp only [hHDR] at e1
      have hd : addrDist p (n + getNext s.mem n) = n + getNext s.mem n - p := by
        unfold addrDist
        have : n + getNext s.mem n > p := by omega
        simp only [this, if_true]
        exact Nat.mod_eq_of_lt (by omega)
      rw [← hd]
      exact h8 hz
  · intro n hnx hn hnL hnu hprev hsucc hbound
    simp only [hHDR] at hnx hn hbound
    obtain ⟨m', h1, h2, h3, h4, h5, h6, h7, h8, _⟩ :=
      free_merge_next_spec fuel s b n L hb hb64 hptr hchain hsep hapart hfuel
        (by omega) (by omega) hnL hnu
        (by
          intro hz
          obtain ⟨e1, e2⟩ := hsucc hz
          simp only [hHDR] at e1
          refine ⟨?_, e2⟩
          simp only [HeadersApart, hHDR]; omega)
        (by
          rcases hprev with h | ⟨h1, h2, h3, h4⟩
          · exact Or.inl h
          · refine Or.inr ⟨h1, h2, h3, h4, fun hz => ?_⟩
            obtain ⟨e1, _⟩ := hsucc hz
            simp only [hHDR] at e1 h1
            simp only [HeadersApart, hHDR]; omega)
    have hmod : (getCapacity s.mem b + getCapacity s.mem n + HDR) % 4294967296
        = getCapacity s.mem b + getCapacity s.mem n + HDR :=
      Nat.mod_eq_of_lt (by simp only [hHDR]; omega)
    rw [hmod] at h3 h4
    refine ⟨m', h1, h2, ?_, h3, h4, h5, h6, h7, ?_⟩
    · intro h
      rcases List.mem_cons.mp h with e | e
      · omega
      · exact ((hnd.mem_erase_iff).mp e).1 rfl
    · intro hz
      obtain ⟨e1, _⟩ := hsucc hz
      simp only [hHDR] at e1
      have hd : addrDist b (n + getNext s.mem n) = n + getNext s.mem n - b := by
        unfold addrDist
        have : n + getNext s.mem n > b := by omega
        simp only [this, if_true]
        exact Nat.mod_eq_of_lt (by omega)
      rw [← hd]
      exact h8 hz
  · intro p hpv hp hpL hpu hnext hbound
    simp only [hHDR] at hpv hp hbound
    have hcb := getCapacity_lt s.mem b
    obtain ⟨m', h1, h2, h3, h4, h5, h6, h7, h8, _⟩ :=
      free_merge_prev_spec fuel s b p L hb hb64 hptr hchain hsep hapart hfuel
        (by omega) (by omega) hpL hpu
        (by
          rcases hnext with h | ⟨h1, h2, h3⟩
          · exact Or.inl h
          · simp only [hHDR] at h1
            refine Or.inr ⟨by simp only [hHDR]; omega, h2, ?_, fun z hz => Or.inr (h3 z hz)⟩
            simp only [HeadersApart, hHDR]; omega)
    have hmod : (getCapacity s.mem p + getCapacity s.mem b + HDR) % 4294967296
        = getCapacity s.mem p + getCapacity s.mem b + HDR :=
      Nat.mod_eq_of_lt (by simp only [hHDR]; omega)
    rw [hmod] at h3 h4
    refine ⟨m', h1, h2, ?_, h3, h4, h5, h6, h7, ?_⟩
    · intro h
      rcases List.mem_cons.mp h with e | e
      · omega
      · exact hbL ((List.erase_sublist p L).subset e)
    · intro hz
      have hnb : getNext s.mem b = 32 + getCapacity s.mem b := by
        rcases hnext with h | ⟨h1, _, _⟩
        · exact absurd h hz
        · simpa only [hHDR] using h1
      have hd : addrDist p (b + getNext s.mem b) = b + getNext s.mem b - p := by
        unfold addrDist
        have : b + getNext s.mem b > p := by omega
        simp only [this, if_true]
        exact Nat.mod_eq_of_lt (by omega)
      rw [← hd]
      exact h8 hz

/-- C13 (amended) at a concrete state: the used block at 4148 between the free
blocks at 4096 and 4210 is released; the merged block at 4096 has capacity
`20 + 30 + 8 + 2 * 32 = 122`. -/
theorem free_coalesces_neighbours_witness :
    ∃ m', free 8 mergeState (4148 + HDR) = some { mergeState with
          mem := m', free_head := 4096,
          tail := if getNext mergeState.mem 4210 = 0 then 4096 else mergeState.tail } ∧
      FreeChain m' 4096 (4096 :: ([4210, 4096].erase 4210).erase 4096) ∧
      getCapacity m' 4096 = 122 ∧ getUsed m' 4096 = 0 :=
  have h := (free_coalesces_neighbours 8 mergeState 4148 [4210, 4096]
    (by decide) (by decide) (by decide!) (by decide!) (by decide!) (by decide!)
    (by decide)).1 4210 4096
    (by decide!) (by decide!) (by decide!) (by decide!) (by decide!) (by decide!)
    (by decide!) (by decide!) (by decide!) (by decide!)
  match h with
  | ⟨m', h1, h2, _, _, h5, _, h7, _⟩ => ⟨m', h1, h2, by rw [h5]; decide!, h7⟩

/-- C14. In-place Resize: for a pointer `b + sizeof(metadata_t)` whose header `b`
has capacity `c` and every `newSize` with `0 < newSize ≤ c`, `realloc` returns
the pointer itself and stores only the four bytes of the `size` field: `size`
becomes `newSize`, every other byte of memory (capacity, used flag, offsets,
free-list links, all payloads) and every global is unchanged. -/
theorem realloc_in_place (fuel : Nat) (s : State) (b newSize c : Nat)
    (hc : getCapacity s.mem b = c) (h0 : 0 < newSize) (hle : newSize ≤ c) :
    ∃ m', realloc fuel s (b + HDR) newSize = some (b + HDR, { s with mem := m' }) ∧
      getSize m' b = newSize ∧ getCapacity m' b = c ∧
      getUsed m' b = getUsed s.mem b ∧ getNext m' b = getNext s.mem b ∧
      getPrev m' b = getPrev s.mem b ∧ getNextFree m' b = getNextFree s.mem b ∧
      (∀ x, (x < b ∨ b + 4 ≤ x) → m' x = s.mem x) := by
  have hHDR : HDR = 32 := rfl
  have e4 : 256 ^ 4 = 4294967296 := by norm_num
  have hp0 : ¬ b + HDR = 0 := by omega
  have hsub : b + HDR - HDR = b := by omega
  have hn0 : ¬ newSize = 0 := by omega
  have hclt := getCapacity_lt s.mem b
  have hle2 : newSize ≤ getCapacity s.mem b := by omega
  have hfr : ∀ x, (x < b ∨ b + 4 ≤ x) → setSize s.mem b newSize x = s.mem x := by
    intro x hx
    simp only [setSize]
    simp (disch := omega) only [wrN_outside]
  refine ⟨setSize s.mem b newSize, ?_, ?_, ?_, ?_, ?_, ?_, ?_, hfr⟩
  · unfold realloc
    simp only [hp0, hn0, hsub, hle2, if_false, if_true]
  · simp only [getSize, setSize]
    simp (disch := omega) only [rdN_wrN_same, e4]
    exact Nat.mod_eq_of_lt (by omega)
  · rw [← hc]
    exact rdN_congr _ _ 4 (b + 4) (fun x h1 h2 => hfr x (by omega))
  · exact rdN_congr _ _ 1 (b + 8) (fun x h1 h2 => hfr x (by omega))
  · exact rdN_congr _ _ 4 (b + 12) (fun x h1 h2 => hfr x (by omega))
  · exact rdN_congr _ _ 4 (b + 16) (fun x h1 h2 => hfr x (by omega))
  · exact rdN_congr _ _ 8 (b + 24) (fun x h1 h2 => hfr x (by omega))

/-- C14 at the scenario of the claim: `p = Allocate(50)`, `Resize(p, 10)`,
`Resize(p, 40)` returns `p` both times and the capacity stays 50. -/
theorem realloc_in_place_witness :
    (∃ m', realloc 8 (stateAfter 8 4096 1000000 [.allocate 50, .resize 0 10]) (4096 + HDR) 40
        = some (4096 + HDR,
            { stateAfter 8 4096 1000000 [.allocate 50, .resize 0 10] with mem := m' }) ∧
      getSize m' 4096 = 40 ∧ getCapacity m' 4096 = 50) ∧
    Reaches (run 8 (newClient 4096 1000000) [.allocate 50, .resize 0 10, .resize 1 40])
      (fun c => c.ptrs = [4096 + HDR, 4096 + HDR, 4096 + HDR] ∧
        getSize c.st.mem 4096 = 40 ∧ getCapacity c.st.mem 4096 = 50 ∧
        c.st.sbrkLog = [50 + HDR, 0]) :=
  ⟨match realloc_in_place 8 (stateAfter 8 4096 1000000 [.allocate 50, .resize 0 10])
      4096 40 50 (by decide!) (by decide) (by decide) with
    | ⟨m', h1, h2, h3, _⟩ => ⟨m', h1, h2, h3⟩,
   by decide!⟩

/-- C15. Contents lost by Resize: `p0 = Allocate(20); Release(p0); p = Allocate(20)`,
the caller stores the byte 7 at `p[15]`; a following `Allocate(10)` returns `p`
again (the block was never taken off the free list) and sets its `size` to 10;
`Resize(p, 30)` then migrates the block to 4180 and copies only 10 bytes: the
byte at offset 15 of the new block is 0, not 7. -/
theorem resize_loses_contents :
    Reaches (run 8 (newClient 4096 1000000)
        [.allocate 20, .release 0, .allocate 20, .store 1 15 7])
      (fun c => c.ptrs.getD 1 0 = 4128 ∧ c.live = [(4128, 20)] ∧ c.st.mem (4128 + 15) = 7) ∧
    Reaches (run 8 (newClient 4096 1000000)
        [.allocate 20, .release 0, .allocate 20, .store 1 15 7, .allocate 10, .resize 1 30])
      (fun c => c.ptrs.getD 2 0 = 4128 ∧ c.ptrs.getD 3 0 = 4180 ∧
        c.st.mem (4180 + 15) = 0) := by
  decide!

/-- C16. Degenerate inputs: `malloc(0)` returns `NULL` and `free(NULL)` returns,
both leaving the state as it was; `realloc(NULL, n)` is `malloc(n)` (same
pointer, same state); `realloc(p, 0)` for `p` not `NULL` returns `NULL` with the
state that `free(p)` leaves. -/
theorem degenerate_inputs (fuel : Nat) (s : State) (n p : Nat) (hp : p ≠ 0) :
    malloc fuel s 0 = some (0, s) ∧
    free fuel s 0 = some s ∧
    realloc fuel s 0 n = malloc fuel s n ∧
    realloc fuel s p 0 = (free fuel s p).map (fun s1 => (0, s1)) := by
  refine ⟨?_, ?_, ?_, ?_⟩
  · unfold malloc; simp
  · unfold free; simp
  · unfold realloc; simp
  · unfold realloc; simp [hp]

/-- C16 at a concrete state: one used 20-byte block with payload at 4128. -/
theorem degenerate_inputs_witness :
    malloc 8 oneBlockState 0 = some (0, oneBlockState) ∧
    free 8 oneBlockState 0 = some oneBlockState ∧
    realloc 8 oneBlockState 0 24 = malloc 8 oneBlockState 24 ∧
    realloc 8 oneBlockState 4128 0 = (free 8 oneBlockState 4128).map (fun s1 => (0, s1)) :=
  degenerate_inputs 8 oneBlockState 24 4128 (by decide)

/-- C17. The function `calloc(count, elementSize)` is `malloc` of the product
(taken modulo `2^64`) followed by a zero fill: when `malloc` returns a pointer
that is not `NULL`, `calloc` returns the same pointer with the same globals, the
bytes of the payload range are all zero and every other byte is as `malloc` left
it; when `malloc` returns `NULL`, `calloc` returns `NULL` with the state `malloc`
left; `calloc` returns whenever `malloc` does. -/
theorem calloc_is_malloc_then_zero (fuel : Nat) (s : State) (count elementSize : Nat) :
    (∀ p s1, malloc fuel s ((count * elementSize) % 18446744073709551616) = some (p, s1) →
      p ≠ 0 →
      ∃ m', calloc fuel s count elementSize = some (p, { s1 with mem := m' }) ∧
        (∀ x, p ≤ x → x < p + (count * elementSize) % 18446744073709551616 → m' x = 0) ∧
        (∀ x, (x < p ∨ p + (count * elementSize) % 18446744073709551616 ≤ x) →
          m' x = s1.mem x)) ∧
    (∀ s1, malloc fuel s ((count * elementSize) % 18446744073709551616) = some (0, s1) →
      calloc fuel s count elementSize = some (0, s1)) ∧
    (malloc fuel s ((count * elementSize) % 18446744073709551616) = none →
      calloc fuel s count elementSize = none) := by
  refine ⟨?_, ?_, ?_⟩
  · intro p s1 h hp
    refine ⟨memset s1.mem p 0 ((count * elementSize) % 18446744073709551616), ?_, ?_, ?_⟩
    · unfold calloc
      rw [h]
      simp [hp]
    · intro x h1 h2
      simp [memset, h1, h2]
    · intro x hx
      have : ¬ (p ≤ x ∧ x < p + (count * elementSize) % 18446744073709551616) := by omega
      simp [memset, this]
  · intro s1 h
    unfold calloc
    rw [h]
    simp
  · intro h
    unfold calloc
    rw [h]


/-- C18. Coalescing scenario from the empty allocator (memory zero-filled, the
OS grants both extensions): for `a, b > 0` and
`0 < n ≤ a + b + sizeof(metadata_t) < 2^32` (in particular when all of them are
below `2^31`),
after `p1 = Allocate(a)`, `p2 = Allocate(b)` and `Release` of both, in either
order, the free list is exactly one block, at the header of `p1`, of capacity
`a + b + sizeof(metadata_t)`, and `Allocate(n)` returns `p1` without a call of
the heap-extension primitive. -/
theorem coalescing_scenario (fuel brk0 limit a b n : Nat)
    (hfuel : 3 ≤ fuel) (hbrk0 : brk0 ≠ 0) (hlimit : limit < 18446744073709551616)
    (hos : brk0 + (a + HDR) + (b + HDR) ≤ limit)
    (ha : 0 < a) (hb : 0 < b) (hsum : a + b + HDR < 4294967296)
    (hn0 : 0 < n) (hn : n ≤ a + b + HDR) :
    ∃ s1 s2, malloc fuel (emptyState brk0 limit) a = some (brk0 + HDR, s1) ∧
      malloc fuel s1 b = some (brk0 + (a + HDR) + HDR, s2) ∧
      (∃ s3 s4, free fuel s2 (brk0 + HDR) = some s3 ∧
        free fuel s3 (brk0 + (a + HDR) + HDR) = some s4 ∧
        FreeChain s4.mem s4.free_head [brk0] ∧
        getCapacity s4.mem brk0 = a + b + HDR ∧ getUsed s4.mem brk0 = 0 ∧
        s4.sbrkLog = [b + HDR, a + HDR, 0] ∧
        ∃ s5, malloc fuel s4 n = some (brk0 + HDR, s5) ∧
          s5.sbrkLog = s4.sbrkLog ∧ s5.brk = s4.brk) ∧
      (∃ s3 s4, free fuel s2 (brk0 + (a + HDR) + HDR) = some s3 ∧
        free fuel s3 (brk0 + HDR) = some s4 ∧
        FreeChain s4.mem s4.free_head [brk0] ∧
        getCapacity s4.mem brk0 = a + b + HDR ∧ getUsed s4.mem brk0 = 0 ∧
        s4.sbrkLog = [b + HDR, a + HDR, 0] ∧
        ∃ s5, malloc fuel s4 n = some (brk0 + HDR, s5) ∧
          s5.sbrkLog = s4.sbrkLog ∧ s5.brk = s4.brk) := by
  have hHDR : HDR = 32 := rfl
  have hos' := hos
  have hsum' := hsum
  simp only [hHDR] at hos' hsum'
  obtain ⟨m1, hA1, hd1, _, hz1⟩ :=
    first_alloc_spec fuel brk0 limit a (by omega) hbrk0 hlimit (by simp only [hHDR]; omega) ha
      (by simp only [hHDR]; omega)
  obtain ⟨m2, hA2, hd21, hd22⟩ :=
    second_alloc_spec fuel brk0 limit a b m1 (by omega) hbrk0 hlimit hos hb
      (by simp only [hHDR]; omega) (by simp only [hHDR]; omega) hd1 hz1
  obtain ⟨hR1, hR2⟩ :=
    two_blocks_release_spec fuel
      { mem := m2, brk := brk0 + (a + HDR) + (b + HDR), limit := limit,
        sbrkLog := [b + HDR, a + HDR, 0],
        startOfHeap := brk0, head := brk0, tail := brk0 + (a + HDR), free_head := 0 }
      brk0 (brk0 + (a + HDR)) a b (by omega) hbrk0 rfl (by simp only [hHDR]; omega) rfl
      (by simp only [hHDR]; omega) hd21 hd22
  -- the last `Allocate` in a state whose free list is the merged block
  have hlast : ∀ m4 : Mem, FreeChain m4 brk0 [brk0] →
      HeaderIs m4 brk0 (a + b + HDR) (a + b + HDR) 0 0 0 →
      ∃ s5, malloc fuel
          { mem := m4, brk := brk0 + (a + HDR) + (b + HDR), limit := limit,
            sbrkLog := [b + HDR, a + HDR, 0],
            startOfHeap := brk0, head := brk0, tail := brk0, free_head := brk0 } n
          = some (brk0 + HDR, s5) ∧
        s5.sbrkLog = [b + HDR, a + HDR, 0] ∧ s5.brk = brk0 + (a + HDR) + (b + HDR) := by
    intro m4 hch hd
    obtain ⟨g1, g2, g3, _, _⟩ := hd
    obtain ⟨s5, e1, e2, e3, _, _⟩ :=
      malloc_fit_returns fuel
        { mem := m4, brk := brk0 + (a + HDR) + (b + HDR), limit := limit,
          sbrkLog := [b + HDR, a + HDR, 0],
          startOfHeap := brk0, head := brk0, tail := brk0, free_head := brk0 } n [brk0] brk0
        hn0 hbrk0 (show brk0 < 18446744073709551616 by omega) hch
        (List.pairwise_singleton _ _)
        (fun y hy => by
          rw [List.mem_singleton.mp hy]
          show getSize m4 brk0 ≤ getCapacity m4 brk0
          rw [g1, g2])
        (by simp only [List.length_singleton]; omega)
        (by
          have hf : fits m4 n brk0 = true := by
            unfold fits
            rw [g1, g3]
            exact decide_eq_true ⟨hn, rfl⟩
          show List.find? (fits m4 n) [brk0] = some brk0
          simp only [List.find?, hf])
    exact ⟨s5, e1, e2, e3⟩
  refine ⟨_, _, hA1, hA2, ?_, ?_⟩
  · obtain ⟨m3, m4, f1, f2, ch4, hd4⟩ := hR1
    obtain ⟨s5, e1, e2, e3⟩ := hlast m4 ch4 hd4
    exact ⟨_, _, f1, f2, ch4, hd4.2.1, hd4.2.2.1, rfl, s5, e1, e2, e3⟩
  · obtain ⟨m3, m4, f1, f2, ch4, hd4⟩ := hR2
    obtain ⟨s5, e1, e2, e3⟩ := hlast m4 ch4 hd4
    exact ⟨_, _, f1, f2, ch4, hd4.2.1, hd4.2.2.1, rfl, s5, e1, e2, e3⟩

/-- C18 at the witness of the claim: `a = 20`, `b = 30`, `n = 45`, break at
4096. -/
theorem coalescing_scenario_witness :
    ∃ s1 s2, malloc 8 (emptyState 4096 1000000) 20 = some (4096 + HDR, s1) ∧
      malloc 8 s1 30 = some (4096 + (20 + HDR) + HDR, s2) ∧
      (∃ s3 s4, free 8 s2 (4096 + HDR) = some s3 ∧
        free 8 s3 (4096 + (20 + HDR) + HDR) = some s4 ∧
        FreeChain s4.mem s4.free_head [4096] ∧
        getCapacity s4.mem 4096 = 20 + 30 + HDR ∧ getUsed s4.mem 4096 = 0 ∧
        s4.sbrkLog = [30 + HDR, 20 + HDR, 0] ∧
        ∃ s5, malloc 8 s4 45 = some (4096 + HDR, s5) ∧
          s5.sbrkLog = s4.sbrkLog ∧ s5.brk = s4.brk) ∧
      (∃ s3 s4, free 8 s2 (4096 + (20 + HDR) + HDR) = some s3 ∧
        free 8 s3 (4096 + HDR) = some s4 ∧
        FreeChain s4.mem s4.free_head [4096] ∧
        getCapacity s4.mem 4096 = 20 + 30 + HDR ∧ getUsed s4.mem 4096 = 0 ∧
        s4.sbrkLog = [30 + HDR, 20 + HDR, 0] ∧
        ∃ s5, malloc 8 s4 45 = some (4096 + HDR, s5) ∧
          s5.sbrkLog = s4.sbrkLog ∧ s5.brk = s4.brk) :=
  coalescing_scenario 8 4096 1000000 20 30 45
    (by decide) (by decide) (by decide) (by decide) (by decide) (by decide) (by decide)
    (by decide) (by decide)


/-- C19. Split scenario from the empty allocator (memory zero-filled, the OS
grants the extension): for `0 < r < c < 2^31`, after `p = Allocate(c)` and
`Release(p)`, the call `Allocate(r)` returns `p` without a call of the
heap-extension primitive. If `c - r > sizeof(metadata_t) + 16`, a following
`Allocate(x)` with `0 < x ≤ c - r - sizeof(metadata_t)` returns
`p + r + sizeof(metadata_t)`, again without extending the heap; otherwise the
block keeps capacity `c` and the free list is empty after `Allocate(r)`. -/
theorem split_scenario (fuel brk0 limit c r : Nat)
    (hfuel : 3 ≤ fuel) (hbrk0 : brk0 ≠ 0) (hlimit : limit < 18446744073709551616)
    (hos : brk0 + (c + HDR) ≤ limit)
    (hr : 0 < r) (hrc : r < c) (hc : c < 2147483648) :
    ∃ s1 s2 s3, malloc fuel (emptyState brk0 limit) c = some (brk0 + HDR, s1) ∧
      free fuel s1 (brk0 + HDR) = some s2 ∧
      malloc fuel s2 r = some (brk0 + HDR, s3) ∧
      s3.sbrkLog = s1.sbrkLog ∧ s3.brk = s1.brk ∧
      (c - r > HDR + 16 → ∀ x, 0 < x → x ≤ c - r - HDR →
        ∃ s4, malloc fuel s3 x = some (brk0 + HDR + r + HDR, s4) ∧
          s4.sbrkLog = s3.sbrkLog ∧ s4.brk = s3.brk) ∧
      (¬ (c - r > HDR + 16) → getCapacity s3.mem brk0 = c ∧ s3.free_head = 0) := by
  have hHDR : HDR = 32 := rfl
  have hos' := hos
  simp only [hHDR] at hos'
  obtain ⟨m1, hA1, hd1, _, _⟩ :=
    first_alloc_spec fuel brk0 limit c (by omega) hbrk0 hlimit hos (by omega)
      (by simp only [hHDR]; omega)
  obtain ⟨g1, g2, _, g4, g5⟩ := hd1
  obtain ⟨m2, hF, u2, sz2, cp2, _, _, _, _, ch2⟩ :=
    free_no_merge_spec fuel
      { mem := m1, brk := brk0 + (c + HDR), limit := limit, sbrkLog := [c + HDR, 0],
        startOfHeap := brk0, head := brk0, tail := brk0, free_head := 0 }
      brk0 [] hbrk0 (show (0 : Nat) < 18446744073709551616 by omega) rfl
      (fun y hy => by cases hy) (Or.inl g4) (Or.inl g5)
  have sz2' : getSize m2 brk0 = c := by rw [sz2]; exact g2
  have cp2' : getCapacity m2 brk0 = c := by rw [cp2]; exact g2
  have he : [brk0].erase brk0 = [] := by simp
  have hfit : List.find? (fits m2 r) [brk0] = some brk0 := by
    have hf : fits m2 r brk0 = true := by
      unfold fits
      rw [sz2', u2]
      exact decide_eq_true ⟨by omega, rfl⟩
    simp only [List.find?, hf]
  by_cases hsp : c - r > HDR + 16
  · obtain ⟨m3, tl, hM, ch3, _, _, _, sz3, cp3, us3, _⟩ :=
      malloc_reuse_split fuel
        { mem := m2, brk := brk0 + (c + HDR), limit := limit, sbrkLog := [c + HDR, 0],
          startOfHeap := brk0, head := brk0, tail := brk0, free_head := brk0 }
        r [brk0] brk0 hbrk0 (show brk0 < 18446744073709551616 by omega) ch2
        (List.pairwise_singleton _ _)
        (show getSize m2 brk0 ≤ getCapacity m2 brk0 by rw [sz2', cp2'])
        (by simp only [List.length_singleton]; omega) hfit
        (show 48 < getSize m2 brk0 - r by rw [sz2']; simp only [hHDR] at hsp; omega)
        (show getSize m2 brk0 - r < 2147483648 by rw [sz2']; omega) hr
    rw [he] at ch3
    have sz3' : getSize m3 (brk0 + HDR + r) = c - r - HDR := by
      rw [sz3]; show getSize m2 brk0 - r - HDR = _; rw [sz2']
    have cp3' : getCapacity m3 (brk0 + HDR + r) = c - r - HDR := by
      rw [cp3]; show getSize m2 brk0 - r - HDR = _; rw [sz2']
    refine ⟨_, _, _, hA1, hF, hM, rfl, rfl, ?_, fun h => absurd hsp h⟩
    intro _ x hx0 hx
    obtain ⟨s4, e1, e2, e3, _, _⟩ :=
      malloc_fit_returns fuel
        { mem := m3, brk := brk0 + (c + HDR), limit := limit, sbrkLog := [c + HDR, 0],
          startOfHeap := brk0, head := brk0, tail := tl, free_head := brk0 + HDR + r }
        x [brk0 + HDR + r] (brk0 + HDR + r) hx0 hbrk0
        (show brk0 + HDR + r < 18446744073709551616 by simp only [hHDR]; omega) ch3
        (List.pairwise_singleton _ _)
        (fun y hy => by
          rw [List.mem_singleton.mp hy]
          show getSize m3 (brk0 + HDR + r) ≤ getCapacity m3 (brk0 + HDR + r)
          rw [sz3', cp3'])
        (by simp only [List.length_singleton]; omega)
        (by
          have hf : fits m3 x (brk0 + HDR + r) = true := by
            unfold fits
            rw [sz3', us3]
            exact decide_eq_true ⟨hx, rfl⟩
          show List.find? (fits m3 x) [brk0 + HDR + r] = some (brk0 + HDR + r)
          simp only [List.find?, hf])
    exact ⟨s4, e1, e2, e3⟩
  · obtain ⟨m3, fh, hM, ch3, _, _, fr3⟩ :=
      malloc_reuse_whole fuel
        { mem := m2, brk := brk0 + (c + HDR), limit := limit, sbrkLog := [c + HDR, 0],
          startOfHeap := brk0, head := brk0, tail := brk0, free_head := brk0 }
        r [brk0] brk0 hbrk0 ch2 (List.pairwise_singleton _ _)
        (by simp only [List.length_singleton]; omega) hfit
        (show r < getSize m2 brk0 by rw [sz2']; exact hrc)
        (Or.inl (show getSize m2 brk0 ≤ r + 48 by
          rw [sz2']; simp only [hHDR] at hsp; omega)) hr
    rw [he] at ch3
    have hfh : fh = 0 := ch3
    have cp3 : getCapacity m3 brk0 = c := by
      rw [← cp2']
      exact rdN_congr _ _ 4 (brk0 + 4) (fun x h1 h2 =>
        fr3 x (by omega) (by omega) (fun y hy => by
          rw [List.mem_singleton.mp hy]; omega))
    refine ⟨_, _, _, hA1, hF, hM, rfl, rfl, fun h => absurd h hsp, fun _ => ⟨cp3, hfh⟩⟩

/-- C19 at the witness of the claim, `c = 100` and `r = 10` with break at 4096
(the leftover is split off and serves `Allocate(20)`), and at `c = 100`,
`r = 60` (the leftover of 40 bytes stays in the block as slack). -/
theorem split_scenario_witness :
    (∃ s1 s2 s3, malloc 8 (emptyState 4096 1000000) 100 = some (4096 + HDR, s1) ∧
      free 8 s1 (4096 + HDR) = some s2 ∧
      malloc 8 s2 10 = some (4096 + HDR, s3) ∧
      s3.sbrkLog = s1.sbrkLog ∧ s3.brk = s1.brk ∧
      ∃ s4, malloc 8 s3 20 = some (4096 + HDR + 10 + HDR, s4) ∧
        s4.sbrkLog = s3.sbrkLog ∧ s4.brk = s3.brk) ∧
    (∃ s1 s2 s3, malloc 8 (emptyState 4096 1000000) 100 = some (4096 + HDR, s1) ∧
      free 8 s1 (4096 + HDR) = some s2 ∧
      malloc 8 s2 60 = some (4096 + HDR, s3) ∧
      s3.sbrkLog = s1.sbrkLog ∧ s3.brk = s1.brk ∧
      getCapacity s3.mem 4096 = 100 ∧ s3.free_head = 0) := by
  constructor
  · obtain ⟨s1, s2, s3, h1, h2, h3, h4, h5, h6, _⟩ :=
      split_scenario 8 4096 1000000 100 10
        (by decide) (by decide) (by decide) (by decide) (by decide) (by decide) (by decide)
    exact ⟨s1, s2, s3, h1, h2, h3, h4, h5, h6 (by decide) 20 (by decide) (by decide)⟩
  · obtain ⟨s1, s2, s3, h1, h2, h3, h4, h5, _, h7⟩ :=
      split_scenario 8 4096 1000000 100 60
        (by decide) (by decide) (by decide) (by decide) (by decide) (by decide) (by decide)
    exact ⟨s1, s2, s3, h1, h2, h3, h4, h5, h7 (by decide)⟩


/-- C20. The free list becomes cyclic and `malloc` does not return: the sequence
`p = Allocate(20); Release(p); q = Allocate(20); Release(q)` is valid and leaves
the block at 4096 as head of the free list with `next_free` pointing to itself;
the first-fit scan of `Allocate(100)` then never reaches `NULL`: for no amount
of fuel does `malloc` return. -/
theorem free_list_cycle_no_return :
    Reaches (run 8 (newClient 4096 1000000)
        [.allocate 20, .release 0, .allocate 20, .release 1])
      (fun c => c.live = [] ∧ c.st.free_head = 4096 ∧ getNextFree c.st.mem 4096 = 4096) ∧
    ¬ ∃ fuel r, malloc fuel (stateAfter 8 4096 1000000
        [.allocate 20, .release 0, .allocate 20, .release 1]) 100 = some r := by
  refine ⟨by decide!, ?_⟩
  intro h
  obtain ⟨fuel, r, hr⟩ := h
  have hloop := findFit_self_loop
    (stateAfter 8 4096 1000000 [.allocate 20, .release 0, .allocate 20, .release 1]).mem
    100 4096 (by decide) (by decide!) (by decide!) fuel
  have hfh : (stateAfter 8 4096 1000000
      [.allocate 20, .release 0, .allocate 20, .release 1]).free_head = 4096 := by decide!
  have hsh : startHeap (stateAfter 8 4096 1000000
      [.allocate 20, .release 0, .allocate 20, .release 1])
      = (stateAfter 8 4096 1000000
      [.allocate 20, .release 0, .allocate 20, .release 1], false) := by
    have h0 : (stateAfter 8 4096 1000000
      [.allocate 20, .release 0, .allocate 20, .release 1]).startOfHeap ≠ 0 := by decide!
    simp [startHeap, h0]
  unfold malloc at hr
  simp only [show ¬ (100 : Nat) = 0 by decide, if_false, hsh, Bool.false_eq_true, hfh, hloop]
    at hr
  cases hr

end MpMalloc
